import Mathlib

/-!
Shallow embedding of the rust-dsm static-analysis core
(`src/analysis/dependency-graph.ts`, `src/analysis/metrics.ts`,
`src/analysis/cycle-detector.ts`, `src/parser/use-resolver.ts`,
`src/parser/module-resolver.ts`, `src/types/*.ts`) together with proofs
about the dependency-graph builder, the module-level aggregations, the
cycle detector, the metrics engine and the entry-point resolution.

JavaScript `Map` and `Set` are modelled by insertion-ordered association
lists (`Jmap`, `Jset`) whose `set`/`add` update in place, matching JS
iteration-order semantics.  JS floating-point numbers holding metric
ratios are modelled by exact rationals (`ℚ`); integer-valued numbers by
`Nat`.  File-system reads are modelled by explicit oracle functions.
-/

namespace RustDsm

/-! ## Data model (`src/types/ast.ts`) -/

structure Position where
  line : Nat
  column : Nat
deriving DecidableEq, Repr

structure Span where
  start : Position
  «end» : Position
deriving DecidableEq, Repr

/-- `TypeReference` from `src/types/ast.ts`; recursive through
`typeParameters`, hence an inductive with a single constructor. -/
inductive TypeReference where
  | mk (name : String) (resolvedPath : Option String)
       (typeParameters : List TypeReference) (span : Span)
deriving Repr

def TypeReference.name : TypeReference → String
  | .mk n _ _ _ => n

def TypeReference.resolvedPath : TypeReference → Option String
  | .mk _ r _ _ => r

def TypeReference.typeParameters : TypeReference → List TypeReference
  | .mk _ _ ps _ => ps

def TypeReference.span : TypeReference → Span
  | .mk _ _ _ s => s

inductive VisibilityKind where
  | «public» | «private» | crateScoped | superScoped | in_path
deriving DecidableEq, Repr

structure Visibility where
  kind : VisibilityKind
  path : Option String := none
deriving DecidableEq, Repr

structure GenericParam where
  name : String
  bounds : List TypeReference
deriving Repr

structure FieldDef where
  name : Option String
  visibility : Visibility
  typeRef : TypeReference
  span : Span
deriving Repr

structure StructDef where
  name : String
  visibility : Visibility
  generics : List GenericParam
  fields : List FieldDef
  span : Span
deriving Repr

structure EnumVariant where
  name : String
  fields : List FieldDef
  span : Span
deriving Repr

structure EnumDef where
  name : String
  visibility : Visibility
  generics : List GenericParam
  variants : List EnumVariant
  span : Span
deriving Repr

inductive SelfKind where
  | value | ref | mut_ref
deriving DecidableEq, Repr

structure FunctionParam where
  name : String
  typeRef : TypeReference
  isSelf : Bool
  selfKind : Option SelfKind := none
deriving Repr

structure Callsite where
  functionPath : String
  isMethodCall : Bool
  receiverType : Option TypeReference
  span : Span
deriving Repr

structure FunctionDef where
  name : String
  visibility : Visibility
  generics : List GenericParam
  params : List FunctionParam
  returnType : Option TypeReference
  isAsync : Bool
  isConst : Bool
  -- `isUnsafe` in the source
  isUnsafeFn : Bool
  bodyCallsites : List Callsite
  span : Span
deriving Repr

structure AssociatedTypeDef where
  name : String
  bounds : List TypeReference
  «default» : Option TypeReference
deriving Repr

structure TraitDef where
  name : String
  visibility : Visibility
  generics : List GenericParam
  supertraits : List TypeReference
  methods : List FunctionDef
  associatedTypes : List AssociatedTypeDef
  span : Span
deriving Repr

structure ImplBlock where
  traitRef : Option TypeReference
  selfType : TypeReference
  generics : List GenericParam
  methods : List FunctionDef
  span : Span
deriving Repr

structure UseItem where
  name : String
  «alias» : Option String
deriving DecidableEq, Repr

structure UseDeclaration where
  path : List String
  «alias» : Option String
  isGlob : Bool
  items : List UseItem
  visibility : Visibility
  span : Span
deriving DecidableEq, Repr

structure ConstDef where
  name : String
  visibility : Visibility
  typeRef : TypeReference
  span : Span
deriving Repr

structure StaticDef where
  name : String
  visibility : Visibility
  typeRef : TypeReference
  isMut : Bool
  span : Span
deriving Repr

structure TypeAliasDef where
  name : String
  visibility : Visibility
  generics : List GenericParam
  aliasedType : TypeReference
  span : Span
deriving Repr

/-- `ModuleDefinition` from `src/types/ast.ts`; recursive through
`submodules`, hence an inductive with a single constructor. -/
inductive ModuleDefinition where
  | mk (name : String) (path : String) (filePath : String)
       (visibility : Visibility)
       (structs : List StructDef) (enums : List EnumDef)
       (traits : List TraitDef) (functions : List FunctionDef)
       (impls : List ImplBlock) (uses : List UseDeclaration)
       (submodules : List ModuleDefinition)
       (constants : List ConstDef) (statics : List StaticDef)
       (typeAliases : List TypeAliasDef)
deriving Repr

def ModuleDefinition.name : ModuleDefinition → String
  | .mk n _ _ _ _ _ _ _ _ _ _ _ _ _ => n

def ModuleDefinition.path : ModuleDefinition → String
  | .mk _ p _ _ _ _ _ _ _ _ _ _ _ _ => p

def ModuleDefinition.filePath : ModuleDefinition → String
  | .mk _ _ f _ _ _ _ _ _ _ _ _ _ _ => f

def ModuleDefinition.visibility : ModuleDefinition → Visibility
  | .mk _ _ _ v _ _ _ _ _ _ _ _ _ _ => v

def ModuleDefinition.structs : ModuleDefinition → List StructDef
  | .mk _ _ _ _ s _ _ _ _ _ _ _ _ _ => s

def ModuleDefinition.enums : ModuleDefinition → List EnumDef
  | .mk _ _ _ _ _ e _ _ _ _ _ _ _ _ => e

def ModuleDefinition.traits : ModuleDefinition → List TraitDef
  | .mk _ _ _ _ _ _ t _ _ _ _ _ _ _ => t

def ModuleDefinition.functions : ModuleDefinition → List FunctionDef
  | .mk _ _ _ _ _ _ _ f _ _ _ _ _ _ => f

def ModuleDefinition.impls : ModuleDefinition → List ImplBlock
  | .mk _ _ _ _ _ _ _ _ i _ _ _ _ _ => i

def ModuleDefinition.uses : ModuleDefinition → List UseDeclaration
  | .mk _ _ _ _ _ _ _ _ _ u _ _ _ _ => u

def ModuleDefinition.submodules : ModuleDefinition → List ModuleDefinition
  | .mk _ _ _ _ _ _ _ _ _ _ s _ _ _ => s

def ModuleDefinition.constants : ModuleDefinition → List ConstDef
  | .mk _ _ _ _ _ _ _ _ _ _ _ c _ _ => c

def ModuleDefinition.statics : ModuleDefinition → List StaticDef
  | .mk _ _ _ _ _ _ _ _ _ _ _ _ s _ => s

def ModuleDefinition.typeAliases : ModuleDefinition → List TypeAliasDef
  | .mk _ _ _ _ _ _ _ _ _ _ _ _ _ t => t

structure CrateDefinition where
  name : String
  rootModule : ModuleDefinition
  cratePath : String
  isLibrary : Bool
deriving Repr

/-! ## Graph types (`src/types/graph.ts`) -/

inductive DependencyType where
  | use_import | type_reference | function_call | method_call
  | trait_impl | trait_bound | field_type | return_type | parameter_type
deriving DecidableEq, Repr

inductive NodeKind where
  | crate | module | «struct» | enum | trait | function | impl
deriving DecidableEq, Repr

structure EdgeLocation where
  file : String
  line : Nat
  column : Nat
deriving DecidableEq, Repr

structure DependencyEdge where
  «from» : String
  «to» : String
  depType : DependencyType
  count : Nat
  locations : List EdgeLocation
deriving DecidableEq, Repr

structure GraphNode where
  id : String
  name : String
  path : String
  kind : NodeKind
  parentId : Option String
  filePath : String
  line : Nat
  children : List String
deriving DecidableEq, Repr

instance : Inhabited GraphNode :=
  ⟨⟨"", "", "", .module, none, "", 0, []⟩⟩

/-! ## JS `Map` / `Set` model

A `Jmap` is a JS `Map<string, α>`: an association list in insertion
order; `set` on an existing key updates the value in place, otherwise
appends.  A `Jset` is a JS `Set<string>`. -/

abbrev Jmap (α : Type) : Type := List (String × α)

def Jmap.get? (m : Jmap α) (k : String) : Option α :=
  (List.find? (fun p => p.1 == k) m).map (·.2)

def Jmap.contains (m : Jmap α) (k : String) : Bool :=
  List.any m (fun p => p.1 == k)

def Jmap.set (m : Jmap α) (k : String) (v : α) : Jmap α :=
  if m.contains k then
    List.map (fun p => if p.1 == k then (k, v) else p) m
  else
    m ++ [(k, v)]

def Jmap.keys (m : Jmap α) : List String :=
  List.map Prod.fst m

def Jmap.values (m : Jmap α) : List α :=
  List.map Prod.snd m

def Jmap.size (m : Jmap α) : Nat :=
  List.length m

abbrev Jset : Type := List String

def Jset.contains (s : Jset) (x : String) : Bool :=
  List.any s (fun y => y == x)

def Jset.add (s : Jset) (x : String) : Jset :=
  if s.contains x then s else s ++ [x]

def Jset.size (s : Jset) : Nat :=
  List.length s

/-! ## Reducible string matching

Kernel-reducible models of the JS string operations `startsWith`,
`endsWith`, `includes` and `split('::')`, working on the character
list underlying a `String` (JS code units and characters coincide on
the identifier/path strings involved). -/

def isPrefixList : List Char → List Char → Bool
  | [], _ => true
  | _ :: _, [] => false
  | a :: as, b :: bs => a == b && isPrefixList as bs

def strStartsWith (s pre : String) : Bool :=
  isPrefixList pre.data s.data

def strEndsWith (s post : String) : Bool :=
  isPrefixList post.data.reverse s.data.reverse

def containsList (sub : List Char) : List Char → Bool
  | [] => isPrefixList sub []
  | c :: rest => isPrefixList sub (c :: rest) || containsList sub rest

/-- JS `s.includes(sub)`. -/
def strContains (s sub : String) : Bool :=
  containsList sub.data s.data

/-- JS `s.split('::')` on the character level. -/
def splitColons : List Char → List (List Char)
  | [] => [[]]
  | ':' :: ':' :: rest => [] :: splitColons rest
  | c :: rest =>
    match splitColons rest with
    | h :: t => (c :: h) :: t
    | [] => [[c]]

def strSplitColons (s : String) : List String :=
  (splitColons s.data).map (fun l => ⟨l⟩)

structure DependencyGraph where
  nodes : Jmap GraphNode
  edges : List DependencyEdge
  adjacencyList : Jmap Jset
  reverseAdjacencyList : Jmap Jset

structure Cycle where
  nodes : List String
  edges : List DependencyEdge
deriving DecidableEq, Repr

/-! ## Use resolver / symbol index (`src/parser/use-resolver.ts`) -/

structure SymbolIndex where
  types : Jmap String
  functions : Jmap String
  traits : Jmap String
  modules : Jmap String

structure ResolvedUse where
  localName : String
  resolvedPath : String
  kind : String
deriving DecidableEq, Repr

mutual

/-- `UseResolver.indexModule`: walk the module tree once and record every
declared path in the index (value = key, as in the source). -/
def indexModule : ModuleDefinition → SymbolIndex → SymbolIndex
  | .mk _ path _ _ structs enums traits functions _ _ submodules _ _ typeAliases, idx =>
    let idx := { idx with modules := idx.modules.set path path }
    let idx := structs.foldl
      (fun i s => { i with types := i.types.set (path ++ "::" ++ s.name) (path ++ "::" ++ s.name) }) idx
    let idx := enums.foldl
      (fun i e => { i with types := i.types.set (path ++ "::" ++ e.name) (path ++ "::" ++ e.name) }) idx
    let idx := traits.foldl
      (fun i t => { i with traits := i.traits.set (path ++ "::" ++ t.name) (path ++ "::" ++ t.name) }) idx
    let idx := functions.foldl
      (fun i f => { i with functions := i.functions.set (path ++ "::" ++ f.name) (path ++ "::" ++ f.name) }) idx
    let idx := typeAliases.foldl
      (fun i a => { i with types := i.types.set (path ++ "::" ++ a.name) (path ++ "::" ++ a.name) }) idx
    indexSubmodules submodules idx

/-- The submodule loop of `indexModule`. -/
def indexSubmodules : List ModuleDefinition → SymbolIndex → SymbolIndex
  | [], idx => idx
  | m :: ms, idx => indexSubmodules ms (indexModule m idx)

end

/-- `UseResolver.buildSymbolIndex`. -/
def buildSymbolIndex (root : ModuleDefinition) : SymbolIndex :=
  indexModule root ⟨[], [], [], []⟩

/-- `UseResolver.resolveBasePath`. -/
def resolveBasePath (pathSegments : List String) (currentModulePath : String) : String :=
  match pathSegments with
  | [] => currentModulePath
  | first :: _ =>
    if first == "crate" then
      String.intercalate "::" pathSegments
    else if first == "self" then
      String.intercalate "::" (currentModulePath :: pathSegments.tail)
    else if first == "super" then
      let parentPath := String.intercalate "::" ((strSplitColons currentModulePath).dropLast)
      String.intercalate "::" (parentPath :: pathSegments.tail)
    else if first == "std" || first == "core" || first == "alloc" then
      String.intercalate "::" pathSegments
    else
      "crate::" ++ String.intercalate "::" pathSegments

/-- `UseResolver.resolveGlobImport`: enumerate index entries directly under
`basePath`, types first, then functions, then traits. -/
def resolveGlobImport (idx : SymbolIndex) (basePath : String) : List ResolvedUse :=
  let prefixStr := basePath ++ "::"
  let fromMap := fun (m : Jmap String) (kind : String) =>
    m.foldl (fun (acc : List ResolvedUse) p =>
      if strStartsWith p.1 prefixStr then
        let remaining : String := ⟨p.1.data.drop prefixStr.data.length⟩
        if strContains remaining "::" then acc
        else acc ++ [⟨remaining, p.1, kind⟩]
      else acc) []
  fromMap idx.types "type" ++ fromMap idx.functions "function" ++ fromMap idx.traits "trait"

/-- `UseResolver.determineSymbolKind`. -/
def determineSymbolKind (idx : SymbolIndex) (path : String) : String :=
  if idx.types.contains path then "type"
  else if idx.functions.contains path then "function"
  else if idx.traits.contains path then "trait"
  else if idx.modules.contains path then "module"
  else "unknown"

/-- `UseResolver.resolveUseDeclaration`. -/
def resolveUseDeclaration (idx : SymbolIndex) (use : UseDeclaration)
    (currentModulePath : String) : List ResolvedUse :=
  let basePath := resolveBasePath use.path currentModulePath
  if use.isGlob then
    resolveGlobImport idx basePath
  else if !use.items.isEmpty then
    use.items.map (fun item =>
      let itemPath := basePath ++ "::" ++ item.name
      let localName := item.«alias».getD item.name
      ⟨localName, itemPath, determineSymbolKind idx itemPath⟩)
  else
    let lastSegment := use.path.getLastD ""
    let localName := use.«alias».getD lastSegment
    [⟨localName, basePath, determineSymbolKind idx basePath⟩]

/-- The per-module alias table built by `UseResolver.resolveUsesForModule`
(`localName → resolvedPath`); the table is stored under the module's path
and is only ever read back while that module is being processed, so it is
modelled as a pure per-module computation. -/
def moduleAliases (idx : SymbolIndex) (m : ModuleDefinition) : Jmap String :=
  m.uses.foldl
    (fun acc use =>
      (resolveUseDeclaration idx use m.path).foldl
        (fun (a : Jmap String) item => a.set item.localName item.resolvedPath) acc)
    []

/-- `UseResolver.isPrimitive` (the resolver's own list, without `()` and
without the `&`-prefix check of the graph builder's list). -/
def UseResolver.isPrimitive (name : String) : Bool :=
  name == "bool" || name == "char" || name == "str" ||
  name == "u8" || name == "u16" || name == "u32" || name == "u64" ||
  name == "u128" || name == "usize" ||
  name == "i8" || name == "i16" || name == "i32" || name == "i64" ||
  name == "i128" || name == "isize" ||
  name == "f32" || name == "f64"

/-- `UseResolver.resolveTypeReference`. -/
def resolveTypeReference (idx : SymbolIndex) (aliases : Jmap String)
    (typeRef : TypeReference) (modulePath : String) : Option String :=
  let name := typeRef.name
  if UseResolver.isPrimitive name then
    some ("std::" ++ name)
  else
    match aliases.get? name with
    | some p => some p
    | none =>
      let localPath := modulePath ++ "::" ++ name
      if idx.types.contains localPath || idx.traits.contains localPath then
        some localPath
      else
        let cratePath := "crate::" ++ name
        if idx.types.contains cratePath || idx.traits.contains cratePath then
          some cratePath
        else if strContains name "::" then
          let fullPath := if strStartsWith name "crate::" then name else "crate::" ++ name
          if idx.types.contains fullPath || idx.traits.contains fullPath then
            some fullPath
          else
            none
        else
          none

/-! ## Dependency-graph builder (`src/analysis/dependency-graph.ts`) -/

structure NodeState where
  nodes : Jmap GraphNode
  adjacencyList : Jmap Jset
  reverseAdjacencyList : Jmap Jset

structure EdgeState where
  edgeMap : Jmap DependencyEdge
  adjacencyList : Jmap Jset
  reverseAdjacencyList : Jmap Jset

/-- `DependencyGraphBuilder.addNode`. -/
def addNode (st : NodeState) (node : GraphNode) : NodeState :=
  { nodes := st.nodes.set node.id node
    adjacencyList := st.adjacencyList.set node.id []
    reverseAdjacencyList := st.reverseAdjacencyList.set node.id [] }

/-- `DependencyGraphBuilder.addChild`: mutate the parent's `children` in
the node map, if the parent exists. -/
def addChild (st : NodeState) (parentId childId : String) : NodeState :=
  { st with
    nodes := st.nodes.map (fun p =>
      if p.1 == parentId then (p.1, { p.2 with children := p.2.children ++ [childId] }) else p) }

mutual

/-- `DependencyGraphBuilder.buildNodes` (pass 1). -/
def buildNodes : ModuleDefinition → Option String → NodeState → NodeState
  | .mk name path filePath _ structs enums traits functions _ _ submodules _ _ _,
    parentId, st =>
    let moduleId := path
    let st := addNode st ⟨moduleId, name, path, .module, parentId, filePath, 1, []⟩
    let st := structs.foldl (fun st s =>
      let structId := moduleId ++ "::" ++ s.name
      addChild (addNode st ⟨structId, s.name, structId, .struct, some moduleId, filePath, s.span.start.line, []⟩)
        moduleId structId) st
    let st := enums.foldl (fun st e =>
      let enumId := moduleId ++ "::" ++ e.name
      addChild (addNode st ⟨enumId, e.name, enumId, .enum, some moduleId, filePath, e.span.start.line, []⟩)
        moduleId enumId) st
    let st := traits.foldl (fun st t =>
      let traitId := moduleId ++ "::" ++ t.name
      addChild (addNode st ⟨traitId, t.name, traitId, .trait, some moduleId, filePath, t.span.start.line, []⟩)
        moduleId traitId) st
    let st := functions.foldl (fun st f =>
      let fnId := moduleId ++ "::" ++ f.name
      addChild (addNode st ⟨fnId, f.name, fnId, .function, some moduleId, filePath, f.span.start.line, []⟩)
        moduleId fnId) st
    buildNodesList moduleId submodules st

/-- The submodule loop of `buildNodes`: recurse into the submodule, then
register it as a child of the parent module. -/
def buildNodesList (moduleId : String) : List ModuleDefinition → NodeState → NodeState
  | [], st => st
  | sub :: rest, st =>
    buildNodesList moduleId rest (addChild (buildNodes sub (some moduleId) st) moduleId sub.path)

end

/-- The string form a `DependencyType` takes inside the JS template
literal used for edge keys. -/
def depTypeKey : DependencyType → String
  | .use_import => "use_import"
  | .type_reference => "type_reference"
  | .function_call => "function_call"
  | .method_call => "method_call"
  | .trait_impl => "trait_impl"
  | .trait_bound => "trait_bound"
  | .field_type => "field_type"
  | .return_type => "return_type"
  | .parameter_type => "parameter_type"

/-- `DependencyGraphBuilder.addEdge`: edges keyed by `from|to|kind`;
duplicates increment `count` and append a location; the edge is dropped
when either endpoint is absent from the node map. -/
def addEdge (nodes : Jmap GraphNode) (es : EdgeState) (fromId toId : String)
    (depType : DependencyType) (file : String) (line column : Nat) : EdgeState :=
  if !(nodes.contains fromId) || !(nodes.contains toId) then es
  else
    let edgeKey := fromId ++ "|" ++ toId ++ "|" ++ depTypeKey depType
    let location : EdgeLocation := ⟨file, line, column⟩
    let edgeMap :=
      match es.edgeMap.get? edgeKey with
      | some edge =>
        es.edgeMap.set edgeKey
          { edge with count := edge.count + 1, locations := edge.locations ++ [location] }
      | none =>
        es.edgeMap.set edgeKey ⟨fromId, toId, depType, 1, [location]⟩
    let adj :=
      match es.adjacencyList.get? fromId with
      | some s => es.adjacencyList.set fromId (s.add toId)
      | none => es.adjacencyList
    let radj :=
      match es.reverseAdjacencyList.get? toId with
      | some s => es.reverseAdjacencyList.set toId (s.add fromId)
      | none => es.reverseAdjacencyList
    ⟨edgeMap, adj, radj⟩

/-- `DependencyGraphBuilder.isPrimitive` (the builder's list: also `()`
and `&`-prefixed references). -/
def DependencyGraphBuilder.isPrimitive (name : String) : Bool :=
  UseResolver.isPrimitive name || name == "()" || strStartsWith name "&"

/-- `DependencyGraphBuilder.isStdType`. -/
def DependencyGraphBuilder.isStdType (name : String) : Bool :=
  name == "String" || name == "Vec" || name == "Option" || name == "Result" ||
  name == "Box" || name == "Rc" || name == "Arc" || name == "Cell" ||
  name == "RefCell" || name == "Mutex" || name == "RwLock" ||
  name == "HashMap" || name == "HashSet" || name == "BTreeMap" ||
  name == "BTreeSet" || name == "VecDeque" || name == "LinkedList" ||
  name == "BinaryHeap" || name == "Cow" || name == "PhantomData"

/-- Shared tail of `DependencyGraphBuilder.resolveTypeRefToNodeId`: the
local-path, crate-path and last-resort suffix-match lookups over the node
map in insertion order. -/
def resolveTypeRefFallback (nodes : Jmap GraphNode) (currentModule name : String) :
    Option String :=
  let localPath := currentModule ++ "::" ++ name
  if nodes.contains localPath then some localPath
  else
    let cratePath := "crate::" ++ name
    if nodes.contains cratePath then some cratePath
    else nodes.keys.find? (fun k => strEndsWith k ("::" ++ name))

/-- `DependencyGraphBuilder.resolveTypeRefToNodeId`. -/
def resolveTypeRefToNodeId (nodes : Jmap GraphNode) (idx : SymbolIndex)
    (aliases : Jmap String) (currentModule : String) (typeRef : TypeReference) :
    Option String :=
  let name := typeRef.name
  if DependencyGraphBuilder.isPrimitive name || DependencyGraphBuilder.isStdType name then
    none
  else
    match resolveTypeReference idx aliases typeRef currentModule with
    | some resolved =>
      if nodes.contains resolved then some resolved
      else resolveTypeRefFallback nodes currentModule name
    | none => resolveTypeRefFallback nodes currentModule name

/-- `DependencyGraphBuilder.resolveToNodeId`. -/
def resolveToNodeId (nodes : Jmap GraphNode) (path : String) : Option String :=
  let normalizedPath :=
    if !(strStartsWith path "crate::") && !(strStartsWith path "std::") &&
       !(strStartsWith path "core::") then
      "crate::" ++ path
    else path
  if nodes.contains normalizedPath then some normalizedPath
  else if nodes.contains path then some path
  else none

/-- `DependencyGraphBuilder.resolveFunctionCall`. -/
def resolveFunctionCall (nodes : Jmap GraphNode) (currentModule callPath : String) :
    Option String :=
  let localPath := currentModule ++ "::" ++ callPath
  if nodes.contains localPath then some localPath
  else
    let cratePath := "crate::" ++ callPath
    if nodes.contains cratePath then some cratePath
    else nodes.keys.find? (fun k => strEndsWith k ("::" ++ callPath))

mutual

/-- `DependencyGraphBuilder.processTypeRef`: emit an edge to the resolved
target (unless it is the source itself), then recurse through generic
arguments. -/
def processTypeRef (nodes : Jmap GraphNode) (idx : SymbolIndex) (aliases : Jmap String)
    (currentModule : String) (fromId : String) :
    TypeReference → DependencyType → String → EdgeState → EdgeState
  | .mk name resolvedPath typeParameters span, depType, filePath, es =>
    let t : TypeReference := .mk name resolvedPath typeParameters span
    let es :=
      match resolveTypeRefToNodeId nodes idx aliases currentModule t with
      | some toId =>
        if toId != fromId then
          addEdge nodes es fromId toId depType filePath span.start.line span.start.column
        else es
      | none => es
    processTypeRefList nodes idx aliases currentModule fromId typeParameters depType filePath es

/-- The generic-argument loop of `processTypeRef`. -/
def processTypeRefList (nodes : Jmap GraphNode) (idx : SymbolIndex) (aliases : Jmap String)
    (currentModule : String) (fromId : String) :
    List TypeReference → DependencyType → String → EdgeState → EdgeState
  | [], _, _, es => es
  | p :: ps, depType, filePath, es =>
    processTypeRefList nodes idx aliases currentModule fromId ps depType filePath
      (processTypeRef nodes idx aliases currentModule fromId p depType filePath es)

end

/-- `DependencyGraphBuilder.processUse`: one `use_import` edge per listed
item, or one edge for a plain single-path use; glob uses fall into
neither branch and emit nothing. -/
def processUse (nodes : Jmap GraphNode) (m : ModuleDefinition)
    (use : UseDeclaration) (es : EdgeState) : EdgeState :=
  let basePath := String.intercalate "::" use.path
  let fromId := m.path
  if !use.items.isEmpty then
    use.items.foldl (fun es item =>
      let toPath := basePath ++ "::" ++ item.name
      match resolveToNodeId nodes toPath with
      | some toId =>
        addEdge nodes es fromId toId .use_import m.filePath use.span.start.line use.span.start.column
      | none => es) es
  else if !use.isGlob then
    match resolveToNodeId nodes basePath with
    | some toId =>
      addEdge nodes es fromId toId .use_import m.filePath use.span.start.line use.span.start.column
    | none => es
  else es

/-- `DependencyGraphBuilder.processStruct`. -/
def processStruct (nodes : Jmap GraphNode) (idx : SymbolIndex) (aliases : Jmap String)
    (m : ModuleDefinition) (s : StructDef) (es : EdgeState) : EdgeState :=
  let structId := m.path ++ "::" ++ s.name
  let es := s.fields.foldl (fun es field =>
    processTypeRef nodes idx aliases m.path structId field.typeRef .field_type m.filePath es) es
  s.generics.foldl (fun es g =>
    g.bounds.foldl (fun es b =>
      processTypeRef nodes idx aliases m.path structId b .trait_bound m.filePath es) es) es

/-- `DependencyGraphBuilder.processEnum`. -/
def processEnum (nodes : Jmap GraphNode) (idx : SymbolIndex) (aliases : Jmap String)
    (m : ModuleDefinition) (e : EnumDef) (es : EdgeState) : EdgeState :=
  let enumId := m.path ++ "::" ++ e.name
  let es := e.variants.foldl (fun es variant =>
    variant.fields.foldl (fun es field =>
      processTypeRef nodes idx aliases m.path enumId field.typeRef .field_type m.filePath es) es) es
  e.generics.foldl (fun es g =>
    g.bounds.foldl (fun es b =>
      processTypeRef nodes idx aliases m.path enumId b .trait_bound m.filePath es) es) es

/-- `DependencyGraphBuilder.processFunction`. -/
def processFunction (nodes : Jmap GraphNode) (idx : SymbolIndex) (aliases : Jmap String)
    (m : ModuleDefinition) (fn : FunctionDef) (parentId : String) (es : EdgeState) : EdgeState :=
  let fnId :=
    if parentId == m.path then m.path ++ "::" ++ fn.name else parentId ++ "::" ++ fn.name
  let es := fn.params.foldl (fun es param =>
    if !param.isSelf then
      processTypeRef nodes idx aliases m.path fnId param.typeRef .parameter_type m.filePath es
    else es) es
  let es :=
    match fn.returnType with
    | some rt => processTypeRef nodes idx aliases m.path fnId rt .return_type m.filePath es
    | none => es
  let es := fn.generics.foldl (fun es g =>
    g.bounds.foldl (fun es b =>
      processTypeRef nodes idx aliases m.path fnId b .trait_bound m.filePath es) es) es
  fn.bodyCallsites.foldl (fun es callsite =>
    let depType : DependencyType :=
      if callsite.isMethodCall then .method_call else .function_call
    match resolveFunctionCall nodes m.path callsite.functionPath with
    | some targetId =>
      addEdge nodes es fnId targetId depType m.filePath callsite.span.start.line callsite.span.start.column
    | none => es) es

/-- `DependencyGraphBuilder.processTrait`. -/
def processTrait (nodes : Jmap GraphNode) (idx : SymbolIndex) (aliases : Jmap String)
    (m : ModuleDefinition) (t : TraitDef) (es : EdgeState) : EdgeState :=
  let traitId := m.path ++ "::" ++ t.name
  let es := t.supertraits.foldl (fun es st =>
    processTypeRef nodes idx aliases m.path traitId st .trait_bound m.filePath es) es
  t.methods.foldl (fun es method =>
    processFunction nodes idx aliases m method traitId es) es

/-- `DependencyGraphBuilder.processImpl`. -/
def processImpl (nodes : Jmap GraphNode) (idx : SymbolIndex) (aliases : Jmap String)
    (m : ModuleDefinition) (impl : ImplBlock) (es : EdgeState) : EdgeState :=
  let selfTypeId := resolveTypeRefToNodeId nodes idx aliases m.path impl.selfType
  let es :=
    match impl.traitRef, selfTypeId with
    | some traitRef, some sid =>
      match resolveTypeRefToNodeId nodes idx aliases m.path traitRef with
      | some traitId =>
        addEdge nodes es sid traitId .trait_impl m.filePath impl.span.start.line impl.span.start.column
      | none => es
    | _, _ => es
  impl.methods.foldl (fun es method =>
    match selfTypeId with
    | some sid => processFunction nodes idx aliases m method sid es
    | none => es) es

mutual

/-- `DependencyGraphBuilder.processModule` (pass 2): resolve this
module's uses into the alias table, emit edges for each declaration
kind, then recurse into submodules. -/
def processModule (nodes : Jmap GraphNode) (idx : SymbolIndex) :
    ModuleDefinition → EdgeState → EdgeState
  | .mk name path filePath vis structs enums traits functions impls uses submodules
      constants statics typeAliases, es =>
    let m : ModuleDefinition := .mk name path filePath vis structs enums traits functions
      impls uses submodules constants statics typeAliases
    let aliases := moduleAliases idx m
    let es := uses.foldl (fun es u => processUse nodes m u es) es
    let es := structs.foldl (fun es s => processStruct nodes idx aliases m s es) es
    let es := enums.foldl (fun es e => processEnum nodes idx aliases m e es) es
    let es := traits.foldl (fun es t => processTrait nodes idx aliases m t es) es
    let es := functions.foldl (fun es f => processFunction nodes idx aliases m f path es) es
    let es := impls.foldl (fun es i => processImpl nodes idx aliases m i es) es
    processSubmodules nodes idx submodules es

/-- The submodule loop of `processModule`. -/
def processSubmodules (nodes : Jmap GraphNode) (idx : SymbolIndex) :
    List ModuleDefinition → EdgeState → EdgeState
  | [], es => es
  | m :: ms, es => processSubmodules nodes idx ms (processModule nodes idx m es)

end

/-- `buildDependencyGraph`: pass 1 builds the node map and empty
adjacency lists; pass 2 emits edges. -/
def buildDependencyGraph (crate : CrateDefinition) : DependencyGraph :=
  let ns := buildNodes crate.rootModule none ⟨[], [], []⟩
  let idx := buildSymbolIndex crate.rootModule
  let es := processModule ns.nodes idx crate.rootModule ⟨[], ns.adjacencyList, ns.reverseAdjacencyList⟩
  ⟨ns.nodes, es.edgeMap.values, es.adjacencyList, es.reverseAdjacencyList⟩

/-! ## Module-level aggregation (`aggregateToModuleLevel`, `getModulePath`) -/

/-- Loop body of `getModulePath` / `findAncestorModule`: walk the parent
chain until a module node is found.  The JS `while` loop is modelled with
fuel; on any graph whose parent chains are acyclic (every graph the
pipeline builds) the fuel `nodes.size + 1` is never exhausted, and a
module node returns before any parent step is taken. -/
def getModulePathGo (nodes : Jmap GraphNode) : Nat → Option GraphNode → Option String
  | _, none => none
  | 0, some _ => none
  | fuel + 1, some current =>
    if current.kind == .module then some current.id
    else
      match current.parentId with
      | some pid => getModulePathGo nodes fuel (nodes.get? pid)
      | none => none

/-- `getModulePath` from `src/analysis/dependency-graph.ts`. -/
def getModulePath (nodeId : String) (graph : DependencyGraph) : Option String :=
  getModulePathGo graph.nodes (graph.nodes.size + 1) (graph.nodes.get? nodeId)

/-- Loop body of `aggregateToModuleLevel` over the original edges:
collapse an edge onto its module pair, merging counts and locations on
the `from|to` key. -/
def aggEdgeStep (graph : DependencyGraph) (em : Jmap DependencyEdge)
    (edge : DependencyEdge) : Jmap DependencyEdge :=
  match getModulePath edge.«from» graph, getModulePath edge.«to» graph with
  | some fromModule, some toModule =>
    if fromModule != toModule then
      let key := fromModule ++ "|" ++ toModule
      match em.get? key with
      | some existing =>
        em.set key
          { existing with count := existing.count + edge.count
                          locations := existing.locations ++ edge.locations }
      | none =>
        em.set key ⟨fromModule, toModule, edge.depType, edge.count, edge.locations⟩
    else em
  | _, _ => em

/-- Node loop of `aggregateToModuleLevel`: keep module nodes (with
`children` cleared). -/
def aggNodeStep (acc : Jmap GraphNode) (p : String × GraphNode) : Jmap GraphNode :=
  if p.2.kind == .module then acc.set p.1 { p.2 with children := [] } else acc

/-- Forward adjacency rebuilt by `aggregateToModuleLevel`: initialise an
empty neighbour set per module node, then record each collapsed edge. -/
def adjacencyOf (moduleNodes : Jmap GraphNode) (moduleEdges : List DependencyEdge) :
    Jmap Jset :=
  let adjInit : Jmap Jset := moduleNodes.keys.foldl (fun a k => a.set k []) []
  moduleEdges.foldl
    (fun (a : Jmap Jset) e =>
      match a.get? e.«from» with
      | some s => a.set e.«from» (s.add e.«to»)
      | none => a) adjInit

/-- Reverse adjacency rebuilt by `aggregateToModuleLevel`. -/
def reverseAdjacencyOf (moduleNodes : Jmap GraphNode) (moduleEdges : List DependencyEdge) :
    Jmap Jset :=
  let radjInit : Jmap Jset := moduleNodes.keys.foldl (fun a k => a.set k []) []
  moduleEdges.foldl
    (fun (a : Jmap Jset) e =>
      match a.get? e.«to» with
      | some s => a.set e.«to» (s.add e.«from»)
      | none => a) radjInit

/-- `aggregateToModuleLevel`: replace every node by its nearest module
ancestor, collapse cross-module edges keyed on `from|to`, summing counts
and concatenating locations; the adjacency lists are rebuilt from the
module nodes and collapsed edges.  (The source updates both adjacency
maps in one loop over the collapsed edges; since each loop iteration
touches the two maps independently this is modelled as two folds.) -/
def aggregateToModuleLevel (graph : DependencyGraph) : DependencyGraph :=
  let moduleNodes := graph.nodes.foldl aggNodeStep []
  let edgeMap := graph.edges.foldl (aggEdgeStep graph) []
  let moduleEdges := edgeMap.values
  ⟨moduleNodes, moduleEdges, adjacencyOf moduleNodes moduleEdges,
   reverseAdjacencyOf moduleNodes moduleEdges⟩

/-- Invariant of the collapsed edge map used in the idempotence proof:
unique keys, each key is its edge's `from|to`, endpoints differ, and both
endpoints are ids of module nodes of the underlying graph. -/
def Inv7 (g : DependencyGraph) (em : Jmap DependencyEdge) : Prop :=
  em.keys.Nodup ∧
  ∀ p ∈ em, p.1 = p.2.«from» ++ "|" ++ p.2.«to» ∧ p.2.«from» ≠ p.2.«to» ∧
    (∃ nf ∈ g.nodes.values, nf.id = p.2.«from» ∧ nf.kind = NodeKind.module) ∧
    (∃ nt ∈ g.nodes.values, nt.id = p.2.«to» ∧ nt.kind = NodeKind.module)

/-! ## Cycle detector (`src/analysis/cycle-detector.ts`) -/

structure TarjanState where
  index : Nat
  stack : List String
  onStack : Jset
  indices : Jmap Nat
  lowLinks : Jmap Nat
  sccs : List (List String)

/-- The pop-until-root loop closing an SCC in `strongConnect`.  The JS
array stack pushes/pops at the end; it is modelled with its top at the
head.  Returns the popped SCC (in pop order) and the remaining stack. -/
def popScc : List String → String → (List String × List String)
  | [], _ => ([], [])
  | w :: rest, v =>
    if w == v then ([w], rest)
    else
      let (scc, rest2) := popScc rest v
      (w :: scc, rest2)

def Jset.removeAll (s : Jset) (xs : List String) : Jset :=
  s.filter (fun y => !(xs.any (fun x => x == y)))

/-- `TarjanSCC.buildCycle`: the member nodes plus every graph edge whose
endpoints both lie in the SCC. -/
def buildCycle (g : DependencyGraph) (nodes : List String) : Cycle :=
  ⟨nodes, g.edges.filter (fun e =>
    (nodes.any (fun x => x == e.«from»)) && (nodes.any (fun x => x == e.«to»)))⟩

/-- `TarjanSCC.strongConnect`.  The recursion of the source is bounded by
the number of nodes that ever receive an index; it is modelled with a
fuel argument consumed once per nesting level, and callers pass fuel
exceeding any possible depth, so the fuel-exhausted branch is dead.  The
neighbor `for`-loop is a fold; recursion into an unvisited neighbor
folds the child's low-link into the parent's, an on-stack neighbor folds
in its index. -/
def strongConnect (g : DependencyGraph) : Nat → String → TarjanState → TarjanState
  | 0, _, s => s
  | fuel + 1, v, s =>
    let s := { s with
      indices := s.indices.set v s.index
      lowLinks := s.lowLinks.set v s.index
      index := s.index + 1
      stack := v :: s.stack
      onStack := s.onStack.add v }
    let neighbors := (g.adjacencyList.get? v).getD []
    let s := neighbors.foldl (fun s w =>
      if !(s.indices.contains w) then
        let s := strongConnect g fuel w s
        let ll := min ((s.lowLinks.get? v).getD 0) ((s.lowLinks.get? w).getD 0)
        { s with lowLinks := s.lowLinks.set v ll }
      else if s.onStack.contains w then
        let ll := min ((s.lowLinks.get? v).getD 0) ((s.indices.get? w).getD 0)
        { s with lowLinks := s.lowLinks.set v ll }
      else s) s
    if s.lowLinks.get? v == s.indices.get? v then
      let (scc, rest) := popScc s.stack v
      { s with stack := rest, onStack := s.onStack.removeAll scc, sccs := s.sccs ++ [scc] }
    else s

/-- Fuel passed to `strongConnect`: strictly more than the number of ids
that can ever be indexed (every key of the node map plus every id
occurring in an adjacency set), hence more than any recursion depth. -/
def tarjanFuel (g : DependencyGraph) : Nat :=
  g.nodes.size + g.adjacencyList.foldl (fun a p => a + p.2.length) 0 + 1

/-- `TarjanSCC.findCycles`: run `strongConnect` from every unvisited
node, then report every SCC of size ≥ 2 and every singleton SCC whose
node has a self-loop in the adjacency list. -/
def findCycles (g : DependencyGraph) : List Cycle :=
  let s := g.nodes.keys.foldl
    (fun s k => if !(s.indices.contains k) then strongConnect g (tarjanFuel g) k s else s)
    ⟨0, [], [], [], [], []⟩
  s.sccs.foldl
    (fun acc scc =>
      if scc.length > 1 then acc ++ [buildCycle g scc]
      else
        match scc with
        | [nodeId] =>
          if ((g.adjacencyList.get? nodeId).getD []).contains nodeId then
            acc ++ [buildCycle g scc]
          else acc
        | _ => acc) []

/-- `detectCycles`. -/
def detectCycles (g : DependencyGraph) : List Cycle :=
  findCycles g

/-- `getNodesInCycles`. -/
def getNodesInCycles (cycles : List Cycle) : Jset :=
  cycles.foldl (fun s c => c.nodes.foldl Jset.add s) []

/-- `getCycleForNode`. -/
def getCycleForNode (nodeId : String) (cycles : List Cycle) : Option Cycle :=
  cycles.find? (fun c => c.nodes.any (fun x => x == nodeId))

/-- Stable insertion used to model the JS stable descending sort in
`sortCyclesBySize`. -/
def insertCycleDesc (c : Cycle) : List Cycle → List Cycle
  | [] => [c]
  | x :: xs =>
    if x.nodes.length ≤ c.nodes.length then c :: x :: xs
    else x :: insertCycleDesc c xs

/-- `sortCyclesBySize`. -/
def sortCyclesBySize (cycles : List Cycle) : List Cycle :=
  cycles.foldr insertCycleDesc []

/-- `findAncestorModule` from `src/analysis/cycle-detector.ts` (same
walk as `getModulePath`). -/
def findAncestorModule (nodeId : String) (graph : DependencyGraph) : Option String :=
  getModulePathGo graph.nodes (graph.nodes.size + 1) (graph.nodes.get? nodeId)

/-- `aggregateToModules` (the cycle detector's private module-level
aggregation).  Note two differences from `aggregateToModuleLevel`: the
copied module nodes keep their `children`, and merging a duplicate
collapsed edge increments `count` WITHOUT appending the duplicate's
`locations`. -/
def aggregateToModules (graph : DependencyGraph) : DependencyGraph :=
  let moduleNodes := graph.nodes.foldl
    (fun (acc : Jmap GraphNode) p =>
      if p.2.kind == .module then acc.set p.1 p.2 else acc) []
  let moduleEdgeMap := graph.edges.foldl
    (fun (em : Jmap DependencyEdge) edge =>
      match findAncestorModule edge.«from» graph, findAncestorModule edge.«to» graph with
      | some fromModule, some toModule =>
        if fromModule != toModule then
          let key := fromModule ++ "|" ++ toModule
          match em.get? key with
          | some existing => em.set key { existing with count := existing.count + edge.count }
          | none =>
            em.set key ⟨fromModule, toModule, edge.depType, edge.count, edge.locations⟩
        else em
      | _, _ => em) []
  let adjInit : Jmap Jset := moduleNodes.keys.foldl (fun a k => a.set k []) []
  let radjInit : Jmap Jset := moduleNodes.keys.foldl (fun a k => a.set k []) []
  let adj := moduleEdgeMap.values.foldl
    (fun (a : Jmap Jset) e =>
      match a.get? e.«from» with
      | some s => a.set e.«from» (s.add e.«to»)
      | none => a) adjInit
  let radj := moduleEdgeMap.values.foldl
    (fun (a : Jmap Jset) e =>
      match a.get? e.«to» with
      | some s => a.set e.«to» (s.add e.«from»)
      | none => a) radjInit
  ⟨moduleNodes, moduleEdgeMap.values, adj, radj⟩

/-- `detectModuleLevelCycles`. -/
def detectModuleLevelCycles (graph : DependencyGraph) : List Cycle :=
  detectCycles (aggregateToModules graph)

/-! ## Metrics engine (`src/analysis/metrics.ts`)

JS floating-point metric values are modelled as exact rationals; the
`readFileSync`-based line counting is modelled by an explicit oracle
`lineCount : String → Nat` (filePath ↦ number of lines, 0 on a read
error), and the `new Date().toISOString()` timestamp by an explicit
`now` argument. -/

structure NodeMetrics where
  id : String
  name : String
  path : String
  kind : NodeKind
  afferentCoupling : Nat
  efferentCoupling : Nat
  instability : ℚ
  abstractness : ℚ
  distanceFromMainSequence : ℚ
  fanIn : Nat
  fanOut : Nat
  linesOfCode : Nat
  complexity : Nat
  inCycle : Bool
  cycleId : Option Nat
deriving DecidableEq, Repr

structure ModuleMetrics extends NodeMetrics where
  totalTypes : Nat
  totalTraits : Nat
  totalFunctions : Nat
  publicItems : Nat
  privateItems : Nat
deriving DecidableEq, Repr

structure CrateMetrics where
  name : String
  totalModules : Nat
  totalTypes : Nat
  totalFunctions : Nat
  totalLines : Nat
  averageInstability : ℚ
  averageAbstractness : ℚ
  averageDistance : ℚ
  cycleCount : Nat
  cycles : List Cycle
  mostCoupled : List NodeMetrics
  mostUnstable : List NodeMetrics
  highestDistance : List NodeMetrics
deriving DecidableEq, Repr

structure MetricsReport where
  generated : String
  crateName : String
  crateMetrics : CrateMetrics
  moduleMetrics : Jmap ModuleMetrics
  nodeMetrics : Jmap NodeMetrics

/-- Kernel-reducible absolute value on ℚ, modelling JS `Math.abs`. -/
def ratAbs (q : ℚ) : ℚ := if q.num < 0 then -q else q

/-- `MetricsCalculator.buildCycleMap`: node id ↦ index of its cycle. -/
def buildCycleMap (cycles : List Cycle) : Jmap Nat :=
  cycles.enum.foldl
    (fun (m : Jmap Nat) p => p.2.nodes.foldl (fun m n => m.set n p.1) m) []

/-- `MetricsCalculator.calculateFanIn`: edge-count sum of incoming edges. -/
def calculateFanIn (graph : DependencyGraph) (nodeId : String) : Nat :=
  graph.edges.foldl (fun c e => if e.«to» == nodeId then c + e.count else c) 0

/-- `MetricsCalculator.calculateFanOut`: edge-count sum of outgoing edges. -/
def calculateFanOut (graph : DependencyGraph) (nodeId : String) : Nat :=
  graph.edges.foldl (fun c e => if e.«from» == nodeId then c + e.count else c) 0

/-- `MetricsCalculator.estimateLinesOfCode`. -/
def estimateLinesOfCode (lineCount : String → Nat) (graph : DependencyGraph)
    (nodeId : String) : Nat :=
  match graph.nodes.get? nodeId with
  | none => 0
  | some node => if node.kind == .module then lineCount node.filePath else 10

/-- `MetricsCalculator.estimateComplexity`. -/
def estimateComplexity (graph : DependencyGraph) (nodeId : String) : Nat :=
  match graph.nodes.get? nodeId with
  | none => 0
  | some node =>
    if node.kind == .function then 1 + calculateFanOut graph nodeId else 1

/-- `MetricsCalculator.calculateNodeMetrics`.  (The source reads the node
with a non-null assertion; calls always pass an id present in the node
map, so the `getD default` is never taken.) -/
def calculateNodeMetrics (lineCount : String → Nat) (graph : DependencyGraph)
    (nodesInCycles : Jset) (cycleMap : Jmap Nat) (nodeId : String) : NodeMetrics :=
  let node := (graph.nodes.get? nodeId).getD default
  let afferentCoupling := ((graph.reverseAdjacencyList.get? nodeId).map Jset.size).getD 0
  let efferentCoupling := ((graph.adjacencyList.get? nodeId).map Jset.size).getD 0
  let totalCoupling := afferentCoupling + efferentCoupling
  let instability : ℚ :=
    if totalCoupling == 0 then 0 else (efferentCoupling : ℚ) / (totalCoupling : ℚ)
  let abstractness : ℚ := if node.kind == .trait then 1 else 0
  let distanceFromMainSequence := ratAbs (abstractness + instability - 1)
  { id := nodeId, name := node.name, path := node.path, kind := node.kind
    afferentCoupling := afferentCoupling, efferentCoupling := efferentCoupling
    instability := instability, abstractness := abstractness
    distanceFromMainSequence := distanceFromMainSequence
    fanIn := calculateFanIn graph nodeId, fanOut := calculateFanOut graph nodeId
    linesOfCode := estimateLinesOfCode lineCount graph nodeId
    complexity := estimateComplexity graph nodeId
    inCycle := nodesInCycles.contains nodeId
    cycleId := cycleMap.get? nodeId }

mutual

/-- `MetricsCalculator.findModule`: first module with the target path in
a pre-order walk. -/
def findModule : ModuleDefinition → String → Option ModuleDefinition
  | .mk name path filePath vis structs enums traits functions impls uses submodules
      constants statics typeAliases, targetPath =>
    let m : ModuleDefinition := .mk name path filePath vis structs enums traits functions
      impls uses submodules constants statics typeAliases
    if path == targetPath then some m
    else findModuleList submodules targetPath

/-- The submodule loop of `findModule`. -/
def findModuleList : List ModuleDefinition → String → Option ModuleDefinition
  | [], _ => none
  | m :: ms, targetPath =>
    match findModule m targetPath with
    | some r => some r
    | none => findModuleList ms targetPath

end

/-- `MetricsCalculator.calculateModuleMetrics`: module-level totals plus
the abstractness/distance override. -/
def calculateModuleMetrics (crate : CrateDefinition) (moduleId : String)
    (baseMetrics : NodeMetrics) : ModuleMetrics :=
  match findModule crate.rootModule moduleId with
  | none =>
    { toNodeMetrics := baseMetrics
      totalTypes := 0, totalTraits := 0, totalFunctions := 0
      publicItems := 0, privateItems := 0 }
  | some module =>
    let totalTypes := module.structs.length + module.enums.length + module.typeAliases.length
    let totalTraits := module.traits.length
    let totalFunctions := module.functions.length
    let countPub := fun (acc : Nat × Nat) (v : Visibility) =>
      if v.kind = .«public» then (acc.1 + 1, acc.2) else (acc.1, acc.2 + 1)
    let acc := module.structs.foldl (fun a s => countPub a s.visibility) (0, 0)
    let acc := module.enums.foldl (fun a e => countPub a e.visibility) acc
    let acc := module.traits.foldl (fun a t => countPub a t.visibility) acc
    let acc := module.functions.foldl (fun a f => countPub a f.visibility) acc
    let abstractness : ℚ :=
      if totalTypes + totalTraits == 0 then 0
      else (totalTraits : ℚ) / ((totalTypes + totalTraits : Nat) : ℚ)
    let distanceFromMainSequence := ratAbs (abstractness + baseMetrics.instability - 1)
    { toNodeMetrics :=
        { baseMetrics with
          abstractness := abstractness
          distanceFromMainSequence := distanceFromMainSequence }
      totalTypes := totalTypes, totalTraits := totalTraits
      totalFunctions := totalFunctions
      publicItems := acc.1, privateItems := acc.2 }

/-- Stable insertion used to model the JS stable descending sort in
`MetricsCalculator.getTopMetrics`. -/
def insertMetricDesc (getValue : NodeMetrics → ℚ) (m : NodeMetrics) :
    List NodeMetrics → List NodeMetrics
  | [] => [m]
  | x :: xs =>
    if getValue x ≤ getValue m then m :: x :: xs
    else x :: insertMetricDesc getValue m xs

/-- `MetricsCalculator.getTopMetrics`. -/
def getTopMetrics (metrics : Jmap NodeMetrics) (getValue : NodeMetrics → ℚ)
    (limit : Nat) : List NodeMetrics :=
  (((metrics.values.filter (fun m => m.kind != .module)).foldr
    (insertMetricDesc getValue) []).take limit)

/-- `MetricsCalculator.calculateCrateMetrics`. -/
def calculateCrateMetrics (crate : CrateDefinition) (cycles : List Cycle)
    (nodeMetrics : Jmap NodeMetrics) (moduleMetrics : Jmap ModuleMetrics) :
    CrateMetrics :=
  let totals := moduleMetrics.foldl
    (fun (t : Nat × Nat × Nat × Nat × ℚ × ℚ × ℚ × Nat) p =>
      let m := p.2
      (t.1 + 1, t.2.1 + m.totalTypes + m.totalTraits, t.2.2.1 + m.totalFunctions,
       t.2.2.2.1 + m.linesOfCode, t.2.2.2.2.1 + m.instability,
       t.2.2.2.2.2.1 + m.abstractness, t.2.2.2.2.2.2.1 + m.distanceFromMainSequence,
       t.2.2.2.2.2.2.2 + 1))
    (0, 0, 0, 0, 0, 0, 0, 0)
  let totalModules := totals.1
  let totalTypes := totals.2.1
  let totalFunctions := totals.2.2.1
  let totalLines := totals.2.2.2.1
  let instabilitySum := totals.2.2.2.2.1
  let abstractnessSum := totals.2.2.2.2.2.1
  let distanceSum := totals.2.2.2.2.2.2.1
  let moduleCount := totals.2.2.2.2.2.2.2
  { name := crate.name
    totalModules := totalModules, totalTypes := totalTypes
    totalFunctions := totalFunctions, totalLines := totalLines
    averageInstability := if moduleCount == 0 then 0 else instabilitySum / (moduleCount : ℚ)
    averageAbstractness := if moduleCount == 0 then 0 else abstractnessSum / (moduleCount : ℚ)
    averageDistance := if moduleCount == 0 then 0 else distanceSum / (moduleCount : ℚ)
    cycleCount := cycles.length
    cycles := cycles
    mostCoupled := getTopMetrics nodeMetrics
      (fun m => ((m.afferentCoupling + m.efferentCoupling : Nat) : ℚ)) 10
    mostUnstable := getTopMetrics nodeMetrics (fun m => m.instability) 10
    highestDistance := getTopMetrics nodeMetrics (fun m => m.distanceFromMainSequence) 10 }

/-- Loop body of `MetricsCalculator.calculate`: compute the node's
metrics, record them, and additionally record module metrics for module
nodes. -/
def metricsFoldStep (lineCount : String → Nat) (graph : DependencyGraph)
    (crate : CrateDefinition) (nodesInCycles : Jset) (cycleMap : Jmap Nat)
    (acc : Jmap NodeMetrics × Jmap ModuleMetrics) (p : String × GraphNode) :
    Jmap NodeMetrics × Jmap ModuleMetrics :=
  let metrics := calculateNodeMetrics lineCount graph nodesInCycles cycleMap p.1
  let nm := acc.1.set p.1 metrics
  if p.2.kind == .module then
    (nm, acc.2.set p.1 (calculateModuleMetrics crate p.1 metrics))
  else (nm, acc.2)

/-- `calculateMetrics` / `MetricsCalculator.calculate`. -/
def calculateMetrics (lineCount : String → Nat) (now : String)
    (graph : DependencyGraph) (crate : CrateDefinition) (cycles : List Cycle) :
    MetricsReport :=
  let nodesInCycles := getNodesInCycles cycles
  let cycleMap := buildCycleMap cycles
  let maps := graph.nodes.foldl
    (metricsFoldStep lineCount graph crate nodesInCycles cycleMap)
    ([], [])
  let nodeMetrics := maps.1
  let moduleMetrics := maps.2
  { generated := now
    crateName := crate.name
    crateMetrics := calculateCrateMetrics crate cycles nodeMetrics moduleMetrics
    moduleMetrics := moduleMetrics
    nodeMetrics := nodeMetrics }

/-- Result shape of `getMetricsSummary` (the inline object literal the
function returns, not the unused `MetricsSummary` interface). -/
structure MetricsSummaryResult where
  totalNodes : Nat
  totalEdges : Nat
  avgCoupling : ℚ
  avgInstability : ℚ
  nodesInCycles : Nat
deriving DecidableEq, Repr

/-- `getMetricsSummary` from `src/analysis/metrics.ts`. -/
def getMetricsSummary (report : MetricsReport) : MetricsSummaryResult :=
  let acc := report.nodeMetrics.foldl
    (fun (a : Nat × ℚ × Nat × Nat) p =>
      (a.1 + p.2.afferentCoupling + p.2.efferentCoupling,
       a.2.1 + p.2.instability,
       a.2.2.1 + (if p.2.inCycle then 1 else 0),
       a.2.2.2 + 1))
    (0, 0, 0, 0)
  let totalCoupling := acc.1
  let totalInstability := acc.2.1
  let nodesInCycles := acc.2.2.1
  let count := acc.2.2.2
  { totalNodes := report.nodeMetrics.size
    totalEdges := 0
    avgCoupling := if count == 0 then 0 else (totalCoupling : ℚ) / (count : ℚ)
    avgInstability := if count == 0 then 0 else totalInstability / (count : ℚ)
    nodesInCycles := nodesInCycles }

/-! ## Module resolver entry-point location (`src/parser/module-resolver.ts`)

Only the entry-point selection of `ModuleResolver.resolve` is embedded
(manifest parsing and recursive module resolution feed other claims'
components).  `existsSync` is modelled by an oracle `fs : String → Bool`
and `path.join` by `/`-concatenation. -/

structure LibSection where
  path : Option String
deriving DecidableEq, Repr

structure BinEntry where
  name : String
  path : Option String
deriving DecidableEq, Repr

structure CargoTomlModel where
  lib : Option LibSection
  bin : Option (List BinEntry)
deriving DecidableEq, Repr

def pathJoin (a b : String) : String := a ++ "/" ++ b

/-- `ModuleResolver.findLibPath`: library override from the manifest (if
the file exists), else the default `src/lib.rs` (if it exists). -/
def findLibPath (fs : String → Bool) (cratePath : String) (cargo : CargoTomlModel) :
    Option String :=
  let fromOverride :=
    match cargo.lib.bind (fun l => l.path) with
    | some p =>
      let path := pathJoin cratePath p
      if fs path then some path else none
    | none => none
  match fromOverride with
  | some p => some p
  | none =>
    let defaultLib := pathJoin (pathJoin cratePath "src") "lib.rs"
    if fs defaultLib then some defaultLib else none

/-- `ModuleResolver.findMainPath`: path override of the first `[[bin]]`
entry (if present and existing), else the default `src/main.rs`. -/
def findMainPath (fs : String → Bool) (cratePath : String) (cargo : CargoTomlModel) :
    Option String :=
  let fromOverride :=
    match cargo.bin with
    | some (b :: _) =>
      match b.path with
      | some p =>
        let path := pathJoin cratePath p
        if fs path then some path else none
      | none => none
    | _ => none
  match fromOverride with
  | some p => some p
  | none =>
    let defaultMain := pathJoin (pathJoin cratePath "src") "main.rs"
    if fs defaultMain then some defaultMain else none

/-- The failure `ModuleResolver.resolve` throws when no entry point is
found; the specification's taxonomy names it `ManifestError`. -/
inductive ResolveError where
  | manifestError
deriving DecidableEq, Repr

/-- Entry-point selection of `ModuleResolver.resolve`:
`libPath ?? findMainPath(cargo)`, throwing when both are null. -/
def resolveEntryPoint (fs : String → Bool) (cratePath : String)
    (cargo : CargoTomlModel) : Except ResolveError String :=
  match findLibPath fs cratePath cargo with
  | some lib => .ok lib
  | none =>
    match findMainPath fs cratePath cargo with
    | some m => .ok m
    | none => .error .manifestError

/-- Modelled from the spec: the candidate entry points in the order the
specification prescribes — library path from the manifest override, the
default `src/lib.rs`, the binary path override, then the default
`src/main.rs`. -/
def entryCandidates (cratePath : String) (cargo : CargoTomlModel) : List String :=
  ((cargo.lib.bind (fun l => l.path)).map (pathJoin cratePath)).toList ++
  [pathJoin (pathJoin cratePath "src") "lib.rs"] ++
  ((match cargo.bin with
    | some (b :: _) => b.path
    | _ => none).map (pathJoin cratePath)).toList ++
  [pathJoin (pathJoin cratePath "src") "main.rs"]

/-! ## Concrete fixtures -/

def span0 : Span := ⟨⟨1, 0⟩, ⟨1, 0⟩⟩

def pubVis : Visibility := ⟨.«public», none⟩

def privVis : Visibility := ⟨.«private», none⟩

def mkPubStruct (n : String) : StructDef := ⟨n, pubVis, [], [], span0⟩

/-- Module `m` declaring three public types, as in the glob-import
scenario of the specification. -/
def c1m : ModuleDefinition :=
  .mk "m" "crate::m" "src/m.rs" pubVis [mkPubStruct "X", mkPubStruct "Y", mkPubStruct "Z"]
    [] [] [] [] [] [] [] [] []

/-- Root module containing `use crate::m::*;` (a glob use: `isGlob`,
no listed items) and the submodule `m`. -/
def c1root : ModuleDefinition :=
  .mk "crate" "crate" "src/lib.rs" pubVis [] [] [] [] []
    [⟨["crate", "m"], none, true, [], privVis, span0⟩] [c1m] [] [] []

def c1crate : CrateDefinition := ⟨"c1", c1root, "/c1", true⟩

/-- A crate whose root module declares a single function `f` whose body
contains a recursive call to `f` itself. -/
def c3fn : FunctionDef :=
  ⟨"f", pubVis, [], [], none, false, false, false, [⟨"f", false, none, span0⟩], span0⟩

def c3root : ModuleDefinition :=
  .mk "crate" "crate" "src/lib.rs" pubVis [] [] [] [c3fn] [] [] [] [] [] []

def c3crate : CrateDefinition := ⟨"c3", c3root, "/c3", true⟩

/-- Module `a`: `use crate::b::Y;` plus `pub struct X { f0: Y }` — two
item-level edges that both collapse onto the module pair `(a, b)`. -/
def c4structX : StructDef :=
  ⟨"X", pubVis, [], [⟨some "f0", privVis, .mk "Y" none [] span0, span0⟩], span0⟩

def c4a : ModuleDefinition :=
  .mk "a" "crate::a" "src/a.rs" pubVis [c4structX] [] [] [] []
    [⟨["crate", "b"], none, false, [⟨"Y", none⟩], privVis, span0⟩] [] [] [] []

def c4b : ModuleDefinition :=
  .mk "b" "crate::b" "src/b.rs" pubVis [mkPubStruct "Y"] [] [] [] [] [] [] [] [] []

def c4root : ModuleDefinition :=
  .mk "crate" "crate" "src/lib.rs" pubVis [] [] [] [] [] [] [c4a, c4b] [] [] []

def c4crate : CrateDefinition := ⟨"c4", c4root, "/c4", true⟩

/-- An empty crate: the entry file exists but declares nothing, so the
root module has no declarations at all. -/
def emptyCrate (crateName fp cratePath : String) : CrateDefinition :=
  ⟨crateName, .mk "crate" "crate" fp pubVis [] [] [] [] [] [] [] [] [] [], cratePath, true⟩

def sumEdgeCounts (edges : List DependencyEdge) : Nat :=
  edges.foldl (fun a e => a + e.count) 0

def sumEdgeLocations (edges : List DependencyEdge) : Nat :=
  edges.foldl (fun a e => a + e.locations.length) 0

/-! ## Claim theorems -/

def inUnitInterval (q : ℚ) : Prop := 0 ≤ q ∧ q ≤ 1

def EdgeEndpointsOk (nodes : Jmap GraphNode) (es : EdgeState) : Prop :=
  ∀ e ∈ es.edgeMap.values, nodes.contains e.«from» = true ∧ nodes.contains e.«to» = true

def collapsePred (g : DependencyGraph) (a b : String) (e : DependencyEdge) : Bool :=
  (getModulePath e.«from» g == some a) && (getModulePath e.«to» g == some b) && (a != b)

/-- The original edges that `aggregateToModuleLevel` collapses onto the
ordered module pair `(a, b)`, in input order. -/
def collapsedIn (g : DependencyGraph) (l : List DependencyEdge) (a b : String) :
    List DependencyEdge :=
  l.filter (collapsePred g a b)

def collapsedEdges (g : DependencyGraph) (a b : String) : List DependencyEdge :=
  collapsedIn g g.edges a b

def joinLocations (l : List DependencyEdge) : List EdgeLocation :=
  l.foldl (fun acc x => acc ++ x.locations) []

/-- The merged module-level edge for a nonempty group of collapsed
edges: the first one's dependency kind, the summed count, the
concatenated locations. -/
def mergeCollapsed (a b : String) (e : DependencyEdge) (es : List DependencyEdge) :
    DependencyEdge :=
  ⟨a, b, e.depType, sumEdgeCounts (e :: es), joinLocations (e :: es)⟩

/-- Invariant of the edge-collapsing fold of `aggregateToModuleLevel`
after processing the prefix `L`: keys are unique, every stored entry is
the merge of the collapsed group of its module pair, and every nonempty
collapsed group has an entry. -/
def AggInv (g : DependencyGraph) (L : List DependencyEdge) (em : Jmap DependencyEdge) : Prop :=
  em.keys.Nodup ∧
  (∀ p ∈ em, ∃ x y e es, ('|' ∉ x.data) ∧ ('|' ∉ y.data) ∧
     p.1 = x ++ "|" ++ y ∧ collapsedIn g L x y = e :: es ∧ p.2 = mergeCollapsed x y e es) ∧
  (∀ x y, ('|' ∉ x.data) → ('|' ∉ y.data) → collapsedIn g L x y ≠ [] →
     em.contains (x ++ "|" ++ y) = true)

/-! ## Tarjan correctness: derived notions -/

def vis (s : TarjanState) (w : String) : Prop := s.indices.contains w = true

def idxN (s : TarjanState) (w : String) : Nat := (s.indices.get? w).getD 0

def llN (s : TarjanState) (w : String) : Nat := (s.lowLinks.get? w).getD 0

def emitted (s : TarjanState) : List String := s.sccs.flatten

def succs (g : DependencyGraph) (v : String) : List String :=
  (g.adjacencyList.get? v).getD []

def Step (g : DependencyGraph) (a b : String) : Prop := b ∈ succs g a

def Reach (g : DependencyGraph) : String → String → Prop :=
  Relation.ReflTransGen (Step g)

def SameSCC (g : DependencyGraph) (a b : String) : Prop := Reach g a b ∧ Reach g b a

def StepIn (g : DependencyGraph) (S : List String) (a b : String) : Prop :=
  a ∈ S ∧ b ∈ S ∧ Step g a b

def ReachIn (g : DependencyGraph) (S : List String) : String → String → Prop :=
  Relation.ReflTransGen (StepIn g S)

def IsSCCList (g : DependencyGraph) (S : List String) : Prop :=
  S ≠ [] ∧ S.Nodup ∧ (∀ a ∈ S, ∀ b ∈ S, SameSCC g a b) ∧
  (∀ a ∈ S, ∀ b, SameSCC g a b → b ∈ S)

def keysF (g : DependencyGraph) : Finset String := g.nodes.keys.toFinset

def visF (s : TarjanState) : Finset String := s.indices.keys.toFinset

def tmeasure (g : DependencyGraph) (s : TarjanState) : Nat := (keysF g \ visF s).card

/-- The run-time invariant of Tarjan's algorithm as implemented by
`strongConnect`, with the set of vertices currently on the recursion
path (the gray vertices) as a ghost parameter. -/
structure Inv (g : DependencyGraph) (s : TarjanState) (grays : List String) : Prop where
  stack_nodup : s.stack.Nodup
  onstack_iff : ∀ w, s.onStack.contains w = true ↔ w ∈ s.stack
  stack_vis : ∀ w ∈ s.stack, vis s w
  vis_keys : ∀ w, vis s w → w ∈ g.nodes.keys
  idx_lt : ∀ w, vis s w → idxN s w < s.index
  idx_inj : ∀ a b, vis s a → vis s b → idxN s a = idxN s b → a = b
  ll_dom : ∀ w, s.lowLinks.contains w = s.indices.contains w
  ll_le_idx : ∀ w, vis s w → llN s w ≤ idxN s w
  part_iff : ∀ w, vis s w ↔ (w ∈ s.stack ∨ w ∈ emitted s)
  stack_em_disj : ∀ w ∈ s.stack, w ∉ emitted s
  em_nodup : (emitted s).Nodup
  sccs_ne : ∀ S ∈ s.sccs, S ≠ []
  stack_sorted : s.stack.Pairwise (fun a b => idxN s b < idxN s a)
  grays_stack : ∀ w ∈ grays, w ∈ s.stack
  nrs : ∀ w ∈ s.stack, w ∉ grays → llN s w < idxN s w
  f4 : ∀ a, vis s a → a ∉ grays → ∀ b ∈ succs g a,
        vis s b ∧ (b ∈ emitted s ∨ llN s a ≤ idxN s b ∨ (b ∉ grays ∧ llN s a ≤ llN s b))
  em_closed : ∀ a ∈ emitted s, ∀ b ∈ succs g a, b ∈ emitted s
  llr : ∀ a ∈ s.stack, ∃ y ∈ s.stack, idxN s y = llN s a ∧ Reach g a y
  sccs_correct : ∀ S ∈ s.sccs,
      (∀ a ∈ S, ∀ b ∈ S, SameSCC g a b) ∧ (∀ a ∈ S, ∀ b, SameSCC g a b → b ∈ S)

/-- Post-condition of one `strongConnect` call on an unvisited vertex. -/
structure SCPost (g : DependencyGraph) (s : TarjanState) (grays : List String)
    (v : String) (s' : TarjanState) : Prop where
  inv : Inv g s' grays
  visMono : ∀ w, vis s w → vis s' w
  visV : vis s' v
  idxPres : ∀ w, vis s w → s'.indices.get? w = s.indices.get? w
  llPres : ∀ w, vis s w → s'.lowLinks.get? w = s.lowLinks.get? w
  idxV : idxN s' v = s.index
  indexGt : s.index < s'.index
  sccsExt : ∃ t, s'.sccs = s.sccs ++ t
  stackExt : ∃ news, s'.stack = news ++ s.stack ∧ ∀ w ∈ news, ¬vis s w
  newReach : ∀ w, vis s' w → ¬vis s w → Reach g v w
  newIdxGe : ∀ w, vis s' w → ¬vis s w → s.index ≤ idxN s' w
  newLL : ∀ w, vis s' w → ¬vis s w → llN s' v ≤ llN s' w
  vFate : v ∈ s'.stack ∨ (llN s' v = idxN s' v ∧ v ∈ emitted s')

def scStep (g : DependencyGraph) (fuel : Nat) (v : String)
    (s : TarjanState) (w : String) : TarjanState :=
  if !(s.indices.contains w) then
    let s := strongConnect g fuel w s
    let ll := min ((s.lowLinks.get? v).getD 0) ((s.lowLinks.get? w).getD 0)
    { s with lowLinks := s.lowLinks.set v ll }
  else if s.onStack.contains w then
    let ll := min ((s.lowLinks.get? v).getD 0) ((s.indices.get? w).getD 0)
    { s with lowLinks := s.lowLinks.set v ll }
  else s

def pushV (s : TarjanState) (v : String) : TarjanState :=
  { s with
      indices := s.indices.set v s.index
      lowLinks := s.lowLinks.set v s.index
      index := s.index + 1
      stack := v :: s.stack
      onStack := s.onStack.add v }

/-- Invariant carried by the neighbor loop of `strongConnect` on `v`:
`s1` is the state just after pushing `v`, `t` the current state, `done`
the processed prefix of the neighbor list. -/
structure LoopInv (g : DependencyGraph) (grays : List String) (v : String)
    (s1 t : TarjanState) (done : List String) : Prop where
  inv : Inv g t (v :: grays)
  visMono : ∀ w, vis s1 w → vis t w
  idxPres : ∀ w, vis s1 w → t.indices.get? w = s1.indices.get? w
  llPres : ∀ w, vis s1 w → w ≠ v → t.lowLinks.get? w = s1.lowLinks.get? w
  llVle : llN t v ≤ llN s1 v
  indexMono : s1.index ≤ t.index
  sccsExt : ∃ tl, t.sccs = s1.sccs ++ tl
  stackExt : ∃ news, t.stack = news ++ s1.stack ∧ ∀ w ∈ news, ¬vis s1 w
  newReach : ∀ w, vis t w → ¬vis s1 w → Reach g v w
  newIdxGe : ∀ w, vis t w → ¬vis s1 w → s1.index ≤ idxN t w
  newLL : ∀ w, vis t w → ¬vis s1 w → llN t v ≤ llN t w
  done_facts : ∀ w ∈ done,
    vis t w ∧ (w ∈ emitted t ∨ llN t v ≤ idxN t w ∨
      (w ∉ v :: grays ∧ llN t v ≤ llN t w))
  vStack : v ∈ t.stack
  idxVeq : idxN t v = idxN s1 v
  visV1 : vis s1 v

def setLL (t : TarjanState) (v : String) (n : Nat) : TarjanState :=
  { t with lowLinks := t.lowLinks.set v n }

/-! ## Tarjan correctness: the reported cycle list -/

def driverState (g : DependencyGraph) : TarjanState :=
  g.nodes.keys.foldl
    (fun s k => if !(s.indices.contains k) then strongConnect g (tarjanFuel g) k s else s)
    ⟨0, [], [], [], [], []⟩

def EdgeStepD (g : DependencyGraph) (a b : String) : Prop :=
  ∃ e ∈ g.edges, e.«from» = a ∧ e.«to» = b

def ReachInE (g : DependencyGraph) (S : List String) : String → String → Prop :=
  Relation.ReflTransGen (fun x y => x ∈ S ∧ y ∈ S ∧ EdgeStepD g x y)

def cycCond (g : DependencyGraph) (S : List String) : Prop :=
  1 < S.length ∨ ∃ x, S = [x] ∧ x ∈ succs g x

/-- A two-crate dependency graph with a mutual dependency, used to
exercise the cycle-detection theorem on concrete data. -/
def c5graph : DependencyGraph where
  nodes :=
    [("crate_a", { id := "crate_a", name := "a", path := "a", kind := NodeKind.crate,
                   parentId := none, filePath := "a/src/lib.rs", line := 1, children := [] }),
     ("crate_b", { id := "crate_b", name := "b", path := "b", kind := NodeKind.crate,
                   parentId := none, filePath := "b/src/lib.rs", line := 1, children := [] })]
  edges :=
    [{ «from» := "crate_a", «to» := "crate_b", depType := DependencyType.use_import,
       count := 1, locations := [] },
     { «from» := "crate_b", «to» := "crate_a", depType := DependencyType.use_import,
       count := 1, locations := [] }]
  adjacencyList := [("crate_a", ["crate_b"]), ("crate_b", ["crate_a"])]
  reverseAdjacencyList := [("crate_a", ["crate_b"]), ("crate_b", ["crate_a"])]

theorem ratAbs_eq_abs (q : ℚ) : ratAbs q = |q| := by
  unfold ratAbs
  rcases lt_or_le q.num 0 with h | h
  · rw [if_pos h, abs_of_neg]
    exact_mod_cast Rat.num_neg.mp h
  · rw [if_neg (not_lt.mpr h), abs_of_nonneg]
    exact_mod_cast Rat.num_nonneg.mp h

section

attribute [local semireducible] Rat.add Rat.sub Rat.mul Rat.inv

/-- C1: the specification promises one `use_import` edge per resolved
item of every use declaration — three edges for `use crate::m::*;` with
three public types in `m` — but `DependencyGraphBuilder.processUse`
handles only the listed-items and plain-single-path branches, so a glob
use (no items, `isGlob` set) emits nothing: on the glob-import fixture
the builder produces all five nodes and not a single edge, even though
the use resolver resolves the glob to the three types. -/
theorem c1_glob_import_emits_no_edges :
    (buildDependencyGraph c1crate).nodes.keys =
      ["crate", "crate::m", "crate::m::X", "crate::m::Y", "crate::m::Z"] ∧
    (moduleAliases (buildSymbolIndex c1root) c1root).values =
      ["crate::m::X", "crate::m::Y", "crate::m::Z"] ∧
    (buildDependencyGraph c1crate).edges = [] := by
  refine ⟨by decide, by decide, by decide⟩

/-- C2 (counterexample): for the empty crate the claim asserts every
crate-level average is 0, but the single root module has instability 0
and abstractness 0, hence distance |0 + 0 − 1| = 1, and the crate-level
`averageDistance` is 1, not 0. -/
theorem c2_counterexample :
    ¬ ((calculateMetrics (fun _ => 0) "" (buildDependencyGraph (emptyCrate "e" "src/lib.rs" "/e"))
        (emptyCrate "e" "src/lib.rs" "/e")
        (detectCycles (buildDependencyGraph (emptyCrate "e" "src/lib.rs" "/e")))).crateMetrics.averageDistance
       = 0) := by
  decide

/-- C2 (amended): for an empty crate — entry file exists, no
declarations — the pipeline produces a graph with exactly one node (the
root module), no edges and no cycles; `averageInstability` and
`averageAbstractness` are 0, and `averageDistance` equals 1 (the single
module sits at distance |0 + 0 − 1| = 1 from the main sequence). -/
theorem c2_empty_crate (crateName fp cratePath now : String) (lineCount : String → Nat) :
    (buildDependencyGraph (emptyCrate crateName fp cratePath)).nodes.size = 1 ∧
    (buildDependencyGraph (emptyCrate crateName fp cratePath)).edges = [] ∧
    detectCycles (buildDependencyGraph (emptyCrate crateName fp cratePath)) = [] ∧
    (calculateMetrics lineCount now (buildDependencyGraph (emptyCrate crateName fp cratePath))
      (emptyCrate crateName fp cratePath)
      (detectCycles (buildDependencyGraph (emptyCrate crateName fp cratePath)))).crateMetrics.averageInstability = 0 ∧
    (calculateMetrics lineCount now (buildDependencyGraph (emptyCrate crateName fp cratePath))
      (emptyCrate crateName fp cratePath)
      (detectCycles (buildDependencyGraph (emptyCrate crateName fp cratePath)))).crateMetrics.averageAbstractness = 0 ∧
    (calculateMetrics lineCount now (buildDependencyGraph (emptyCrate crateName fp cratePath))
      (emptyCrate crateName fp cratePath)
      (detectCycles (buildDependencyGraph (emptyCrate crateName fp cratePath)))).crateMetrics.averageDistance = 1 := by
  have hc : detectCycles (buildDependencyGraph (emptyCrate crateName fp cratePath)) = [] := rfl
  have hg : buildDependencyGraph (emptyCrate crateName fp cratePath) =
      ⟨[("crate", ⟨"crate", "crate", "crate", .module, none, fp, 1, []⟩)], [],
       [("crate", [])], [("crate", [])]⟩ := rfl
  refine ⟨rfl, rfl, hc, ?_, ?_, ?_⟩ <;>
    · rw [hc, hg]
      simp [calculateMetrics, metricsFoldStep, calculateCrateMetrics, calculateModuleMetrics,
        calculateNodeMetrics,
        buildCycleMap, getNodesInCycles, findModule, emptyCrate, Jmap.set, Jmap.get?, Jmap.values,
        Jmap.keys, Jmap.contains, Jmap.size, Jset.size, estimateLinesOfCode, estimateComplexity,
        calculateFanIn, calculateFanOut, ratAbs, ModuleDefinition.structs, ModuleDefinition.enums,
        ModuleDefinition.traits, ModuleDefinition.functions, ModuleDefinition.typeAliases,
        ModuleDefinition.path, ModuleDefinition.submodules]

/-- C3 (counterexample): the builder puts a self-loop in the graph — on
the crate whose function `f` calls itself, the single emitted edge is a
`function_call` edge from `crate::f` to `crate::f`, refuting
`e.from ≠ e.to` for every edge of every built graph. -/
theorem c3_counterexample :
    (buildDependencyGraph c3crate).edges =
      [⟨"crate::f", "crate::f", .function_call, 1, [⟨"src/lib.rs", 1, 0⟩]⟩] ∧
    ¬ (∀ e ∈ (buildDependencyGraph c3crate).edges, e.«from» ≠ e.«to») := by
  refine ⟨by decide, ?_⟩
  intro h
  exact h ⟨"crate::f", "crate::f", .function_call, 1, [⟨"src/lib.rs", 1, 0⟩]⟩ (by decide) rfl

/-- C4: the module-level graph the cycle detector builds violates the
count/locations invariant — `aggregateToModules` adds a duplicate
collapsed edge's `count` but never appends its `locations`, so on the
crate where module `a` both imports and embeds a type of module `b` the
collapsed edge has count 2 with a single location: the counts sum to 2
while the location-list lengths sum to 1.  (`aggregateToModuleLevel`,
by contrast, concatenates locations and keeps the sums equal.) -/
theorem c4_cycle_detector_aggregation_loses_locations :
    sumEdgeCounts (buildDependencyGraph c4crate).edges = 2 ∧
    sumEdgeLocations (buildDependencyGraph c4crate).edges = 2 ∧
    sumEdgeCounts (aggregateToModules (buildDependencyGraph c4crate)).edges = 2 ∧
    sumEdgeLocations (aggregateToModules (buildDependencyGraph c4crate)).edges = 1 ∧
    sumEdgeCounts (aggregateToModuleLevel (buildDependencyGraph c4crate)).edges = 2 ∧
    sumEdgeLocations (aggregateToModuleLevel (buildDependencyGraph c4crate)).edges = 2 := by
  refine ⟨by decide, by decide, by decide, by decide, by decide, by decide⟩

end

/-- C9: `getMetricsSummary` hard-codes `totalEdges: 0` in the object it
returns, so the summary's edge total is 0 for every metrics report,
regardless of how many edges the analyzed graph contains. -/
theorem c9_summary_total_edges_zero (report : MetricsReport) :
    (getMetricsSummary report).totalEdges = 0 := by
  rfl

/-- C8: entry-point location tries, in order, the manifest library
override, the default `src/lib.rs`, the first binary entry's path
override, then the default `src/main.rs`, returning the first candidate
the file system contains; it fails (with the error the specification
calls `ManifestError`) exactly when none of these candidates exists. -/
theorem c8_entry_point_resolution (fs : String → Bool) (cratePath : String)
    (cargo : CargoTomlModel) :
    resolveEntryPoint fs cratePath cargo =
      match (entryCandidates cratePath cargo).find? fs with
      | some p => .ok p
      | none => .error .manifestError := by
  rcases cargo with ⟨lib, bin⟩
  unfold resolveEntryPoint findLibPath findMainPath entryCandidates
  rcases lib with _ | ⟨_ | lp⟩ <;>
  rcases bin with _ | ⟨_ | ⟨⟨bname, _ | bp⟩, rest⟩⟩ <;>
  simp only [Option.bind] <;>
  split_ifs <;>
  simp_all [List.find?]

theorem foldlPreserves {α β : Type _} {P : β → Prop} {f : β → α → β} :
    ∀ {l : List α} {init : β}, (∀ a ∈ l, ∀ b, P b → P (f b a)) → P init → P (l.foldl f init) := by
  intro l
  induction l with
  | nil => intro init _ h0; exact h0
  | cons a as ih =>
    intro init h h0
    exact ih (fun x hx b hb => h x (List.mem_cons_of_mem a hx) b hb)
      (h a (List.mem_cons_self a as) init h0)

theorem Jmap.mem_of_get?_eq_some {α : Type _} {m : Jmap α} {k : String} {v : α}
    (h : m.get? k = some v) : (k, v) ∈ m := by
  unfold Jmap.get? at h
  cases hf : List.find? (fun p => p.1 == k) m with
  | none => rw [hf] at h; simp at h
  | some pr =>
    rw [hf] at h
    simp at h
    have hmem := List.mem_of_find?_eq_some hf
    have hpred := List.find?_some hf
    have hk : pr.1 = k := by simpa using hpred
    have : pr = (k, v) := by cases pr; simp_all
    rwa [this] at hmem

theorem Jmap.mem_set {α : Type _} {m : Jmap α} {k : String} {v : α} {x : String × α}
    (hx : x ∈ m.set k v) : x ∈ m ∨ x = (k, v) := by
  unfold Jmap.set at hx
  by_cases hc : m.contains k = true
  · rw [if_pos hc] at hx
    rcases List.mem_map.mp hx with ⟨p, hp, heq⟩
    by_cases hk : (p.1 == k) = true
    · right
      rw [if_pos hk] at heq
      exact heq.symm
    · left
      rw [if_neg hk] at heq
      rwa [heq] at hp
  · rw [if_neg hc] at hx
    rcases List.mem_append.mp hx with h | h
    · left; exact h
    · right; simpa using h

theorem inUnitInterval_ratAbs {a i : ℚ} (ha : inUnitInterval a) (hi : inUnitInterval i) :
    inUnitInterval (ratAbs (a + i - 1)) := by
  rw [ratAbs_eq_abs]
  obtain ⟨ha0, ha1⟩ := ha
  obtain ⟨hi0, hi1⟩ := hi
  exact ⟨abs_nonneg _, abs_le.mpr ⟨by linarith, by linarith⟩⟩

theorem inUnitInterval_ratio (a b : Nat) (h : ¬((b + a) == 0) = true) :
    inUnitInterval ((a : ℚ) / ((b + a : Nat) : ℚ)) := by
  have hpos : 0 < b + a := by
    rcases Nat.eq_zero_or_pos (b + a) with h0 | h0
    · exact absurd (by simpa using h0) h
    · exact h0
  have hq : (0 : ℚ) < ((b + a : Nat) : ℚ) := by exact_mod_cast hpos
  constructor
  · positivity
  · rw [div_le_one hq]
    exact_mod_cast Nat.le_add_left a b

theorem calculateNodeMetrics_bounds (lineCount : String → Nat) (g : DependencyGraph)
    (nic : Jset) (cm : Jmap Nat) (id : String) :
    inUnitInterval (calculateNodeMetrics lineCount g nic cm id).instability ∧
    inUnitInterval (calculateNodeMetrics lineCount g nic cm id).abstractness ∧
    inUnitInterval (calculateNodeMetrics lineCount g nic cm id).distanceFromMainSequence := by
  unfold calculateNodeMetrics
  dsimp only
  set Ca := ((g.reverseAdjacencyList.get? id).map Jset.size).getD 0 with hCa
  set Ce := ((g.adjacencyList.get? id).map Jset.size).getD 0 with hCe
  have hI : inUnitInterval (if ((Ca + Ce) == 0) = true then (0 : ℚ) else (Ce : ℚ) / ((Ca + Ce : Nat) : ℚ)) := by
    by_cases h : ((Ca + Ce) == 0) = true
    · rw [if_pos h]
      exact ⟨le_refl 0, by norm_num⟩
    · rw [if_neg h]
      exact inUnitInterval_ratio Ce Ca h
  have hA : inUnitInterval (if (((g.nodes.get? id).getD default).kind == NodeKind.trait) = true then (1 : ℚ) else 0) := by
    split
    · exact ⟨by norm_num, le_refl 1⟩
    · exact ⟨le_refl 0, by norm_num⟩
  exact ⟨hI, hA, inUnitInterval_ratAbs hA hI⟩

theorem calculateModuleMetrics_bounds (crate : CrateDefinition) (id : String)
    (base : NodeMetrics)
    (h1 : inUnitInterval base.instability) (h2 : inUnitInterval base.abstractness)
    (h3 : inUnitInterval base.distanceFromMainSequence) :
    inUnitInterval (calculateModuleMetrics crate id base).instability ∧
    inUnitInterval (calculateModuleMetrics crate id base).abstractness ∧
    inUnitInterval (calculateModuleMetrics crate id base).distanceFromMainSequence := by
  unfold calculateModuleMetrics
  cases hfm : findModule crate.rootModule id with
  | none =>
    dsimp only
    exact ⟨h1, h2, h3⟩
  | some module =>
    dsimp only
    set tt := module.structs.length + module.enums.length + module.typeAliases.length with htt
    set tr := module.traits.length with htr
    have hA : inUnitInterval (if ((tt + tr) == 0) = true then (0 : ℚ) else (tr : ℚ) / ((tt + tr : Nat) : ℚ)) := by
      by_cases h : ((tt + tr) == 0) = true
      · rw [if_pos h]
        exact ⟨le_refl 0, by norm_num⟩
      · rw [if_neg h]
        exact inUnitInterval_ratio tr tt h
    exact ⟨h1, hA, inUnitInterval_ratAbs hA h1⟩

theorem metricsFoldStep_bounds (lineCount : String → Nat) (graph : DependencyGraph)
    (crate : CrateDefinition) (nic : Jset) (cm : Jmap Nat)
    (p : String × GraphNode) (acc : Jmap NodeMetrics × Jmap ModuleMetrics)
    (h : (∀ q ∈ acc.1, inUnitInterval q.2.instability ∧ inUnitInterval q.2.abstractness ∧
            inUnitInterval q.2.distanceFromMainSequence) ∧
         (∀ q ∈ acc.2, inUnitInterval q.2.instability ∧ inUnitInterval q.2.abstractness ∧
            inUnitInterval q.2.distanceFromMainSequence)) :
    (∀ q ∈ (metricsFoldStep lineCount graph crate nic cm acc p).1,
        inUnitInterval q.2.instability ∧ inUnitInterval q.2.abstractness ∧
        inUnitInterval q.2.distanceFromMainSequence) ∧
    (∀ q ∈ (metricsFoldStep lineCount graph crate nic cm acc p).2,
        inUnitInterval q.2.instability ∧ inUnitInterval q.2.abstractness ∧
        inUnitInterval q.2.distanceFromMainSequence) := by
  obtain ⟨hn, hmm⟩ := h
  have hbase := calculateNodeMetrics_bounds lineCount graph nic cm p.1
  have hnodeset : ∀ q ∈ acc.1.set p.1 (calculateNodeMetrics lineCount graph nic cm p.1),
      inUnitInterval q.2.instability ∧ inUnitInterval q.2.abstractness ∧
      inUnitInterval q.2.distanceFromMainSequence := by
    intro q hq
    rcases Jmap.mem_set hq with hold | hnew
    · exact hn q hold
    · rw [hnew]
      exact hbase
  unfold metricsFoldStep
  dsimp only
  split
  · constructor
    · exact hnodeset
    · intro q hq
      rcases Jmap.mem_set hq with hold | hnew
      · exact hmm q hold
      · rw [hnew]
        exact calculateModuleMetrics_bounds crate p.1 _ hbase.1 hbase.2.1 hbase.2.2
  · exact ⟨hnodeset, hmm⟩

/-- C6: for every node of any graph the computed metrics satisfy
`instability ∈ [0,1]`, `abstractness ∈ [0,1]` and
`distanceFromMainSequence ∈ [0,1]`, both in the per-node formulas and in
the module-level override of abstractness and distance. -/
theorem c6_metric_bounds (lineCount : String → Nat) (now : String)
    (graph : DependencyGraph) (crate : CrateDefinition) (cycles : List Cycle)
    (nodeId moduleId : String) (m : NodeMetrics) (mm : ModuleMetrics)
    (hm : (calculateMetrics lineCount now graph crate cycles).nodeMetrics.get? nodeId = some m)
    (hmm : (calculateMetrics lineCount now graph crate cycles).moduleMetrics.get? moduleId = some mm) :
    (inUnitInterval m.instability ∧ inUnitInterval m.abstractness ∧
      inUnitInterval m.distanceFromMainSequence) ∧
    (inUnitInterval mm.instability ∧ inUnitInterval mm.abstractness ∧
      inUnitInterval mm.distanceFromMainSequence) := by
  have key := @foldlPreserves (String × GraphNode) (Jmap NodeMetrics × Jmap ModuleMetrics)
    (fun acc : Jmap NodeMetrics × Jmap ModuleMetrics =>
      (∀ q ∈ acc.1, inUnitInterval q.2.instability ∧ inUnitInterval q.2.abstractness ∧
          inUnitInterval q.2.distanceFromMainSequence) ∧
      (∀ q ∈ acc.2, inUnitInterval q.2.instability ∧ inUnitInterval q.2.abstractness ∧
          inUnitInterval q.2.distanceFromMainSequence))
    (metricsFoldStep lineCount graph crate (getNodesInCycles cycles) (buildCycleMap cycles))
    graph.nodes ([], [])
    (fun a _ b hb => metricsFoldStep_bounds lineCount graph crate
      (getNodesInCycles cycles) (buildCycleMap cycles) a b hb)
    (by constructor <;> intro q hq <;> simp at hq)
  have hrep1 : (calculateMetrics lineCount now graph crate cycles).nodeMetrics =
      (graph.nodes.foldl
        (metricsFoldStep lineCount graph crate (getNodesInCycles cycles) (buildCycleMap cycles))
        ([], [])).1 := rfl
  have hrep2 : (calculateMetrics lineCount now graph crate cycles).moduleMetrics =
      (graph.nodes.foldl
        (metricsFoldStep lineCount graph crate (getNodesInCycles cycles) (buildCycleMap cycles))
        ([], [])).2 := rfl
  rw [hrep1] at hm
  rw [hrep2] at hmm
  exact ⟨key.1 (nodeId, m) (Jmap.mem_of_get?_eq_some hm),
         key.2 (moduleId, mm) (Jmap.mem_of_get?_eq_some hmm)⟩

section
attribute [local semireducible] Rat.add Rat.sub Rat.mul Rat.inv

theorem c6_metric_bounds_witness :
    ((calculateMetrics (fun _ => 7) "t" (buildDependencyGraph (emptyCrate "e" "f" "/e"))
        (emptyCrate "e" "f" "/e") []).nodeMetrics.get? "crate" =
      some ⟨"crate", "crate", "crate", .module, 0, 0, 0, 0, 1, 0, 0, 7, 1, false, none⟩) ∧
    ((calculateMetrics (fun _ => 7) "t" (buildDependencyGraph (emptyCrate "e" "f" "/e"))
        (emptyCrate "e" "f" "/e") []).moduleMetrics.get? "crate" =
      some ⟨⟨"crate", "crate", "crate", .module, 0, 0, 0, 0, 1, 0, 0, 7, 1, false, none⟩,
            0, 0, 0, 0, 0⟩) ∧
    ((inUnitInterval (0 : ℚ) ∧ inUnitInterval (0 : ℚ) ∧ inUnitInterval (1 : ℚ)) ∧
     (inUnitInterval (0 : ℚ) ∧ inUnitInterval (0 : ℚ) ∧ inUnitInterval (1 : ℚ))) :=
  ⟨by decide, by decide,
   c6_metric_bounds (fun _ => 7) "t" (buildDependencyGraph (emptyCrate "e" "f" "/e"))
     (emptyCrate "e" "f" "/e") [] "crate" "crate"
     ⟨"crate", "crate", "crate", .module, 0, 0, 0, 0, 1, 0, 0, 7, 1, false, none⟩
     ⟨⟨"crate", "crate", "crate", .module, 0, 0, 0, 0, 1, 0, 0, 7, 1, false, none⟩, 0, 0, 0, 0, 0⟩
     (by decide) (by decide)⟩

end

theorem Jmap.values_set {α : Type _} {m : Jmap α} {k : String} {v : α} {x : α}
    (hx : x ∈ (m.set k v).values) : x ∈ m.values ∨ x = v := by
  rcases List.mem_map.mp hx with ⟨p, hp, heq⟩
  rcases Jmap.mem_set hp with hold | hnew
  · left
    exact heq ▸ List.mem_map.mpr ⟨p, hold, rfl⟩
  · right
    rw [hnew] at heq
    exact heq.symm ▸ rfl

theorem Jmap.get?_mem_values {α : Type _} {m : Jmap α} {k : String} {v : α}
    (h : m.get? k = some v) : v ∈ m.values :=
  List.mem_map.mpr ⟨(k, v), Jmap.mem_of_get?_eq_some h, rfl⟩

theorem addEdge_ok {nodes : Jmap GraphNode} {es : EdgeState}
    {fromId toId : String} {depType : DependencyType} {file : String} {line column : Nat}
    (h : EdgeEndpointsOk nodes es) :
    EdgeEndpointsOk nodes (addEdge nodes es fromId toId depType file line column) := by
  unfold addEdge
  split
  · exact h
  · rename_i hguard
    have hft : nodes.contains fromId = true ∧ nodes.contains toId = true := by
      constructor <;> simp_all
    intro e he
    dsimp only at he
    cases hget : es.edgeMap.get? (fromId ++ "|" ++ toId ++ "|" ++ depTypeKey depType) with
    | some edge =>
      rw [hget] at he
      rcases Jmap.values_set he with hold | hnew
      · exact h e hold
      · rw [hnew]
        exact h edge (Jmap.get?_mem_values hget)
    | none =>
      rw [hget] at he
      rcases Jmap.values_set he with hold | hnew
      · exact h e hold
      · rw [hnew]
        exact hft

mutual

theorem processTypeRef_ok (nodes : Jmap GraphNode) (idx : SymbolIndex) (aliases : Jmap String)
    (cur fromId : String) :
    ∀ (t : TypeReference) (dep : DependencyType) (fp : String) (es : EdgeState),
      EdgeEndpointsOk nodes es →
      EdgeEndpointsOk nodes (processTypeRef nodes idx aliases cur fromId t dep fp es)
  | .mk name rp ps sp, dep, fp, es, h => by
    simp only [processTypeRef]
    apply processTypeRefList_ok
    cases resolveTypeRefToNodeId nodes idx aliases cur (.mk name rp ps sp) with
    | none => exact h
    | some toId =>
      dsimp only
      split
      · exact addEdge_ok h
      · exact h

theorem processTypeRefList_ok (nodes : Jmap GraphNode) (idx : SymbolIndex) (aliases : Jmap String)
    (cur fromId : String) :
    ∀ (ts : List TypeReference) (dep : DependencyType) (fp : String) (es : EdgeState),
      EdgeEndpointsOk nodes es →
      EdgeEndpointsOk nodes (processTypeRefList nodes idx aliases cur fromId ts dep fp es)
  | [], _, _, _, h => by
    simp only [processTypeRefList]
    exact h
  | t :: ts, dep, fp, es, h => by
    simp only [processTypeRefList]
    exact processTypeRefList_ok nodes idx aliases cur fromId ts dep fp _
      (processTypeRef_ok nodes idx aliases cur fromId t dep fp es h)

end

theorem processUse_ok {nodes : Jmap GraphNode} {m : ModuleDefinition}
    {use : UseDeclaration} {es : EdgeState} (h : EdgeEndpointsOk nodes es) :
    EdgeEndpointsOk nodes (processUse nodes m use es) := by
  unfold processUse
  split
  · apply foldlPreserves _ h
    intro item _ b hb
    dsimp only
    cases resolveToNodeId nodes (String.intercalate "::" use.path ++ "::" ++ item.name) with
    | some toId => exact addEdge_ok hb
    | none => exact hb
  · split
    · dsimp only
      cases resolveToNodeId nodes (String.intercalate "::" use.path) with
      | some toId => exact addEdge_ok h
      | none => exact h
    · exact h

theorem processStruct_ok {nodes : Jmap GraphNode} {idx : SymbolIndex} {aliases : Jmap String}
    {m : ModuleDefinition} {s : StructDef} {es : EdgeState} (h : EdgeEndpointsOk nodes es) :
    EdgeEndpointsOk nodes (processStruct nodes idx aliases m s es) := by
  unfold processStruct
  apply foldlPreserves
  · intro g _ b hb
    apply foldlPreserves _ hb
    intro bound _ b2 hb2
    exact processTypeRef_ok nodes idx aliases m.path _ bound _ _ b2 hb2
  · apply foldlPreserves _ h
    intro field _ b hb
    exact processTypeRef_ok nodes idx aliases m.path _ _ _ _ b hb

theorem processEnum_ok {nodes : Jmap GraphNode} {idx : SymbolIndex} {aliases : Jmap String}
    {m : ModuleDefinition} {e : EnumDef} {es : EdgeState} (h : EdgeEndpointsOk nodes es) :
    EdgeEndpointsOk nodes (processEnum nodes idx aliases m e es) := by
  unfold processEnum
  apply foldlPreserves
  · intro g _ b hb
    apply foldlPreserves _ hb
    intro bound _ b2 hb2
    exact processTypeRef_ok nodes idx aliases m.path _ bound _ _ b2 hb2
  · apply foldlPreserves _ h
    intro variant _ b hb
    apply foldlPreserves _ hb
    intro field _ b2 hb2
    exact processTypeRef_ok nodes idx aliases m.path _ _ _ _ b2 hb2

theorem processFunction_ok {nodes : Jmap GraphNode} {idx : SymbolIndex} {aliases : Jmap String}
    {m : ModuleDefinition} {fn : FunctionDef} {parentId : String} {es : EdgeState}
    (h : EdgeEndpointsOk nodes es) :
    EdgeEndpointsOk nodes (processFunction nodes idx aliases m fn parentId es) := by
  unfold processFunction
  apply foldlPreserves
  · intro callsite _ b hb
    cases resolveFunctionCall nodes m.path callsite.functionPath with
    | some targetId => exact addEdge_ok hb
    | none => exact hb
  · apply foldlPreserves
    · intro g _ b hb
      apply foldlPreserves _ hb
      intro bound _ b2 hb2
      exact processTypeRef_ok nodes idx aliases m.path _ bound _ _ b2 hb2
    · have hparams : EdgeEndpointsOk nodes (fn.params.foldl (fun es param =>
          if !param.isSelf then
            processTypeRef nodes idx aliases m.path
              (if (parentId == m.path) = true then m.path ++ "::" ++ fn.name
               else parentId ++ "::" ++ fn.name)
              param.typeRef .parameter_type m.filePath es
          else es) es) := by
        apply foldlPreserves _ h
        intro param _ b hb
        split
        · exact processTypeRef_ok nodes idx aliases m.path _ _ _ _ b hb
        · exact hb
      cases fn.returnType with
      | some rt => exact processTypeRef_ok nodes idx aliases m.path _ rt _ _ _ hparams
      | none => exact hparams

theorem processTrait_ok {nodes : Jmap GraphNode} {idx : SymbolIndex} {aliases : Jmap String}
    {m : ModuleDefinition} {t : TraitDef} {es : EdgeState} (h : EdgeEndpointsOk nodes es) :
    EdgeEndpointsOk nodes (processTrait nodes idx aliases m t es) := by
  unfold processTrait
  apply foldlPreserves
  · intro method _ b hb
    exact processFunction_ok hb
  · apply foldlPreserves _ h
    intro st _ b hb
    exact processTypeRef_ok nodes idx aliases m.path _ st _ _ b hb

theorem processImpl_ok {nodes : Jmap GraphNode} {idx : SymbolIndex} {aliases : Jmap String}
    {m : ModuleDefinition} {impl : ImplBlock} {es : EdgeState} (h : EdgeEndpointsOk nodes es) :
    EdgeEndpointsOk nodes (processImpl nodes idx aliases m impl es) := by
  unfold processImpl
  apply foldlPreserves
  · intro method _ b hb
    cases resolveTypeRefToNodeId nodes idx aliases m.path impl.selfType with
    | some sid => exact processFunction_ok hb
    | none => exact hb
  · cases impl.traitRef with
    | none => exact h
    | some traitRef =>
      cases resolveTypeRefToNodeId nodes idx aliases m.path impl.selfType with
      | none => exact h
      | some sid =>
        dsimp only
        cases resolveTypeRefToNodeId nodes idx aliases m.path traitRef with
        | some traitId => exact addEdge_ok h
        | none => exact h

mutual

theorem processModule_ok (nodes : Jmap GraphNode) (idx : SymbolIndex) :
    ∀ (m : ModuleDefinition) (es : EdgeState), EdgeEndpointsOk nodes es →
      EdgeEndpointsOk nodes (processModule nodes idx m es)
  | .mk name path filePath vis structs enums traits functions impls uses submodules
      constants statics typeAliases, es, h => by
    simp only [processModule]
    apply processSubmodules_ok
    apply foldlPreserves
    · intro impl _ b hb
      exact processImpl_ok hb
    apply foldlPreserves
    · intro fn _ b hb
      exact processFunction_ok hb
    apply foldlPreserves
    · intro t _ b hb
      exact processTrait_ok hb
    apply foldlPreserves
    · intro e _ b hb
      exact processEnum_ok hb
    apply foldlPreserves
    · intro st _ b hb
      exact processStruct_ok hb
    apply foldlPreserves _ h
    intro u _ b hb
    exact processUse_ok hb

theorem processSubmodules_ok (nodes : Jmap GraphNode) (idx : SymbolIndex) :
    ∀ (ms : List ModuleDefinition) (es : EdgeState), EdgeEndpointsOk nodes es →
      EdgeEndpointsOk nodes (processSubmodules nodes idx ms es)
  | [], _, h => by
    simp only [processSubmodules]
    exact h
  | m :: ms, es, h => by
    simp only [processSubmodules]
    exact processSubmodules_ok nodes idx ms _ (processModule_ok nodes idx m es h)

end

/-- C3 (amended): for every crate definition, every edge of the built
graph has both endpoints present as keys of the graph's node map. -/
theorem c3_edge_endpoints_in_node_map (crate : CrateDefinition) (e : DependencyEdge)
    (he : e ∈ (buildDependencyGraph crate).edges) :
    (buildDependencyGraph crate).nodes.contains e.«from» = true ∧
    (buildDependencyGraph crate).nodes.contains e.«to» = true := by
  have h0 : EdgeEndpointsOk (buildNodes crate.rootModule none ⟨[], [], []⟩).nodes
      ⟨[], (buildNodes crate.rootModule none ⟨[], [], []⟩).adjacencyList,
       (buildNodes crate.rootModule none ⟨[], [], []⟩).reverseAdjacencyList⟩ := by
    intro e he
    simp [Jmap.values] at he
  have h1 := processModule_ok (buildNodes crate.rootModule none ⟨[], [], []⟩).nodes
    (buildSymbolIndex crate.rootModule) crate.rootModule _ h0
  exact h1 e he

theorem c3_edge_endpoints_in_node_map_witness :
    ((⟨"crate::f", "crate::f", .function_call, 1, [⟨"src/lib.rs", 1, 0⟩]⟩ : DependencyEdge)
      ∈ (buildDependencyGraph c3crate).edges) ∧
    ((buildDependencyGraph c3crate).nodes.contains "crate::f" = true ∧
     (buildDependencyGraph c3crate).nodes.contains "crate::f" = true) :=
  ⟨by decide,
   c3_edge_endpoints_in_node_map c3crate
     ⟨"crate::f", "crate::f", .function_call, 1, [⟨"src/lib.rs", 1, 0⟩]⟩ (by decide)⟩

theorem Jmap.find?_of_contains {α : Type _} {m : Jmap α} {k : String}
    (h : m.contains k = true) : ∃ p, List.find? (fun q => q.1 == k) m = some p ∧ p.1 = k := by
  unfold Jmap.contains at h
  rcases List.any_eq_true.mp h with ⟨p0, hp0, hp0k⟩
  cases hf : List.find? (fun q => q.1 == k) m with
  | none =>
    exfalso
    have := List.find?_eq_none.mp hf p0 hp0
    simp_all
  | some p =>
    have := List.find?_some hf
    exact ⟨p, rfl, by simpa using this⟩

theorem Jmap.get?_set_self {α : Type _} (m : Jmap α) (k : String) (v : α) :
    (m.set k v).get? k = some v := by
  unfold Jmap.set
  by_cases hc : m.contains k = true
  · rw [if_pos hc]
    unfold Jmap.get?
    rw [List.find?_map]
    have hpred : ((fun q : String × α => q.1 == k) ∘ (fun p => if (p.1 == k) = true then (k, v) else p))
        = (fun q : String × α => q.1 == k) := by
      funext q
      by_cases hq : q.1 = k
      · simp [hq]
      · simp [hq]
    rw [hpred]
    rcases Jmap.find?_of_contains hc with ⟨p, hp, hpk⟩
    rw [hp]
    simp [hpk]
  · rw [if_neg hc]
    unfold Jmap.get?
    rw [List.find?_append]
    have hnone : List.find? (fun q : String × α => q.1 == k) m = none := by
      cases hf : List.find? (fun q : String × α => q.1 == k) m with
      | none => rfl
      | some p =>
        exfalso
        apply hc
        unfold Jmap.contains
        exact List.any_eq_true.mpr ⟨p, List.mem_of_find?_eq_some hf, by simpa using List.find?_some hf⟩
    rw [hnone]
    simp [List.find?]

theorem Jmap.get?_set_ne {α : Type _} (m : Jmap α) (k kq : String) (v : α) (h : kq ≠ k) :
    (m.set k v).get? kq = m.get? kq := by
  unfold Jmap.set
  by_cases hc : m.contains k = true
  · rw [if_pos hc]
    unfold Jmap.get?
    rw [List.find?_map]
    have hpred : ((fun q : String × α => q.1 == kq) ∘ (fun p => if (p.1 == k) = true then (k, v) else p))
        = (fun q : String × α => q.1 == kq) := by
      funext q
      by_cases hq : q.1 = k
      · have hkq : (k == kq) = false := by
          simp only [beq_eq_false_iff_ne]
          exact fun hx => h hx.symm
        have hqkq : (q.1 == kq) = false := by
          simp only [beq_eq_false_iff_ne]
          rw [hq]
          exact fun hx => h hx.symm
        simp [hq, hkq, hqkq]
      · simp [hq]
    rw [hpred]
    cases hf : List.find? (fun q : String × α => q.1 == kq) m with
    | none => simp
    | some p =>
      have hp : p.1 = kq := by simpa using List.find?_some hf
      have hpk : ¬ p.1 = k := by
        rw [hp]
        exact h
      simp [hpk]
  · rw [if_neg hc]
    unfold Jmap.get?
    rw [List.find?_append]
    have hkkq : (k == kq) = false := by
      simp only [beq_eq_false_iff_ne]
      exact fun hx => h hx.symm
    have hlast : List.find? (fun q : String × α => q.1 == kq) [(k, v)] = none := by
      simp [List.find?, hkkq]
    rw [hlast]
    cases hf : List.find? (fun q : String × α => q.1 == kq) m <;> simp

theorem Jmap.keys_set_of_contains {α : Type _} (m : Jmap α) (k : String) (v : α)
    (hc : m.contains k = true) : (m.set k v).keys = m.keys := by
  unfold Jmap.set
  rw [if_pos hc]
  unfold Jmap.keys
  rw [List.map_map]
  apply List.map_congr_left
  intro p _
  by_cases hk : p.1 = k
  · simp [hk]
  · simp [hk]

theorem Jmap.keys_nodup_set {α : Type _} (m : Jmap α) (k : String) (v : α)
    (h : m.keys.Nodup) : (m.set k v).keys.Nodup := by
  by_cases hc : m.contains k = true
  · rwa [Jmap.keys_set_of_contains m k v hc]
  · unfold Jmap.set
    rw [if_neg hc]
    unfold Jmap.keys
    rw [List.map_append]
    simp only [List.map_cons, List.map_nil]
    rw [List.nodup_append]
    refine ⟨h, by simp, ?_⟩
    intro x hx hy
    simp at hy
    subst hy
    apply hc
    unfold Jmap.contains
    rcases List.mem_map.mp hx with ⟨p, hp, hpk⟩
    exact List.any_eq_true.mpr ⟨p, hp, by simp [hpk]⟩

theorem Jmap.entry_unique {α : Type _} {m : Jmap α} {k : String} {v1 v2 : α}
    (hnd : m.keys.Nodup) (h1 : (k, v1) ∈ m) (h2 : (k, v2) ∈ m) : v1 = v2 := by
  induction m with
  | nil => simp at h1
  | cons p rest ih =>
    unfold Jmap.keys at hnd
    simp only [List.map_cons, List.nodup_cons] at hnd
    rcases List.mem_cons.mp h1 with e1 | m1 <;> rcases List.mem_cons.mp h2 with e2 | m2
    · have := e1.trans e2.symm
      exact congrArg Prod.snd this
    · exfalso
      apply hnd.1
      have hpk : p.1 = k := congrArg Prod.fst e1.symm
      rw [hpk]
      exact List.mem_map.mpr ⟨(k, v2), m2, rfl⟩
    · exfalso
      apply hnd.1
      have hpk : p.1 = k := congrArg Prod.fst e2.symm
      rw [hpk]
      exact List.mem_map.mpr ⟨(k, v1), m1, rfl⟩
    · exact ih hnd.2 m1 m2

theorem Jmap.get?_of_contains {α : Type _} {m : Jmap α} {k : String}
    (h : m.contains k = true) : ∃ v, m.get? k = some v := by
  rcases Jmap.find?_of_contains h with ⟨p, hp, _⟩
  refine ⟨p.2, ?_⟩
  unfold Jmap.get?
  rw [hp]
  rfl

theorem bar_append_inj_list :
    ∀ (l1 l3 : List Char) (l2 l4 : List Char), ('|' ∉ l1) → ('|' ∉ l3) →
      l1 ++ '|' :: l2 = l3 ++ '|' :: l4 → l1 = l3 ∧ l2 = l4 := by
  intro l1
  induction l1 with
  | nil =>
    intro l3 l2 l4 _ h3 heq
    cases l3 with
    | nil => simpa using heq
    | cons c cs =>
      exfalso
      simp at heq
      apply h3
      rw [← heq.1]
      exact List.mem_cons_self _ _
  | cons c cs ih =>
    intro l3 l2 l4 h1 h3 heq
    cases l3 with
    | nil =>
      exfalso
      simp at heq
      apply h1
      rw [heq.1]
      exact List.mem_cons_self _ _
    | cons d ds =>
      simp at heq
      obtain ⟨hcd, hrest⟩ := heq
      have := ih ds l2 l4 (fun hx => h1 (List.mem_cons_of_mem c hx))
        (fun hx => h3 (List.mem_cons_of_mem d hx)) hrest
      exact ⟨by rw [hcd, this.1], this.2⟩

theorem bar_append_inj {a b x y : String} (ha : '|' ∉ a.data) (hx : '|' ∉ x.data)
    (h : a ++ "|" ++ b = x ++ "|" ++ y) : a = x ∧ b = y := by
  have hdata : a.data ++ '|' :: b.data = x.data ++ '|' :: y.data := by
    have := congrArg String.data h
    simpa [String.data_append] using this
  have := bar_append_inj_list a.data x.data b.data y.data ha hx hdata
  constructor
  · cases a
    cases x
    exact congrArg String.mk this.1
  · cases b
    cases y
    exact congrArg String.mk this.2

theorem getModulePathGo_id {nodes : Jmap GraphNode} :
    ∀ (fuel : Nat) (oc : Option GraphNode) (y : String),
      getModulePathGo nodes fuel oc = some y →
      (∃ n, oc = some n ∧ n.id = y ∧ n.kind = NodeKind.module) ∨
      (∃ n ∈ nodes.values, n.id = y ∧ n.kind = NodeKind.module) := by
  intro fuel
  induction fuel with
  | zero =>
    intro oc y h
    cases oc <;> simp [getModulePathGo] at h
  | succ fuel ih =>
    intro oc y h
    cases oc with
    | none => simp [getModulePathGo] at h
    | some current =>
      unfold getModulePathGo at h
      by_cases hk : (current.kind == NodeKind.module) = true
      · rw [if_pos hk] at h
        exact Or.inl ⟨current, rfl, by simpa using h, by simpa using hk⟩
      · rw [if_neg hk] at h
        cases hp : current.parentId with
        | none => rw [hp] at h; simp at h
        | some pid =>
          rw [hp] at h
          rcases ih (nodes.get? pid) y h with ⟨n, hn, hny⟩ | h2
          · right
            exact ⟨n, Jmap.get?_mem_values hn, hny⟩
          · right
            exact h2

theorem getModulePath_id {g : DependencyGraph} {x y : String}
    (h : getModulePath x g = some y) :
    ∃ n ∈ g.nodes.values, n.id = y ∧ n.kind = NodeKind.module := by
  unfold getModulePath at h
  rcases getModulePathGo_id _ _ _ h with ⟨n, hn, hny⟩ | h2
  · exact ⟨n, Jmap.get?_mem_values hn, hny⟩
  · exact h2

theorem sumEdgeCounts_append (l : List DependencyEdge) (e : DependencyEdge) :
    sumEdgeCounts (l ++ [e]) = sumEdgeCounts l + e.count := by
  simp [sumEdgeCounts, List.foldl_append]

theorem joinLocations_append (l : List DependencyEdge) (e : DependencyEdge) :
    joinLocations (l ++ [e]) = joinLocations l ++ e.locations := by
  simp [joinLocations, List.foldl_append]

theorem collapsedIn_append (g : DependencyGraph) (L : List DependencyEdge)
    (ed : DependencyEdge) (x y : String) :
    collapsedIn g (L ++ [ed]) x y =
      collapsedIn g L x y ++ (if collapsePred g x y ed then [ed] else []) := by
  simp only [collapsedIn, List.filter_append, List.filter]
  cases collapsePred g x y ed <;> simp

theorem Jmap.mem_set_strong {α : Type _} {m : Jmap α} {k : String} {v : α} {x : String × α}
    (hx : x ∈ m.set k v) : (x ∈ m ∧ x.1 ≠ k) ∨ x = (k, v) := by
  unfold Jmap.set at hx
  by_cases hc : m.contains k = true
  · rw [if_pos hc] at hx
    rcases List.mem_map.mp hx with ⟨p, hp, heq⟩
    by_cases hk : p.1 = k
    · right
      rw [if_pos (by simpa using hk)] at heq
      exact heq.symm
    · left
      rw [if_neg (by simpa using hk)] at heq
      exact ⟨heq ▸ hp, heq ▸ hk⟩
  · rw [if_neg hc] at hx
    rcases List.mem_append.mp hx with h | h
    · left
      refine ⟨h, ?_⟩
      intro hk
      apply hc
      unfold Jmap.contains
      exact List.any_eq_true.mpr ⟨x, h, by simp [hk]⟩
    · right
      simpa using h

theorem Jmap.contains_of_get? {α : Type _} {m : Jmap α} {k : String} {v : α}
    (h : m.get? k = some v) : m.contains k = true := by
  unfold Jmap.contains
  exact List.any_eq_true.mpr ⟨(k, v), Jmap.mem_of_get?_eq_some h, by simp⟩

theorem Jmap.contains_set_self {α : Type _} (m : Jmap α) (k : String) (v : α) :
    (m.set k v).contains k = true :=
  Jmap.contains_of_get? (Jmap.get?_set_self m k v)

theorem Jmap.contains_set_mono {α : Type _} {m : Jmap α} {k kq : String} {v : α}
    (h : m.contains kq = true) : (m.set k v).contains kq = true := by
  by_cases hk : kq = k
  · rw [hk]
    exact Jmap.contains_set_self m k v
  · rcases Jmap.get?_of_contains h with ⟨w, hw⟩
    exact Jmap.contains_of_get? (by rw [Jmap.get?_set_ne m k kq v hk]; exact hw)

theorem AggInv_skip {g : DependencyGraph} {L : List DependencyEdge}
    {em : Jmap DependencyEdge} {ed : DependencyEdge}
    (hpred : ∀ x y, collapsePred g x y ed = false)
    (h : AggInv g L em) : AggInv g (L ++ [ed]) em := by
  obtain ⟨hnd, hC2, hC3⟩ := h
  refine ⟨hnd, ?_, ?_⟩
  · intro p hp
    rcases hC2 p hp with ⟨x, y, e, es, hbx, hby, hk, hcol, hval⟩
    refine ⟨x, y, e, es, hbx, hby, hk, ?_, hval⟩
    rw [collapsedIn_append, hpred x y]
    simpa using hcol
  · intro x y hbx hby hne
    apply hC3 x y hbx hby
    rw [collapsedIn_append, hpred x y] at hne
    simpa using hne

theorem aggEdgeStep_inv {g : DependencyGraph}
    (hsep : ∀ n ∈ g.nodes.values, ('|' ∉ n.id.data))
    {L : List DependencyEdge} {em : Jmap DependencyEdge} (ed : DependencyEdge)
    (h : AggInv g L em) : AggInv g (L ++ [ed]) (aggEdgeStep g em ed) := by
  unfold aggEdgeStep
  cases hf : getModulePath ed.«from» g with
  | none =>
    apply AggInv_skip _ h
    intro x y
    simp [collapsePred, hf]
  | some mf =>
    cases ht : getModulePath ed.«to» g with
    | none =>
      apply AggInv_skip _ h
      intro x y
      simp [collapsePred, hf, ht]
    | some mt =>
      dsimp only
      by_cases hne : (mf != mt) = true
      · rw [if_pos hne]
        have hbmf : '|' ∉ mf.data := by
          rcases getModulePath_id hf with ⟨n, hn, hid, _⟩
          exact hid ▸ hsep n hn
        have hbmt : '|' ∉ mt.data := by
          rcases getModulePath_id ht with ⟨n, hn, hid, _⟩
          exact hid ▸ hsep n hn
        have hmfmt : mf ≠ mt := by simpa using hne
        have hpredT : collapsePred g mf mt ed = true := by
          simp [collapsePred, hf, ht, hmfmt]
        have hpredF : ∀ x y, ¬(x = mf ∧ y = mt) → collapsePred g x y ed = false := by
          intro x y hxy
          by_cases hx : x = mf
          · by_cases hy : y = mt
            · exact absurd ⟨hx, hy⟩ hxy
            · simp [collapsePred, ht]
              intro h1 h2
              exact absurd h2.symm hy
          · simp [collapsePred, hf]
            intro h1
            exact absurd h1.symm hx
        obtain ⟨hnd, hC2, hC3⟩ := h
        cases hget : em.get? (mf ++ "|" ++ mt) with
        | some existing =>
          have hmem := Jmap.mem_of_get?_eq_some hget
          rcases hC2 _ hmem with ⟨x0, y0, e0, es0, hbx0, hby0, hk0, hcol0, hval0⟩
          obtain ⟨hx0, hy0⟩ := bar_append_inj hbmf hbx0 hk0
          subst hx0
          subst hy0
          dsimp only at hcol0 hval0
          refine ⟨Jmap.keys_nodup_set _ _ _ hnd, ?_, ?_⟩
          · intro p hp
            rcases Jmap.mem_set_strong hp with ⟨hpold, hpk⟩ | hpnew
            · rcases hC2 p hpold with ⟨x, y, e, es, hbx, hby, hk, hcol, hval⟩
              refine ⟨x, y, e, es, hbx, hby, hk, ?_, hval⟩
              have hxy : ¬(x = mf ∧ y = mt) := by
                intro ⟨hx, hy⟩
                apply hpk
                rw [hk, hx, hy]
              rw [collapsedIn_append, hpredF x y hxy]
              simpa using hcol
            · refine ⟨mf, mt, e0, es0 ++ [ed], hbmf, hbmt, by rw [hpnew], ?_, ?_⟩
              · rw [collapsedIn_append, hcol0, hpredT]
                simp
              · rw [hpnew]
                dsimp only
                rw [hval0]
                unfold mergeCollapsed
                have h1 : e0 :: (es0 ++ [ed]) = (e0 :: es0) ++ [ed] := by simp
                rw [h1, sumEdgeCounts_append, joinLocations_append]
          · intro x y hbx hby hne2
            by_cases hxy : x = mf ∧ y = mt
            · obtain ⟨hx, hy⟩ := hxy
              rw [hx, hy]
              exact Jmap.contains_set_self _ _ _
            · rw [collapsedIn_append, hpredF x y hxy] at hne2
              simp at hne2
              exact Jmap.contains_set_mono (hC3 x y hbx hby hne2)
        | none =>
          have hcol0 : collapsedIn g L mf mt = [] := by
            by_contra hx
            rcases Jmap.get?_of_contains (hC3 mf mt hbmf hbmt hx) with ⟨w, hw⟩
            rw [hget] at hw
            exact Option.noConfusion hw
          refine ⟨Jmap.keys_nodup_set _ _ _ hnd, ?_, ?_⟩
          · intro p hp
            rcases Jmap.mem_set_strong hp with ⟨hpold, hpk⟩ | hpnew
            · rcases hC2 p hpold with ⟨x, y, e, es, hbx, hby, hk, hcol, hval⟩
              refine ⟨x, y, e, es, hbx, hby, hk, ?_, hval⟩
              have hxy : ¬(x = mf ∧ y = mt) := by
                intro ⟨hx, hy⟩
                apply hpk
                rw [hk, hx, hy]
              rw [collapsedIn_append, hpredF x y hxy]
              simpa using hcol
            · refine ⟨mf, mt, ed, [], hbmf, hbmt, by rw [hpnew], ?_, ?_⟩
              · rw [collapsedIn_append, hcol0, hpredT]
                simp
              · rw [hpnew]
                dsimp only
                unfold mergeCollapsed
                simp [sumEdgeCounts, joinLocations]
          · intro x y hbx hby hne2
            by_cases hxy : x = mf ∧ y = mt
            · obtain ⟨hx, hy⟩ := hxy
              rw [hx, hy]
              exact Jmap.contains_set_self _ _ _
            · rw [collapsedIn_append, hpredF x y hxy] at hne2
              simp at hne2
              exact Jmap.contains_set_mono (hC3 x y hbx hby hne2)
      · rw [if_neg hne]
        have hmfmt : mf = mt := by simpa using hne
        apply AggInv_skip _ h
        intro x y
        by_cases hx : x = mf
        · by_cases hy : y = mt
          · rw [hx, hy, ← hmfmt]
            simp [collapsePred, hf, ht, hmfmt]
          · simp [collapsePred, ht]
            intro h1 h2
            exact absurd h2.symm hy
        · simp [collapsePred, hf]
          intro h1
          exact absurd h1.symm hx

theorem foldl_aggInv {g : DependencyGraph}
    (hsep : ∀ n ∈ g.nodes.values, ('|' ∉ n.id.data)) :
    ∀ (L2 L1 : List DependencyEdge) (em : Jmap DependencyEdge), AggInv g L1 em →
      AggInv g (L1 ++ L2) (L2.foldl (aggEdgeStep g) em) := by
  intro L2
  induction L2 with
  | nil =>
    intro L1 em h
    simpa using h
  | cons e L2 ih =>
    intro L1 em h
    have h1 : L1 ++ e :: L2 = (L1 ++ [e]) ++ L2 := by simp
    rw [h1, List.foldl_cons]
    exact ih (L1 ++ [e]) (aggEdgeStep g em e) (aggEdgeStep_inv hsep e h)

theorem agg_edges_inv (g : DependencyGraph)
    (hsep : ∀ n ∈ g.nodes.values, ('|' ∉ n.id.data)) :
    AggInv g g.edges (g.edges.foldl (aggEdgeStep g) []) := by
  have h0 : AggInv g [] [] := by
    refine ⟨by simp [Jmap.keys], by simp, ?_⟩
    intro x y _ _ hne
    exact absurd rfl hne
  simpa using foldl_aggInv hsep g.edges [] [] h0

/-- C10: module-level aggregation deduplicates on the (from, to) module
pair only, ignoring the dependency kind: the collapsed edges of a graph
(whose node ids are `|`-free, as every id built from `::`-separated path
segments is) contain at most one edge per ordered module pair; that
edge carries the dependency kind of the first collapsed original edge,
the sum of their counts, and the concatenation of their locations; and
every pair with a nonempty collapsed group is represented. -/
theorem c10_module_aggregation_dedup (g : DependencyGraph)
    (hsep : ∀ n ∈ g.nodes.values, ('|' ∉ n.id.data)) :
    (∀ e1 ∈ (aggregateToModuleLevel g).edges, ∀ e2 ∈ (aggregateToModuleLevel g).edges,
       e1.«from» = e2.«from» → e1.«to» = e2.«to» → e1 = e2) ∧
    (∀ e ∈ (aggregateToModuleLevel g).edges, ∃ e0 es,
       collapsedEdges g e.«from» e.«to» = e0 :: es ∧
       e.depType = e0.depType ∧ e.count = sumEdgeCounts (e0 :: es) ∧
       e.locations = joinLocations (e0 :: es)) ∧
    (∀ a b, collapsedEdges g a b ≠ [] →
       ∃ e ∈ (aggregateToModuleLevel g).edges, e.«from» = a ∧ e.«to» = b) := by
  obtain ⟨hnd, hC2, hC3⟩ := agg_edges_inv g hsep
  have hedges : (aggregateToModuleLevel g).edges = (g.edges.foldl (aggEdgeStep g) []).values := rfl
  refine ⟨?_, ?_, ?_⟩
  · intro e1 he1 e2 he2 hfrom hto
    rw [hedges] at he1 he2
    rcases List.mem_map.mp he1 with ⟨p1, hp1, hp1e⟩
    rcases List.mem_map.mp he2 with ⟨p2, hp2, hp2e⟩
    rcases hC2 p1 hp1 with ⟨x1, y1, a1, as1, _, _, hk1, _, hv1⟩
    rcases hC2 p2 hp2 with ⟨x2, y2, a2, as2, _, _, hk2, _, hv2⟩
    have hf1 : e1.«from» = x1 := by rw [← hp1e, hv1]; rfl
    have ht1 : e1.«to» = y1 := by rw [← hp1e, hv1]; rfl
    have hf2 : e2.«from» = x2 := by rw [← hp2e, hv2]; rfl
    have ht2 : e2.«to» = y2 := by rw [← hp2e, hv2]; rfl
    have hkeq : p1.1 = p2.1 := by
      rw [hk1, hk2, ← hf1, ← ht1, ← hf2, ← ht2, hfrom, hto]
    have hp1' : (p1.1, p1.2) ∈ (g.edges.foldl (aggEdgeStep g) []) := by
      simpa using hp1
    have hp2' : (p1.1, p2.2) ∈ (g.edges.foldl (aggEdgeStep g) []) := by
      rw [hkeq]
      simpa using hp2
    have := Jmap.entry_unique hnd hp1' hp2'
    rw [← hp1e, ← hp2e, this]
  · intro e he
    rw [hedges] at he
    rcases List.mem_map.mp he with ⟨p, hp, hpe⟩
    rcases hC2 p hp with ⟨x, y, e0, es, _, _, hk, hcol, hv⟩
    have hf : e.«from» = x := by rw [← hpe, hv]; rfl
    have ht : e.«to» = y := by rw [← hpe, hv]; rfl
    refine ⟨e0, es, ?_, ?_, ?_, ?_⟩
    · rw [hf, ht]
      exact hcol
    · rw [← hpe, hv]; rfl
    · rw [← hpe, hv]; rfl
    · rw [← hpe, hv]; rfl
  · intro a b hne
    have hex : ∃ ed ∈ g.edges, collapsePred g a b ed = true := by
      cases hcol : collapsedEdges g a b with
      | nil => exact absurd hcol hne
      | cons e0 es =>
        have : e0 ∈ collapsedEdges g a b := by rw [hcol]; exact List.mem_cons_self _ _
        unfold collapsedEdges collapsedIn at this
        exact ⟨e0, List.mem_of_mem_filter this, List.of_mem_filter this⟩
    rcases hex with ⟨ed, _, hpred⟩
    have hfa : getModulePath ed.«from» g = some a := by
      have := hpred
      unfold collapsePred at this
      simp at this
      exact this.1.1
    have htb : getModulePath ed.«to» g = some b := by
      have := hpred
      unfold collapsePred at this
      simp at this
      exact this.1.2
    have hba : '|' ∉ a.data := by
      rcases getModulePath_id hfa with ⟨n, hn, hid, _⟩
      exact hid ▸ hsep n hn
    have hbb : '|' ∉ b.data := by
      rcases getModulePath_id htb with ⟨n, hn, hid, _⟩
      exact hid ▸ hsep n hn
    rcases Jmap.get?_of_contains (hC3 a b hba hbb hne) with ⟨v, hv⟩
    have hmem := Jmap.mem_of_get?_eq_some hv
    rcases hC2 _ hmem with ⟨x, y, e0, es, hbx, _, hk, _, hval⟩
    dsimp only at hk hval
    obtain ⟨hxa, hyb⟩ := bar_append_inj hba hbx hk
    refine ⟨v, ?_, ?_, ?_⟩
    · rw [hedges]
      exact List.mem_map.mpr ⟨(a ++ "|" ++ b, v), hmem, rfl⟩
    · rw [hval]
      exact hxa.symm
    · rw [hval]
      exact hyb.symm

theorem c10_module_aggregation_dedup_witness :
    (∀ n ∈ (buildDependencyGraph c4crate).nodes.values, ('|' ∉ n.id.data)) ∧
    collapsedEdges (buildDependencyGraph c4crate) "crate::a" "crate::b" ≠ [] ∧
    (∃ e ∈ (aggregateToModuleLevel (buildDependencyGraph c4crate)).edges,
       e.«from» = "crate::a" ∧ e.«to» = "crate::b") :=
  ⟨by decide, by decide,
   (c10_module_aggregation_dedup (buildDependencyGraph c4crate) (by decide)).2.2
     "crate::a" "crate::b" (by decide)⟩

/-! ## Idempotence of module-level aggregation -/

theorem DependencyGraph.ext4 {a b : DependencyGraph}
    (h1 : a.nodes = b.nodes) (h2 : a.edges = b.edges)
    (h3 : a.adjacencyList = b.adjacencyList)
    (h4 : a.reverseAdjacencyList = b.reverseAdjacencyList) : a = b := by
  cases a; cases b; simp_all

theorem foldl_congr_mem {β γ : Type _} {f g : β → γ → β} :
    ∀ (l : List γ) (init : β), (∀ a ∈ l, ∀ b, f b a = g b a) →
      l.foldl f init = l.foldl g init := by
  intro l
  induction l with
  | nil => intro init _; rfl
  | cons a as ih =>
    intro init h
    simp only [List.foldl_cons]
    rw [h a (List.mem_cons_self a as) init]
    exact ih _ (fun x hx b => h x (List.mem_cons_of_mem a hx) b)

theorem Jmap.get?_eq_none {α : Type _} {m : Jmap α} {k : String}
    (h : m.contains k = false) : m.get? k = none := by
  cases hg : m.get? k with
  | none => rfl
  | some v => simp [Jmap.contains_of_get? hg] at h

theorem Jmap.set_append {α : Type _} {m : Jmap α} {k : String} (v : α)
    (h : m.contains k = false) : m.set k v = m ++ [(k, v)] := by
  unfold Jmap.set
  rw [if_neg (by simp [h])]

theorem Jmap.contains_append_single {α : Type _} {m : Jmap α} {k k2 : String} {v : α} :
    (m ++ [(k2, v)]).contains k = (m.contains k || (k2 == k)) := by
  unfold Jmap.contains
  simp [List.any_append]

theorem foldl_set_rebuild {α : Type _} :
    ∀ (l : Jmap α) (acc : Jmap α), (Jmap.keys l).Nodup →
      (∀ k ∈ Jmap.keys l, acc.contains k = false) →
      l.foldl (fun a p => Jmap.set a p.1 p.2) acc = acc ++ l := by
  intro l
  induction l with
  | nil => intro acc _ _; simp
  | cons p rest ih =>
    intro acc hnd hfresh
    simp only [List.foldl_cons]
    have hp : acc.contains p.1 = false := hfresh p.1 (by simp [Jmap.keys])
    rw [Jmap.set_append p.2 hp]
    have hnd0 : p.1 ∉ Jmap.keys rest ∧ (Jmap.keys rest).Nodup := by
      have hx : (p.1 :: Jmap.keys rest).Nodup := by simpa [Jmap.keys] using hnd
      exact List.nodup_cons.mp hx
    have hfresh2 : ∀ k ∈ Jmap.keys rest, (acc ++ [(p.1, p.2)]).contains k = false := by
      intro k hk
      rw [Jmap.contains_append_single]
      have h1 : acc.contains k = false := by
        apply hfresh
        simp only [Jmap.keys, List.map_cons, List.mem_cons]
        right
        exact hk
      have h2 : (p.1 == k) = false := by
        have hne : p.1 ≠ k := fun he => hnd0.1 (he ▸ hk)
        simp [hne]
      simp [h1, h2]
    rw [ih (acc ++ [(p.1, p.2)]) hnd0.2 hfresh2]
    simp

theorem aggNodes_entries {g : DependencyGraph}
    (hid : ∀ p ∈ g.nodes, p.2.id = p.1) :
    (∀ p ∈ g.nodes.foldl aggNodeStep ([] : Jmap GraphNode),
        p.2.kind = NodeKind.module ∧ p.2.children = [] ∧ p.2.id = p.1) ∧
    (Jmap.keys (g.nodes.foldl aggNodeStep ([] : Jmap GraphNode))).Nodup := by
  have hstep : ∀ a ∈ g.nodes, ∀ acc : Jmap GraphNode,
      ((∀ p ∈ acc, p.2.kind = NodeKind.module ∧ p.2.children = [] ∧ p.2.id = p.1) ∧
        (Jmap.keys acc).Nodup) →
      ((∀ p ∈ aggNodeStep acc a,
          p.2.kind = NodeKind.module ∧ p.2.children = [] ∧ p.2.id = p.1) ∧
        (Jmap.keys (aggNodeStep acc a)).Nodup) := by
    intro a ha acc hacc
    unfold aggNodeStep
    by_cases hk : (a.2.kind == NodeKind.module) = true
    · rw [if_pos hk]
      refine ⟨?_, Jmap.keys_nodup_set _ _ _ hacc.2⟩
      intro p hp
      rcases Jmap.mem_set hp with hold | hnew
      · exact hacc.1 p hold
      · rw [hnew]
        exact ⟨by simpa using hk, rfl, hid a ha⟩
    · rw [if_neg hk]
      exact hacc
  exact @foldlPreserves (String × GraphNode) (Jmap GraphNode)
    (fun acc => (∀ p ∈ acc, p.2.kind = NodeKind.module ∧ p.2.children = [] ∧ p.2.id = p.1) ∧
      (Jmap.keys acc).Nodup)
    aggNodeStep g.nodes [] hstep
    ⟨fun p hp => absurd hp (List.not_mem_nil p), by simp [Jmap.keys]⟩

theorem aggNodeStep_contains_mono {acc : Jmap GraphNode} {p : String × GraphNode} {k : String}
    (h : acc.contains k = true) : (aggNodeStep acc p).contains k = true := by
  unfold aggNodeStep
  split
  · exact Jmap.contains_set_mono h
  · exact h

theorem aggNodes_contains :
    ∀ (l : List (String × GraphNode)) (acc : Jmap GraphNode) (k : String) (n : GraphNode),
      (k, n) ∈ l → n.kind = NodeKind.module →
      (l.foldl aggNodeStep acc).contains k = true := by
  intro l
  induction l with
  | nil => intro acc k n h _; cases h
  | cons p rest ih =>
    intro acc k n hmem hkind
    simp only [List.foldl_cons]
    rcases List.mem_cons.mp hmem with he | hm
    · have hstep : (aggNodeStep acc p).contains k = true := by
        subst he
        unfold aggNodeStep
        rw [if_pos (by simp [hkind])]
        exact Jmap.contains_set_self _ _ _
      exact @foldlPreserves (String × GraphNode) (Jmap GraphNode)
        (fun m => Jmap.contains m k = true) aggNodeStep rest (aggNodeStep acc p)
        (fun a _ b hb => aggNodeStep_contains_mono hb) hstep
    · exact ih (aggNodeStep acc p) k n hm hkind

theorem getModulePath_self {G : DependencyGraph} {x : String}
    (hc : G.nodes.contains x = true)
    (hfacts : ∀ p ∈ G.nodes, p.2.kind = NodeKind.module ∧ p.2.id = p.1) :
    getModulePath x G = some x := by
  rcases Jmap.get?_of_contains hc with ⟨v, hv⟩
  have hmem := Jmap.mem_of_get?_eq_some hv
  obtain ⟨hkind, hid⟩ := hfacts _ hmem
  have hkind2 : v.kind = NodeKind.module := hkind
  have hid2 : v.id = x := hid
  unfold getModulePath
  rw [hv]
  simp only [getModulePathGo]
  rw [if_pos (by simp [hkind2])]
  exact congrArg some hid2

theorem aggEdgeStep_inv7 {g : DependencyGraph} {em : Jmap DependencyEdge}
    (ed : DependencyEdge) (h : Inv7 g em) : Inv7 g (aggEdgeStep g em ed) := by
  unfold aggEdgeStep
  cases hf : getModulePath ed.«from» g with
  | none => exact h
  | some mf =>
    cases ht : getModulePath ed.«to» g with
    | none => exact h
    | some mt =>
      dsimp only
      by_cases hne : (mf != mt) = true
      · rw [if_pos hne]
        have hmfmt : mf ≠ mt := by simpa using hne
        cases hg : em.get? (mf ++ "|" ++ mt) with
        | some existing =>
          dsimp only
          refine ⟨Jmap.keys_nodup_set _ _ _ h.1, ?_⟩
          intro p hp
          rcases Jmap.mem_set_strong hp with ⟨hold, _⟩ | hnew
          · exact h.2 p hold
          · have hex := h.2 _ (Jmap.mem_of_get?_eq_some hg)
            rw [hnew]
            exact ⟨hex.1, hex.2.1, hex.2.2.1, hex.2.2.2⟩
        | none =>
          dsimp only
          refine ⟨Jmap.keys_nodup_set _ _ _ h.1, ?_⟩
          intro p hp
          rcases Jmap.mem_set_strong hp with ⟨hold, _⟩ | hnew
          · exact h.2 p hold
          · rw [hnew]
            exact ⟨rfl, hmfmt, getModulePath_id hf, getModulePath_id ht⟩
      · rw [if_neg hne]
        exact h

theorem edges_inv7 (g : DependencyGraph) :
    Inv7 g (g.edges.foldl (aggEdgeStep g) []) :=
  foldlPreserves (fun e _ em hm => aggEdgeStep_inv7 e hm)
    ⟨by simp [Jmap.keys], fun p hp => absurd hp (List.not_mem_nil p)⟩

theorem aggEdgeStep_fresh {G : DependencyGraph} {em : Jmap DependencyEdge} {e : DependencyEdge}
    (hf : getModulePath e.«from» G = some e.«from»)
    (ht : getModulePath e.«to» G = some e.«to»)
    (hne : e.«from» ≠ e.«to»)
    (hfresh : em.contains (e.«from» ++ "|" ++ e.«to») = false) :
    aggEdgeStep G em e = em ++ [(e.«from» ++ "|" ++ e.«to», e)] := by
  unfold aggEdgeStep
  rw [hf, ht]
  dsimp only
  rw [if_pos (by simp [hne])]
  rw [Jmap.get?_eq_none hfresh]
  dsimp only
  rw [Jmap.set_append _ hfresh]

theorem foldl_aggEdge_fresh {G : DependencyGraph} :
    ∀ (l : List DependencyEdge) (acc : Jmap DependencyEdge),
      (∀ e ∈ l, getModulePath e.«from» G = some e.«from» ∧
        getModulePath e.«to» G = some e.«to» ∧ e.«from» ≠ e.«to») →
      (l.map (fun e => e.«from» ++ "|" ++ e.«to»)).Nodup →
      (∀ e ∈ l, acc.contains (e.«from» ++ "|" ++ e.«to») = false) →
      l.foldl (aggEdgeStep G) acc = acc ++ l.map (fun e => (e.«from» ++ "|" ++ e.«to», e)) := by
  intro l
  induction l with
  | nil => intro acc _ _ _; simp
  | cons e rest ih =>
    intro acc hmods hnd hfresh
    simp only [List.foldl_cons, List.map_cons]
    obtain ⟨hf, ht, hne⟩ := hmods e (List.mem_cons_self e rest)
    rw [aggEdgeStep_fresh hf ht hne (hfresh e (List.mem_cons_self e rest))]
    have hhead := (List.nodup_cons.mp hnd).1
    have hfresh2 : ∀ x ∈ rest, (acc ++ [(e.«from» ++ "|" ++ e.«to», e)]).contains
        (x.«from» ++ "|" ++ x.«to») = false := by
      intro x hx
      rw [Jmap.contains_append_single]
      have h1 := hfresh x (List.mem_cons_of_mem e hx)
      have h2 : (e.«from» ++ "|" ++ e.«to») ≠ (x.«from» ++ "|" ++ x.«to») := by
        intro hcontra
        exact hhead (List.mem_map.mpr ⟨x, hx, hcontra.symm⟩)
      simp [h1, h2]
    rw [ih (acc ++ [(e.«from» ++ "|" ++ e.«to», e)])
      (fun x hx => hmods x (List.mem_cons_of_mem e hx))
      (List.nodup_cons.mp hnd).2 hfresh2]
    simp

/-- C7: module-level aggregation is idempotent.  For every dependency
graph whose node map is keyed by node id (the data model fixes this:
nodes live in a single owning map keyed by id), applying
`aggregateToModuleLevel` twice yields the same graph — same node map,
same edge list with the same counts and locations, and the same
adjacency lists — as applying it once. -/
theorem c7_module_aggregation_idempotent (g : DependencyGraph)
    (hid : ∀ p ∈ g.nodes, p.2.id = p.1) :
    aggregateToModuleLevel (aggregateToModuleLevel g) = aggregateToModuleLevel g := by
  obtain ⟨hents, hnd⟩ := aggNodes_entries hid
  -- the first pass, named only through its projections
  have L1 : (aggregateToModuleLevel g).nodes.foldl aggNodeStep [] =
      (aggregateToModuleLevel g).nodes := by
    have hcongr : (aggregateToModuleLevel g).nodes.foldl aggNodeStep ([] : Jmap GraphNode) =
        (aggregateToModuleLevel g).nodes.foldl (fun a p => Jmap.set a p.1 p.2) [] := by
      apply foldl_congr_mem
      intro p hp b
      obtain ⟨hk, hch, _⟩ := hents p hp
      unfold aggNodeStep
      rw [if_pos (by simp [hk])]
      have hupd : { p.2 with children := [] } = p.2 := by
        rw [← hch]
      rw [hupd]
    have hnd2 : (Jmap.keys ((aggregateToModuleLevel g).nodes)).Nodup := hnd
    rw [hcongr,
      foldl_set_rebuild ((aggregateToModuleLevel g).nodes) [] hnd2 (fun k _ => rfl)]
    simp
  -- entry facts and membership, restated on the first pass's projections
  have hinvE := edges_inv7 g
  have hedges : (aggregateToModuleLevel g).edges =
      (g.edges.foldl (aggEdgeStep g) []).values := rfl
  have hmods : ∀ e ∈ (aggregateToModuleLevel g).edges,
      getModulePath e.«from» (aggregateToModuleLevel g) = some e.«from» ∧
      getModulePath e.«to» (aggregateToModuleLevel g) = some e.«to» ∧
      e.«from» ≠ e.«to» := by
    intro e he
    rw [hedges] at he
    rcases List.mem_map.mp he with ⟨p, hp, hpe⟩
    obtain ⟨hkey, hne, ⟨nf, hnf, hnfid, hnfk⟩, ⟨nt2, hnt, hntid, hntk⟩⟩ := hinvE.2 p hp
    have hself : ∀ y : String, (∃ n0 ∈ g.nodes.values, n0.id = y ∧ n0.kind = NodeKind.module) →
        getModulePath y (aggregateToModuleLevel g) = some y := by
      rintro y ⟨n0, hn0, hn0id, hn0k⟩
      rcases List.mem_map.mp hn0 with ⟨q, hq, hqn⟩
      have hk1 : q.1 = y := by rw [← hid q hq, hqn, hn0id]
      have hqmem : (y, q.2) ∈ g.nodes := by rw [← hk1]; exact hq
      have hc : (aggregateToModuleLevel g).nodes.contains y = true :=
        aggNodes_contains g.nodes [] y q.2 hqmem (by rw [hqn]; exact hn0k)
      apply getModulePath_self hc
      intro p2 hp2
      obtain ⟨hk2, _, hid2⟩ := hents p2 hp2
      exact ⟨hk2, hid2⟩
    refine ⟨?_, ?_, ?_⟩
    · exact hself e.«from» ⟨nf, hnf, by rw [hnfid, hpe], hnfk⟩
    · exact hself e.«to» ⟨nt2, hnt, by rw [hntid, hpe], hntk⟩
    · rw [← hpe]; exact hne
  have hkeysmap : ((aggregateToModuleLevel g).edges.map
      (fun e => e.«from» ++ "|" ++ e.«to»)).Nodup := by
    rw [hedges]
    unfold Jmap.values
    rw [List.map_map]
    have hmapeq : (g.edges.foldl (aggEdgeStep g) []).map
        ((fun e => e.«from» ++ "|" ++ e.«to») ∘ Prod.snd) =
        (g.edges.foldl (aggEdgeStep g) []).map Prod.fst := by
      apply List.map_congr_left
      intro p hp
      exact ((hinvE.2 p hp).1).symm
    rw [hmapeq]
    exact hinvE.1
  have L2 : ((aggregateToModuleLevel g).edges.foldl
      (aggEdgeStep (aggregateToModuleLevel g)) []).values =
      (aggregateToModuleLevel g).edges := by
    rw [foldl_aggEdge_fresh _ [] hmods hkeysmap (fun e _ => rfl)]
    unfold Jmap.values
    simp only [List.nil_append, List.map_map]
    exact (List.map_congr_left (fun x _ => rfl)).trans (List.map_id _)
  apply DependencyGraph.ext4
  · exact L1
  · exact L2
  · show adjacencyOf
        ((aggregateToModuleLevel g).nodes.foldl aggNodeStep [])
        ((aggregateToModuleLevel g).edges.foldl
          (aggEdgeStep (aggregateToModuleLevel g)) []).values =
      (aggregateToModuleLevel g).adjacencyList
    rw [L1, L2]
    rfl
  · show reverseAdjacencyOf
        ((aggregateToModuleLevel g).nodes.foldl aggNodeStep [])
        ((aggregateToModuleLevel g).edges.foldl
          (aggEdgeStep (aggregateToModuleLevel g)) []).values =
      (aggregateToModuleLevel g).reverseAdjacencyList
    rw [L1, L2]
    rfl


theorem c7_module_aggregation_idempotent_witness :
    (∀ p ∈ (buildDependencyGraph c4crate).nodes, p.2.id = p.1) ∧
    aggregateToModuleLevel (aggregateToModuleLevel (buildDependencyGraph c4crate)) =
      aggregateToModuleLevel (buildDependencyGraph c4crate) :=
  ⟨by decide,
   c7_module_aggregation_idempotent (buildDependencyGraph c4crate) (by decide)⟩

theorem popScc_spec :
    ∀ (l : List String) (v : String), v ∈ l →
      ∃ ab bl, l = ab ++ v :: bl ∧ v ∉ ab ∧ popScc l v = (ab ++ [v], bl) := by
  intro l
  induction l with
  | nil => intro v h; cases h
  | cons w rest ih =>
    intro v hv
    by_cases hwv : w = v
    · refine ⟨[], rest, ?_, ?_, ?_⟩
      · rw [hwv]; rfl
      · simp
      · unfold popScc
        rw [if_pos (by simp [hwv])]
        rw [hwv]
        rfl
    · have hv2 : v ∈ rest := by
        rcases List.mem_cons.mp hv with h | h
        · exact absurd h.symm hwv
        · exact h
      rcases ih v hv2 with ⟨ab, bl, hsplit, hnab, hpop⟩
      refine ⟨w :: ab, bl, ?_, ?_, ?_⟩
      · rw [List.cons_append, ← hsplit]
      · intro hmem
        rcases List.mem_cons.mp hmem with h | h
        · exact hwv h.symm
        · exact hnab h
      · unfold popScc
        rw [if_neg (by simp [hwv])]
        rw [hpop]
        rfl

theorem strongConnect_eq (g : DependencyGraph) (fuel : Nat) (v : String) (s : TarjanState) :
    strongConnect g (fuel + 1) v s =
      (let s2 := (succs g v).foldl (scStep g fuel v) (pushV s v)
       if s2.lowLinks.get? v == s2.indices.get? v then
         let pr := popScc s2.stack v
         { s2 with stack := pr.2, onStack := s2.onStack.removeAll pr.1,
                   sccs := s2.sccs ++ [pr.1] }
       else s2) := by
  rfl

/-! ## Tarjan correctness: state-accessor lemmas -/

theorem Jmap.contains_set_iff {α : Type _} {m : Jmap α} {k q : String} {v : α} :
    (m.set k v).contains q = true ↔ q = k ∨ m.contains q = true := by
  constructor
  · intro h
    rcases List.any_eq_true.mp h with ⟨p, hp, hpk⟩
    rcases Jmap.mem_set hp with hold | hnew
    · right
      exact List.any_eq_true.mpr ⟨p, hold, hpk⟩
    · left
      have : p.1 = q := by simpa using hpk
      rw [← this, hnew]
  · intro h
    rcases h with h | h
    · rw [h]; exact Jmap.contains_set_self m k v
    · exact Jmap.contains_set_mono h

theorem Jset.contains_iff {s : Jset} {x : String} :
    s.contains x = true ↔ x ∈ s := by
  unfold Jset.contains
  constructor
  · intro h
    rcases List.any_eq_true.mp h with ⟨y, hy, hyx⟩
    have : y = x := by simpa using hyx
    rw [← this]; exact hy
  · intro h
    exact List.any_eq_true.mpr ⟨x, h, by simp⟩

theorem Jset.contains_add_iff {s : Jset} {x y : String} :
    (s.add x).contains y = true ↔ y = x ∨ s.contains y = true := by
  unfold Jset.add
  by_cases hc : s.contains x = true
  · rw [if_pos hc]
    constructor
    · intro h; right; exact h
    · intro h
      rcases h with h | h
      · rw [h]; exact hc
      · exact h
  · rw [if_neg hc]
    rw [Jset.contains_iff, Jset.contains_iff]
    simp [or_comm]

theorem Jset.contains_removeAll_iff {s : Jset} {xs : List String} {y : String} :
    (s.removeAll xs).contains y = true ↔ s.contains y = true ∧ y ∉ xs := by
  unfold Jset.removeAll
  rw [Jset.contains_iff, Jset.contains_iff, List.mem_filter]
  constructor
  · rintro ⟨h1, h2⟩
    simp at h2
    refine ⟨h1, ?_⟩
    intro hy
    exact h2 y hy rfl
  · rintro ⟨h1, h2⟩
    refine ⟨h1, ?_⟩
    simp
    intro x hx he
    exact h2 (he ▸ hx)

theorem vis_iff_mem_visF {s : TarjanState} {w : String} :
    vis s w ↔ w ∈ visF s := by
  unfold vis visF Jmap.contains Jmap.keys
  rw [List.mem_toFinset]
  constructor
  · intro h
    rcases List.any_eq_true.mp h with ⟨p, hp, hpk⟩
    exact List.mem_map.mpr ⟨p, hp, by simpa using hpk⟩
  · intro h
    rcases List.mem_map.mp h with ⟨p, hp, hpk⟩
    exact List.any_eq_true.mpr ⟨p, hp, by simp [hpk]⟩

theorem tmeasure_mono {g : DependencyGraph} {s s' : TarjanState}
    (h : ∀ w, vis s w → vis s' w) : tmeasure g s' ≤ tmeasure g s := by
  unfold tmeasure
  apply Finset.card_le_card
  intro x hx
  rw [Finset.mem_sdiff] at hx ⊢
  refine ⟨hx.1, ?_⟩
  intro hv
  exact hx.2 (vis_iff_mem_visF.mp (h x (vis_iff_mem_visF.mpr hv)))

theorem tmeasure_lt {g : DependencyGraph} {s s' : TarjanState} {v : String}
    (hmono : ∀ w, vis s w → vis s' w) (hv : vis s' v) (hnv : ¬vis s v)
    (hk : v ∈ g.nodes.keys) : tmeasure g s' < tmeasure g s := by
  unfold tmeasure
  apply Finset.card_lt_card
  rw [Finset.ssubset_iff_of_subset]
  · refine ⟨v, ?_, ?_⟩
    · rw [Finset.mem_sdiff]
      refine ⟨by unfold keysF; exact List.mem_toFinset.mpr hk, ?_⟩
      intro hx
      exact hnv (vis_iff_mem_visF.mpr hx)
    · rw [Finset.mem_sdiff]
      push_neg
      intro _
      exact vis_iff_mem_visF.mp hv
  · intro x hx
    rw [Finset.mem_sdiff] at hx ⊢
    refine ⟨hx.1, ?_⟩
    intro hv2
    exact hx.2 (vis_iff_mem_visF.mp (hmono x (vis_iff_mem_visF.mpr hv2)))

theorem vis_pushV {s : TarjanState} {v w : String} :
    vis (pushV s v) w ↔ w = v ∨ vis s w := by
  unfold vis pushV
  exact Jmap.contains_set_iff

theorem idxN_pushV_self {s : TarjanState} {v : String} :
    idxN (pushV s v) v = s.index := by
  unfold idxN pushV
  simp [Jmap.get?_set_self]

theorem idxN_pushV_ne {s : TarjanState} {v w : String} (h : w ≠ v) :
    idxN (pushV s v) w = idxN s w := by
  unfold idxN pushV
  simp [Jmap.get?_set_ne _ _ _ _ h]

theorem llN_pushV_self {s : TarjanState} {v : String} :
    llN (pushV s v) v = s.index := by
  unfold llN pushV
  simp [Jmap.get?_set_self]

theorem llN_pushV_ne {s : TarjanState} {v w : String} (h : w ≠ v) :
    llN (pushV s v) w = llN s w := by
  unfold llN pushV
  simp [Jmap.get?_set_ne _ _ _ _ h]

theorem reach_single {g : DependencyGraph} {a b : String} (h : Step g a b) :
    Reach g a b := Relation.ReflTransGen.single h

theorem reach_emitted_closed {g : DependencyGraph} {s : TarjanState}
    (hcl : ∀ a ∈ emitted s, ∀ b ∈ succs g a, b ∈ emitted s) :
    ∀ a b, Reach g a b → a ∈ emitted s → b ∈ emitted s := by
  intro a b h
  induction h with
  | refl => intro h0; exact h0
  | tail _ hstep ih =>
    intro h0
    exact hcl _ (ih h0) _ hstep

/-! ## Tarjan correctness: loop step and skeleton -/

/-! ## Tarjan correctness: the push step -/

theorem emitted_pushV {s : TarjanState} {v : String} : emitted (pushV s v) = emitted s := rfl

theorem vis_pushV_old {s : TarjanState} {v w : String} (h : vis (pushV s v) w)
    (hne : w ≠ v) : vis s w := (vis_pushV.mp h).resolve_left hne

theorem push_inv {g : DependencyGraph} {s : TarjanState} {grays : List String} {v : String}
    (hinv : Inv g s grays) (hnv : ¬vis s v) (hk : v ∈ g.nodes.keys) :
    Inv g (pushV s v) (v :: grays) := by
  have hvstk : v ∉ s.stack := fun h => hnv (hinv.stack_vis v h)
  have hvem : v ∉ emitted s := fun h => hnv ((hinv.part_iff v).mpr (Or.inr h))
  have hvisv : vis (pushV s v) v := vis_pushV.mpr (Or.inl rfl)
  refine ⟨?_, ?_, ?_, ?_, ?_, ?_, ?_, ?_, ?_, ?_, ?_, ?_, ?_, ?_, ?_, ?_, ?_, ?_, ?_⟩
  · exact List.nodup_cons.mpr ⟨hvstk, hinv.stack_nodup⟩
  · intro w
    show (s.onStack.add v).contains w = true ↔ w ∈ v :: s.stack
    rw [Jset.contains_add_iff, hinv.onstack_iff w, List.mem_cons]
  · intro w hw
    rcases List.mem_cons.mp hw with h | h
    · rw [h]; exact hvisv
    · exact vis_pushV.mpr (Or.inr (hinv.stack_vis w h))
  · intro w hw
    rcases vis_pushV.mp hw with h | h
    · rw [h]; exact hk
    · exact hinv.vis_keys w h
  · intro w hw
    show idxN (pushV s v) w < s.index + 1
    by_cases hwv : w = v
    · rw [hwv, idxN_pushV_self]
      omega
    · rw [idxN_pushV_ne hwv]
      have := hinv.idx_lt w (vis_pushV_old hw hwv)
      omega
  · intro a b ha hb hab
    by_cases hav : a = v <;> by_cases hbv : b = v
    · rw [hav, hbv]
    · exfalso
      rw [hav, idxN_pushV_self, idxN_pushV_ne hbv] at hab
      have := hinv.idx_lt b (vis_pushV_old hb hbv)
      omega
    · exfalso
      rw [hbv, idxN_pushV_self, idxN_pushV_ne hav] at hab
      have := hinv.idx_lt a (vis_pushV_old ha hav)
      omega
    · rw [idxN_pushV_ne hav, idxN_pushV_ne hbv] at hab
      exact hinv.idx_inj a b (vis_pushV_old ha hav) (vis_pushV_old hb hbv) hab
  · intro w
    show ((s.lowLinks.set v s.index).contains w) = ((s.indices.set v s.index).contains w)
    rw [Bool.eq_iff_iff, Jmap.contains_set_iff, Jmap.contains_set_iff, hinv.ll_dom w]
  · intro w hw
    by_cases hwv : w = v
    · rw [hwv]
      show llN (pushV s v) v ≤ idxN (pushV s v) v
      rw [llN_pushV_self, idxN_pushV_self]
    · show llN (pushV s v) w ≤ idxN (pushV s v) w
      rw [llN_pushV_ne hwv, idxN_pushV_ne hwv]
      exact hinv.ll_le_idx w (vis_pushV_old hw hwv)
  · intro w
    show vis (pushV s v) w ↔ w ∈ v :: s.stack ∨ w ∈ emitted s
    rw [vis_pushV, List.mem_cons, hinv.part_iff w]
    tauto
  · intro w hw
    show w ∉ emitted s
    rcases List.mem_cons.mp hw with h | h
    · rw [h]; exact hvem
    · exact hinv.stack_em_disj w h
  · exact hinv.em_nodup
  · exact hinv.sccs_ne
  · show (v :: s.stack).Pairwise (fun a b => idxN (pushV s v) b < idxN (pushV s v) a)
    rw [List.pairwise_cons]
    constructor
    · intro b hb
      have hbv : b ≠ v := fun h => hvstk (h ▸ hb)
      rw [idxN_pushV_self, idxN_pushV_ne hbv]
      exact hinv.idx_lt b (hinv.stack_vis b hb)
    · apply List.Pairwise.imp_of_mem ?_ hinv.stack_sorted
      intro a b ha hb h
      have hav : a ≠ v := fun hh => hvstk (hh ▸ ha)
      have hbv : b ≠ v := fun hh => hvstk (hh ▸ hb)
      rw [idxN_pushV_ne hav, idxN_pushV_ne hbv]
      exact h
  · intro w hw
    rcases List.mem_cons.mp hw with h | h
    · rw [h]; exact List.mem_cons_self v s.stack
    · exact List.mem_cons_of_mem v (hinv.grays_stack w h)
  · intro w hw hng
    have hwv : w ≠ v := fun h => hng (h ▸ List.mem_cons_self v grays)
    have hws : w ∈ s.stack := by
      rcases List.mem_cons.mp hw with h | h
      · exact absurd h hwv
      · exact h
    have hngo : w ∉ grays := fun h => hng (List.mem_cons_of_mem v h)
    show llN (pushV s v) w < idxN (pushV s v) w
    rw [llN_pushV_ne hwv, idxN_pushV_ne hwv]
    exact hinv.nrs w hws hngo
  · intro a ha hng b hb
    have hav : a ≠ v := fun h => hng (h ▸ List.mem_cons_self v grays)
    have hao : vis s a := vis_pushV_old ha hav
    have hngo : a ∉ grays := fun h => hng (List.mem_cons_of_mem v h)
    obtain ⟨hvb, hbd⟩ := hinv.f4 a hao hngo b hb
    have hbv : b ≠ v := fun h => hnv (h ▸ hvb)
    refine ⟨vis_pushV.mpr (Or.inr hvb), ?_⟩
    rw [emitted_pushV, llN_pushV_ne hav, idxN_pushV_ne hbv, llN_pushV_ne hbv]
    rcases hbd with h1 | h2 | ⟨h3a, h3b⟩
    · exact Or.inl h1
    · exact Or.inr (Or.inl h2)
    · refine Or.inr (Or.inr ⟨?_, h3b⟩)
      intro hmem
      rcases List.mem_cons.mp hmem with h | h
      · exact hbv h
      · exact h3a h
  · intro a ha b hb
    rw [emitted_pushV] at ha ⊢
    exact hinv.em_closed a ha b hb
  · intro a ha
    rcases List.mem_cons.mp ha with h | h
    · refine ⟨v, List.mem_cons_self v s.stack, ?_, ?_⟩
      · rw [h, llN_pushV_self, idxN_pushV_self]
      · rw [h]
        exact Relation.ReflTransGen.refl
    · obtain ⟨y, hy, hyi, hyr⟩ := hinv.llr a h
      have hav : a ≠ v := fun hh => hvstk (hh ▸ h)
      have hyv : y ≠ v := fun hh => hvstk (hh ▸ hy)
      refine ⟨y, List.mem_cons_of_mem v hy, ?_, hyr⟩
      rw [llN_pushV_ne hav, idxN_pushV_ne hyv]
      exact hyi
  · exact hinv.sccs_correct

theorem push_loopinv {g : DependencyGraph} {s : TarjanState} {grays : List String} {v : String}
    (hinv : Inv g s grays) (hnv : ¬vis s v) (hk : v ∈ g.nodes.keys) :
    LoopInv g grays v (pushV s v) (pushV s v) [] := by
  refine ⟨push_inv hinv hnv hk, ?_, ?_, ?_, ?_, ?_, ?_, ?_, ?_, ?_, ?_, ?_, ?_, ?_, ?_⟩
  · intro w h; exact h
  · intro w _; rfl
  · intro w _ _; rfl
  · exact le_refl _
  · exact le_refl _
  · exact ⟨[], by simp⟩
  · exact ⟨[], by simp⟩
  · intro w h1 h2; exact absurd h1 h2
  · intro w h1 h2; exact absurd h1 h2
  · intro w h1 h2; exact absurd h1 h2
  · intro w hw; cases hw
  · exact List.mem_cons_self v s.stack
  · rfl
  · exact vis_pushV.mpr (Or.inl rfl)

/-! ## Tarjan correctness: preservation across one neighbor step -/

theorem Jmap.contains_iff_mem_keys {α : Type _} {m : Jmap α} {k : String} :
    m.contains k = true ↔ k ∈ m.keys := by
  unfold Jmap.contains Jmap.keys
  constructor
  · intro h
    rcases List.any_eq_true.mp h with ⟨p, hp, hpk⟩
    exact List.mem_map.mpr ⟨p, hp, by simpa using hpk⟩
  · intro h
    rcases List.mem_map.mp h with ⟨p, hp, hpk⟩
    exact List.any_eq_true.mpr ⟨p, hp, by simp [hpk]⟩

theorem Jmap.contains_set_stable {α : Type _} {m : Jmap α} {k : String} {x : α}
    (h : m.contains k = true) (u : String) :
    (m.set k x).contains u = m.contains u := by
  rw [Bool.eq_iff_iff, Jmap.contains_iff_mem_keys, Jmap.contains_iff_mem_keys,
    Jmap.keys_set_of_contains m k x h]

theorem emitted_ext_mem {s s' : TarjanState} {tl : List (List String)}
    (h : s'.sccs = s.sccs ++ tl) : ∀ a ∈ emitted s, a ∈ emitted s' := by
  intro a ha
  unfold emitted at ha ⊢
  rw [h, List.flatten_append]
  exact List.mem_append.mpr (Or.inl ha)

theorem llN_setLL_self {t : TarjanState} {v : String} {n : Nat} :
    llN (setLL t v n) v = n := by
  unfold llN setLL
  simp [Jmap.get?_set_self]

theorem llN_setLL_ne {t : TarjanState} {v u : String} {n : Nat} (h : u ≠ v) :
    llN (setLL t v n) u = llN t u := by
  unfold llN setLL
  simp [Jmap.get?_set_ne _ _ _ _ h]

theorem Inv_setLL {g : DependencyGraph} {t : TarjanState} {grays : List String}
    {v : String} {n : Nat}
    (hinv : Inv g t (v :: grays))
    (hvs : v ∈ t.stack)
    (hreal : ∃ y ∈ t.stack, idxN t y = n ∧ Reach g v y)
    (hle : n ≤ llN t v) :
    Inv g (setLL t v n) (v :: grays) := by
  have hvv : vis t v := hinv.stack_vis v hvs
  have hgv : ∀ u ∈ v :: grays, vis t u := fun u hu =>
    hinv.stack_vis u (hinv.grays_stack u hu)
  refine ⟨hinv.stack_nodup, hinv.onstack_iff, hinv.stack_vis, hinv.vis_keys,
    hinv.idx_lt, hinv.idx_inj, ?_, ?_, hinv.part_iff, hinv.stack_em_disj,
    hinv.em_nodup, hinv.sccs_ne, hinv.stack_sorted, hinv.grays_stack, ?_, ?_,
    hinv.em_closed, ?_, hinv.sccs_correct⟩
  · intro u
    show (t.lowLinks.set v n).contains u = t.indices.contains u
    have hllv : t.lowLinks.contains v = true := by rw [hinv.ll_dom v]; exact hvv
    rw [Jmap.contains_set_stable hllv u, hinv.ll_dom u]
  · intro u hu
    by_cases huv : u = v
    · rw [huv]
      show llN (setLL t v n) v ≤ idxN (setLL t v n) v
      rw [llN_setLL_self]
      exact le_trans hle (hinv.ll_le_idx v hvv)
    · show llN (setLL t v n) u ≤ idxN (setLL t v n) u
      rw [llN_setLL_ne huv]
      exact hinv.ll_le_idx u hu
  · intro u hu hng
    have huv : u ≠ v := fun h => hng (h ▸ List.mem_cons_self v grays)
    show llN (setLL t v n) u < idxN (setLL t v n) u
    rw [llN_setLL_ne huv]
    exact hinv.nrs u hu hng
  · intro a ha hng b hb
    have hav : a ≠ v := fun h => hng (h ▸ List.mem_cons_self v grays)
    obtain ⟨hvb, hbd⟩ := hinv.f4 a ha hng b hb
    refine ⟨hvb, ?_⟩
    show b ∈ emitted (setLL t v n) ∨ llN (setLL t v n) a ≤ idxN (setLL t v n) b ∨
      (b ∉ v :: grays ∧ llN (setLL t v n) a ≤ llN (setLL t v n) b)
    rw [llN_setLL_ne hav]
    rcases hbd with h1 | h2 | ⟨h3a, h3b⟩
    · exact Or.inl h1
    · exact Or.inr (Or.inl h2)
    · have hbv : b ≠ v := fun h => h3a (h ▸ List.mem_cons_self v grays)
      rw [llN_setLL_ne hbv]
      exact Or.inr (Or.inr ⟨h3a, h3b⟩)
  · intro a ha
    by_cases hav : a = v
    · subst hav
      obtain ⟨y, hy, hyi, hyr⟩ := hreal
      refine ⟨y, hy, ?_, hyr⟩
      show idxN (setLL t a n) y = llN (setLL t a n) a
      rw [llN_setLL_self]
      exact hyi
    · obtain ⟨y, hy, hyi, hyr⟩ := hinv.llr a ha
      refine ⟨y, hy, ?_, hyr⟩
      show idxN (setLL t v n) y = llN (setLL t v n) a
      rw [llN_setLL_ne hav]
      exact hyi

theorem scStep_pres (g : DependencyGraph)
    (Hran : ∀ a, ∀ b ∈ succs g a, b ∈ g.nodes.keys) (fuel : Nat)
    (IH : ∀ u s grays, Inv g s grays → ¬vis s u → u ∈ g.nodes.keys →
          tmeasure g s < fuel → SCPost g s grays u (strongConnect g fuel u s))
    {v w : String} {grays : List String} {s1 t : TarjanState} {done : List String}
    (hw : w ∈ succs g v)
    (hmeas : tmeasure g t < fuel)
    (hLI : LoopInv g grays v s1 t done) :
    LoopInv g grays v s1 (scStep g fuel v t w) (done ++ [w]) := by
  have hgrays_vis : ∀ u ∈ v :: grays, vis t u := fun u hu =>
    hLI.inv.stack_vis u (hLI.inv.grays_stack u hu)
  have hvisv : vis t v := hLI.inv.stack_vis v hLI.vStack
  unfold scStep
  by_cases hc : t.indices.contains w = true
  · rw [if_neg (by simp [hc])]
    by_cases hos : t.onStack.contains w = true
    · -- on-stack neighbor: lowlink of v folds in the index of w
      rw [if_pos hos]
      have hws : w ∈ t.stack := (hLI.inv.onstack_iff w).mp hos
      show LoopInv g grays v s1 (setLL t v (min (llN t v) (idxN t w))) (done ++ [w])
      have hreal : ∃ y ∈ t.stack, idxN t y = min (llN t v) (idxN t w) ∧ Reach g v y := by
        rcases le_total (llN t v) (idxN t w) with hcase | hcase
        · obtain ⟨y, hy, hyi, hyr⟩ := hLI.inv.llr v hLI.vStack
          exact ⟨y, hy, by rw [min_eq_left hcase]; exact hyi, hyr⟩
        · exact ⟨w, hws, by rw [min_eq_right hcase], reach_single hw⟩
      refine ⟨Inv_setLL hLI.inv hLI.vStack hreal (min_le_left _ _), ?_, ?_, ?_, ?_,
        hLI.indexMono, hLI.sccsExt, hLI.stackExt, ?_, hLI.newIdxGe, ?_, ?_,
        hLI.vStack, hLI.idxVeq, hLI.visV1⟩
      · exact hLI.visMono
      · exact hLI.idxPres
      · intro u hu huv
        show (t.lowLinks.set v _).get? u = s1.lowLinks.get? u
        rw [Jmap.get?_set_ne _ _ _ _ huv]
        exact hLI.llPres u hu huv
      · show llN (setLL t v (min (llN t v) (idxN t w))) v ≤ llN s1 v
        rw [llN_setLL_self]
        exact le_trans (min_le_left _ _) hLI.llVle
      · exact hLI.newReach
      · intro u hu hnu
        have huv : u ≠ v := fun h => hnu (h ▸ hLI.visV1)
        show llN (setLL t v _) v ≤ llN (setLL t v _) u
        rw [llN_setLL_self, llN_setLL_ne huv]
        exact le_trans (min_le_left _ _) (hLI.newLL u hu hnu)
      · intro u hu
        rcases List.mem_append.mp hu with h | h
        · obtain ⟨hvu, hud⟩ := hLI.done_facts u h
          refine ⟨hvu, ?_⟩
          show u ∈ emitted (setLL t v _) ∨ llN (setLL t v _) v ≤ idxN (setLL t v _) u ∨
            (u ∉ v :: grays ∧ llN (setLL t v _) v ≤ llN (setLL t v _) u)
          rw [llN_setLL_self]
          rcases hud with h1 | h2 | ⟨h3a, h3b⟩
          · exact Or.inl h1
          · exact Or.inr (Or.inl (le_trans (min_le_left _ _) h2))
          · have huv : u ≠ v := fun hh => h3a (hh ▸ List.mem_cons_self v grays)
            rw [llN_setLL_ne huv]
            exact Or.inr (Or.inr ⟨h3a, le_trans (min_le_left _ _) h3b⟩)
        · have huw : u = w := by simpa using h
          subst huw
          refine ⟨hc, ?_⟩
          show u ∈ emitted (setLL t v _) ∨ llN (setLL t v _) v ≤ idxN (setLL t v _) u ∨ _
          rw [llN_setLL_self]
          exact Or.inr (Or.inl (min_le_right _ _))
    · -- visited, off-stack neighbor: already emitted, state unchanged
      rw [if_neg hos]
      have hwem : w ∈ emitted t := by
        rcases (hLI.inv.part_iff w).mp hc with hstk | hem
        · exact absurd ((hLI.inv.onstack_iff w).mpr hstk) hos
        · exact hem
      refine ⟨hLI.inv, hLI.visMono, hLI.idxPres, hLI.llPres, hLI.llVle, hLI.indexMono,
        hLI.sccsExt, hLI.stackExt, hLI.newReach, hLI.newIdxGe, hLI.newLL, ?_,
        hLI.vStack, hLI.idxVeq, hLI.visV1⟩
      intro u hu
      rcases List.mem_append.mp hu with h | h
      · exact hLI.done_facts u h
      · have huw : u = w := by simpa using h
        subst huw
        exact ⟨hc, Or.inl hwem⟩
  · -- unvisited neighbor: recursive call, then fold the child lowlink in
    have hc2 : ¬vis t w := hc
    rw [if_pos (by simpa using hc)]
    have post := IH w t (v :: grays) hLI.inv hc2 (Hran v w hw) hmeas
    show LoopInv g grays v s1
      (setLL (strongConnect g fuel w t) v
        (min (llN (strongConnect g fuel w t) v) (llN (strongConnect g fuel w t) w)))
      (done ++ [w])
    obtain ⟨news2, hst2, hfresh2⟩ := post.stackExt
    obtain ⟨news1, hst1, hfresh1⟩ := hLI.stackExt
    obtain ⟨tl2, hsc2⟩ := post.sccsExt
    obtain ⟨tl1, hsc1⟩ := hLI.sccsExt
    have hvt2 : v ∈ (strongConnect g fuel w t).stack := by
      rw [hst2]
      exact List.mem_append.mpr (Or.inr hLI.vStack)
    have hllv2 : llN (strongConnect g fuel w t) v = llN t v := by
      unfold llN
      rw [post.llPres v hvisv]
    have hidxv2 : idxN (strongConnect g fuel w t) v = idxN t v := by
      unfold idxN
      rw [post.idxPres v hvisv]
    have hwgray : w ∉ v :: grays := fun hh => hc2 (hgrays_vis w hh)
    have hreal : ∃ y ∈ (strongConnect g fuel w t).stack,
        idxN (strongConnect g fuel w t) y =
          min (llN (strongConnect g fuel w t) v) (llN (strongConnect g fuel w t) w) ∧
        Reach g v y := by
      rcases le_or_lt (llN (strongConnect g fuel w t) v)
        (llN (strongConnect g fuel w t) w) with hcase | hcase
      · obtain ⟨y, hy, hyi, hyr⟩ := post.inv.llr v hvt2
        exact ⟨y, hy, by rw [min_eq_left hcase]; exact hyi, hyr⟩
      · rcases post.vFate with hwstk | ⟨hll, hwem⟩
        · obtain ⟨y, hy, hyi, hyr⟩ := post.inv.llr w hwstk
          exact ⟨y, hy, by rw [min_eq_right (le_of_lt hcase)]; exact hyi,
            Relation.ReflTransGen.trans (reach_single hw) hyr⟩
        · exfalso
          have h1 : t.index ≤ idxN (strongConnect g fuel w t) w :=
            post.newIdxGe w post.visV hc2
          have h2 : llN t v < t.index :=
            lt_of_le_of_lt (hLI.inv.ll_le_idx v hvisv) (hLI.inv.idx_lt v hvisv)
          rw [hll] at hcase
          rw [hllv2] at hcase
          omega
    refine ⟨Inv_setLL post.inv hvt2 hreal (min_le_left _ _),
      ?_, ?_, ?_, ?_, ?_, ?_, ?_, ?_, ?_, ?_, ?_, hvt2, ?_, hLI.visV1⟩
    · intro u hu
      exact post.visMono u (hLI.visMono u hu)
    · intro u hu
      show (strongConnect g fuel w t).indices.get? u = s1.indices.get? u
      rw [post.idxPres u (hLI.visMono u hu)]
      exact hLI.idxPres u hu
    · intro u hu huv
      show ((strongConnect g fuel w t).lowLinks.set v _).get? u = s1.lowLinks.get? u
      rw [Jmap.get?_set_ne _ _ _ _ huv, post.llPres u (hLI.visMono u hu)]
      exact hLI.llPres u hu huv
    · show llN (setLL _ v _) v ≤ llN s1 v
      rw [llN_setLL_self]
      exact le_trans (min_le_left _ _) (le_trans (le_of_eq hllv2) hLI.llVle)
    · exact le_trans hLI.indexMono (le_of_lt post.indexGt)
    · refine ⟨tl1 ++ tl2, ?_⟩
      show (strongConnect g fuel w t).sccs = s1.sccs ++ (tl1 ++ tl2)
      rw [hsc2, hsc1, List.append_assoc]
    · refine ⟨news2 ++ news1, ?_, ?_⟩
      · show (strongConnect g fuel w t).stack = (news2 ++ news1) ++ s1.stack
        rw [hst2, hst1, List.append_assoc]
      · intro u hu
        rcases List.mem_append.mp hu with h | h
        · intro hv1
          exact hfresh2 u h (hLI.visMono u hv1)
        · exact hfresh1 u h
    · intro u hu hnu
      by_cases hut : vis t u
      · exact hLI.newReach u hut hnu
      · exact Relation.ReflTransGen.trans (reach_single hw) (post.newReach u hu hut)
    · intro u hu hnu
      by_cases hut : vis t u
      · have : idxN (strongConnect g fuel w t) u = idxN t u := by
          unfold idxN; rw [post.idxPres u hut]
        show s1.index ≤ idxN (strongConnect g fuel w t) u
        rw [this]
        exact hLI.newIdxGe u hut hnu
      · exact le_trans hLI.indexMono (post.newIdxGe u hu hut)
    · intro u hu hnu
      have huv : u ≠ v := fun h => hnu (h ▸ hLI.visV1)
      show llN (setLL _ v _) v ≤ llN (setLL _ v _) u
      rw [llN_setLL_self, llN_setLL_ne huv]
      by_cases hut : vis t u
      · have hstab : llN (strongConnect g fuel w t) u = llN t u := by
          unfold llN; rw [post.llPres u hut]
        rw [hstab]
        exact le_trans (min_le_left _ _)
          (le_trans (le_of_eq hllv2) (hLI.newLL u hut hnu))
      · exact le_trans (min_le_right _ _) (post.newLL u hu hut)
    · intro u hu
      rcases List.mem_append.mp hu with h | h
      · obtain ⟨hvu, hud⟩ := hLI.done_facts u h
        have hvu2 : vis (strongConnect g fuel w t) u := post.visMono u hvu
        refine ⟨hvu2, ?_⟩
        show u ∈ emitted (setLL _ v _) ∨ llN (setLL _ v _) v ≤ idxN (setLL _ v _) u ∨
          (u ∉ v :: grays ∧ llN (setLL _ v _) v ≤ llN (setLL _ v _) u)
        rw [llN_setLL_self]
        have hidxu : idxN (strongConnect g fuel w t) u = idxN t u := by
          unfold idxN; rw [post.idxPres u hvu]
        rcases hud with h1 | h2 | ⟨h3a, h3b⟩
        · exact Or.inl (emitted_ext_mem hsc2 u h1)
        · exact Or.inr (Or.inl ((min_le_left _ _).trans
            ((le_of_eq hllv2).trans (h2.trans (le_of_eq hidxu.symm)))))
        · have huv : u ≠ v := fun hh => h3a (hh ▸ List.mem_cons_self v grays)
          have hllu : llN (strongConnect g fuel w t) u = llN t u := by
            unfold llN; rw [post.llPres u hvu]
          rw [llN_setLL_ne huv, hllu]
          exact Or.inr (Or.inr ⟨h3a,
            le_trans (min_le_left _ _) (le_trans (le_of_eq hllv2) h3b)⟩)
      · have huw : u = w := by simpa using h
        subst huw
        refine ⟨post.visV, ?_⟩
        show u ∈ emitted (setLL _ v _) ∨ llN (setLL _ v _) v ≤ idxN (setLL _ v _) u ∨
          (u ∉ v :: grays ∧ llN (setLL _ v _) v ≤ llN (setLL _ v _) u)
        rw [llN_setLL_self]
        rcases post.vFate with hwstk | ⟨hll, hwem⟩
        · have huv : u ≠ v := fun hh => hc2 (hh ▸ hvisv)
          rw [llN_setLL_ne huv]
          exact Or.inr (Or.inr ⟨hwgray, min_le_right _ _⟩)
        · exact Or.inl (hwem)
    · exact hidxv2.trans hLI.idxVeq

theorem loop_spec (g : DependencyGraph)
    (Hran : ∀ a, ∀ b ∈ succs g a, b ∈ g.nodes.keys) (fuel : Nat)
    (IH : ∀ u s grays, Inv g s grays → ¬vis s u → u ∈ g.nodes.keys →
          tmeasure g s < fuel → SCPost g s grays u (strongConnect g fuel u s)) :
    ∀ (ws : List String), ∀ (done : List String) (v : String) (grays : List String)
      (s1 t : TarjanState),
      succs g v = done ++ ws →
      tmeasure g s1 < fuel →
      LoopInv g grays v s1 t done →
      LoopInv g grays v s1 (ws.foldl (scStep g fuel v) t) (done ++ ws) := by
  intro ws
  induction ws with
  | nil =>
    intro done v grays s1 t hsucc hmeas hLI
    simpa using hLI
  | cons w ws ih =>
    intro done v grays s1 t hsucc hmeas hLI
    simp only [List.foldl_cons]
    have hw : w ∈ succs g v := by
      rw [hsucc]
      exact List.mem_append.mpr (Or.inr (List.mem_cons_self w ws))
    have hmeas_t : tmeasure g t < fuel :=
      lt_of_le_of_lt (tmeasure_mono hLI.visMono) hmeas
    have step := scStep_pres g Hran fuel IH hw hmeas_t hLI
    have hsucc2 : succs g v = (done ++ [w]) ++ ws := by
      rw [hsucc, List.append_assoc]
      rfl
    have next := ih (done ++ [w]) v grays s1 (scStep g fuel v t w) hsucc2 hmeas step
    have heq : (done ++ [w]) ++ ws = done ++ w :: ws := by
      rw [List.append_assoc]
      rfl
    rw [heq] at next
    exact next

/-! ## Tarjan correctness: facts available when the root test succeeds -/

theorem split_unique :
    ∀ (x1 : List String) (x2 y1 y2 : List String) (v : String),
      x1 ++ v :: y1 = x2 ++ v :: y2 → v ∉ x1 → v ∉ x2 → x1 = x2 ∧ y1 = y2 := by
  intro x1
  induction x1 with
  | nil =>
    intro x2 y1 y2 v heq _ hnx2
    cases x2 with
    | nil => simpa using heq
    | cons h t =>
      exfalso
      simp only [List.nil_append, List.cons_append, List.cons.injEq] at heq
      exact hnx2 (heq.1 ▸ List.mem_cons_self h t)
  | cons h1 t1 ih =>
    intro x2 y1 y2 v heq hnx1 hnx2
    cases x2 with
    | nil =>
      exfalso
      simp only [List.cons_append, List.nil_append, List.cons.injEq] at heq
      exact hnx1 (heq.1 ▸ List.mem_cons_self h1 t1)
    | cons h2 t2 =>
      simp only [List.cons_append, List.cons.injEq] at heq
      obtain ⟨hh, ht⟩ := heq
      have hnt1 : v ∉ t1 := fun hm => hnx1 (List.mem_cons_of_mem h1 hm)
      have hnt2 : v ∉ t2 := fun hm => hnx2 (List.mem_cons_of_mem h2 hm)
      obtain ⟨e1, e2⟩ := ih t2 y1 y2 v ht hnt1 hnt2
      exact ⟨by rw [hh, e1], e2⟩

section TarjanRoot

variable {g : DependencyGraph} {s : TarjanState} {grays : List String} {v : String}
  {s2 : TarjanState}

theorem tarjan_succ_fact
    (hinv : Inv g s grays) (hnv : ¬vis s v)
    (hL : LoopInv g grays v (pushV s v) s2 (succs g v)) :
    ∀ a, vis s2 a → (a = v ∨ a ∉ v :: grays) → ∀ c ∈ succs g a,
      vis s2 c ∧ (c ∈ emitted s2 ∨ llN s2 a ≤ idxN s2 c ∨
        (c ∉ v :: grays ∧ llN s2 a ≤ llN s2 c)) := by
  intro a hva hcond c hc
  rcases hcond with h | h
  · subst h
    exact hL.done_facts c hc
  · exact hL.inv.f4 a hva h c hc

theorem tarjan_grays_vis1
    (hinv : Inv g s grays) :
    ∀ u ∈ v :: grays, vis (pushV s v) u := by
  intro u hu
  rcases List.mem_cons.mp hu with h | h
  · rw [h]; exact vis_pushV.mpr (Or.inl rfl)
  · exact vis_pushV.mpr (Or.inr (hinv.stack_vis u (hinv.grays_stack u h)))

theorem tarjan_old_idx
    (hinv : Inv g s grays) (hnv : ¬vis s v)
    (hL : LoopInv g grays v (pushV s v) s2 (succs g v)) :
    ∀ u, vis s u → idxN s2 u = idxN s u := by
  intro u hu
  have huv : u ≠ v := fun h => hnv (h ▸ hu)
  have h1 : s2.indices.get? u = (pushV s v).indices.get? u :=
    hL.idxPres u (vis_pushV.mpr (Or.inr hu))
  unfold idxN
  rw [h1]
  show ((s.indices.set v s.index).get? u).getD 0 = (s.indices.get? u).getD 0
  rw [Jmap.get?_set_ne _ _ _ _ huv]

theorem tarjan_idxv
    (hL : LoopInv g grays v (pushV s v) s2 (succs g v)) :
    idxN s2 v = s.index := by
  rw [hL.idxVeq, idxN_pushV_self]

theorem tarjan_new_of_ge
    (hinv : Inv g s grays) (hnv : ¬vis s v)
    (hL : LoopInv g grays v (pushV s v) s2 (succs g v)) :
    ∀ u, vis s2 u → s.index ≤ idxN s2 u → u ≠ v → ¬vis (pushV s v) u := by
  intro u hvu hge huv hv1
  rcases vis_pushV.mp hv1 with h | h
  · exact huv h
  · have := tarjan_old_idx hinv hnv hL u h
    have h2 := hinv.idx_lt u h
    omega

theorem tarjan_llv_le
    (hinv : Inv g s grays) (hnv : ¬vis s v)
    (hL : LoopInv g grays v (pushV s v) s2 (succs g v)) :
    ∀ a, vis s2 a → (a = v ∨ ¬vis (pushV s v) a) → llN s2 v ≤ llN s2 a := by
  intro a hva hcond
  rcases hcond with h | h
  · rw [h]
  · exact hL.newLL a hva h

/-- No vertex reachable from the root (or from a vertex discovered during
its call and still on the stack) lies on the stack strictly below the
root when the root test succeeds. -/
theorem tarjan_star
    (hinv : Inv g s grays) (hnv : ¬vis s v)
    (hL : LoopInv g grays v (pushV s v) s2 (succs g v))
    (hroot : llN s2 v = idxN s2 v) :
    ∀ z a, Reach g a z →
      (a = v ∨ (a ∈ s2.stack ∧ s.index ≤ idxN s2 a ∧ ¬vis (pushV s v) a)) →
      z ∈ s2.stack → s.index ≤ idxN s2 z := by
  have hidxv := tarjan_idxv hL
  intro z a hreach
  induction hreach using Relation.ReflTransGen.head_induction_on with
  | refl =>
    intro ha hz
    rcases ha with h | h
    · rw [h, hidxv]
    · exact h.2.1
  | head hstep hrest ih =>
    rename_i a0 c0
    intro ha hz
    have hva0 : vis s2 a0 := by
      rcases ha with h | h
      · rw [h]; exact hL.visMono v hL.visV1
      · exact hL.inv.stack_vis a0 h.1
    have hcond : a0 = v ∨ a0 ∉ v :: grays := by
      rcases ha with h | h
      · exact Or.inl h
      · exact Or.inr (fun hm => h.2.2 (tarjan_grays_vis1 hinv a0 hm))
    obtain ⟨hvc, hcd⟩ := tarjan_succ_fact hinv hnv hL a0 hva0 hcond c0 hstep
    have hllva : llN s2 v ≤ llN s2 a0 := by
      apply tarjan_llv_le hinv hnv hL a0 hva0
      rcases ha with h | h
      · exact Or.inl h
      · exact Or.inr h.2.2
    rcases hcd with hem | hbd
    · exfalso
      have hzem : z ∈ emitted s2 :=
        reach_emitted_closed hL.inv.em_closed c0 z hrest hem
      exact hL.inv.stack_em_disj z hz hzem
    · have hcs : c0 ∈ s2.stack := by
        rcases (hL.inv.part_iff c0).mp hvc with h | h
        · exact h
        · exfalso
          have hzem : z ∈ emitted s2 :=
            reach_emitted_closed hL.inv.em_closed c0 z hrest h
          exact hL.inv.stack_em_disj z hz hzem
      by_cases hcge : s.index ≤ idxN s2 c0
      · apply ih ?_ hz
        by_cases hcv : c0 = v
        · exact Or.inl hcv
        · exact Or.inr ⟨hcs, hcge, tarjan_new_of_ge hinv hnv hL c0 hvc hcge hcv⟩
      · exfalso
        push_neg at hcge
        have hllc : llN s2 c0 ≤ idxN s2 c0 := hL.inv.ll_le_idx c0 hvc
        have hba : llN s2 a0 ≤ idxN s2 c0 := by
          rcases hbd with h | ⟨_, h⟩
          · exact h
          · exact le_trans h hllc
        rw [hroot, hidxv] at hllva
        omega

/-- Every vertex still on the stack at index at least the root index
reaches the root. -/
theorem tarjan_chain
    (hinv : Inv g s grays) (hnv : ¬vis s v)
    (hL : LoopInv g grays v (pushV s v) s2 (succs g v))
    (hroot : llN s2 v = idxN s2 v) :
    ∀ k u, u ∈ s2.stack → idxN s2 u = k → s.index ≤ k → Reach g u v := by
  have hidxv := tarjan_idxv hL
  have hvisv2 : vis s2 v := hL.visMono v hL.visV1
  intro k
  induction k using Nat.strong_induction_on with
  | _ k ih =>
    intro u hu hku hge
    have hvu : vis s2 u := hL.inv.stack_vis u hu
    by_cases hkv : k = s.index
    · have huv : u = v := by
        apply hL.inv.idx_inj u v hvu hvisv2
        rw [hku, hidxv, hkv]
      rw [huv]
      exact Relation.ReflTransGen.refl
    · have hgt : s.index < k := lt_of_le_of_ne hge (fun h => hkv h.symm)
      have huv : u ≠ v := fun h => hkv (by rw [← hku, h, hidxv])
      have hnew : ¬vis (pushV s v) u :=
        tarjan_new_of_ge hinv hnv hL u hvu (hku ▸ hge) huv
      have hng : u ∉ v :: grays := fun hm => hnew (tarjan_grays_vis1 hinv u hm)
      have hnrs : llN s2 u < idxN s2 u := hL.inv.nrs u hu hng
      obtain ⟨y, hy, hyi, hyr⟩ := hL.inv.llr u hu
      have hvreach : Reach g v u := hL.newReach u hvu hnew
      have hvy : Reach g v y := Relation.ReflTransGen.trans hvreach hyr
      have hyge : s.index ≤ idxN s2 y :=
        tarjan_star hinv hnv hL hroot y v hvy (Or.inl rfl) hy
      have hylt : idxN s2 y < k := by
        rw [hyi, ← hku]
        exact hnrs
      have hthis := ih (idxN s2 y) hylt y hy rfl hyge
      exact Relation.ReflTransGen.trans hyr hthis

/-- Everything reachable from the root is visited when the root test
succeeds. -/
theorem tarjan_reach_vis
    (hinv : Inv g s grays) (hnv : ¬vis s v)
    (hL : LoopInv g grays v (pushV s v) s2 (succs g v))
    (hroot : llN s2 v = idxN s2 v) :
    ∀ b a, Reach g a b → vis s2 a → (a = v ∨ a ∉ v :: grays) → Reach g v a →
      vis s2 b := by
  have hidxv := tarjan_idxv hL
  intro b a hreach
  induction hreach using Relation.ReflTransGen.head_induction_on with
  | refl =>
    intro hva _ _
    exact hva
  | head hstep hrest ih =>
    rename_i a0 c0
    intro hva hcond hvr
    obtain ⟨hvc, _⟩ := tarjan_succ_fact hinv hnv hL a0 hva hcond c0 hstep
    have hvrc : Reach g v c0 := Relation.ReflTransGen.trans hvr (reach_single hstep)
    apply ih hvc ?_ hvrc
    by_cases hcv : c0 = v
    · exact Or.inl hcv
    · refine Or.inr (fun hm => ?_)
      have hcg : c0 ∈ grays := by
        rcases List.mem_cons.mp hm with h | h
        · exact absurd h hcv
        · exact h
      have hcs : c0 ∈ s2.stack :=
        hL.inv.grays_stack c0 (List.mem_cons_of_mem v hcg)
      have hold : vis s c0 := hinv.stack_vis c0 (hinv.grays_stack c0 hcg)
      have h1 : idxN s2 c0 = idxN s c0 := tarjan_old_idx hinv hnv hL c0 hold
      have h2 : idxN s c0 < s.index := hinv.idx_lt c0 hold
      have h3 : s.index ≤ idxN s2 c0 :=
        tarjan_star hinv hnv hL hroot c0 v hvrc (Or.inl rfl) hcs
      omega

end TarjanRoot

theorem tarjan_pop_post {g : DependencyGraph} {s : TarjanState} {grays : List String}
    {v : String} {s2 : TarjanState}
    (hinv : Inv g s grays) (hnv : ¬vis s v) (hk : v ∈ g.nodes.keys)
    (hL : LoopInv g grays v (pushV s v) s2 (succs g v))
    (hroot : llN s2 v = idxN s2 v)
    {ab bl : List String}
    (hsplit : s2.stack = ab ++ v :: bl) (hnab : v ∉ ab) :
    SCPost g s grays v
      { s2 with stack := bl, onStack := s2.onStack.removeAll (ab ++ [v]),
                sccs := s2.sccs ++ [ab ++ [v]] } := by
  have hidxv : idxN s2 v = s.index := tarjan_idxv hL
  have hvisv2 : vis s2 v := hL.visMono v hL.visV1
  have hndsplit : (ab ++ v :: bl).Nodup := hsplit ▸ hL.inv.stack_nodup
  obtain ⟨hab_nodup, hvbl_nodup, hdisj⟩ := List.nodup_append.mp hndsplit
  have hbl_nodup : bl.Nodup := (List.nodup_cons.mp hvbl_nodup).2
  have hvnbl : v ∉ bl := (List.nodup_cons.mp hvbl_nodup).1
  have hsorted : (ab ++ v :: bl).Pairwise (fun a b => idxN s2 b < idxN s2 a) :=
    hsplit ▸ hL.inv.stack_sorted
  obtain ⟨hab_pw, hvbl_pw, hcross⟩ := List.pairwise_append.mp hsorted
  have hab_gt : ∀ u ∈ ab, s.index < idxN s2 u := by
    intro u hu
    have := hcross u hu v (List.mem_cons_self v bl)
    omega
  have hbl_lt : ∀ u ∈ bl, idxN s2 u < s.index := by
    intro u hu
    have := (List.pairwise_cons.mp hvbl_pw).1 u hu
    omega
  have hPchar1 : ∀ u ∈ ab ++ [v], u ∈ s2.stack ∧ s.index ≤ idxN s2 u := by
    intro u hu
    rcases List.mem_append.mp hu with h | h
    · exact ⟨by rw [hsplit]; exact List.mem_append.mpr (Or.inl h),
        le_of_lt (hab_gt u h)⟩
    · have huv : u = v := by simpa using h
      subst huv
      exact ⟨hL.vStack, le_of_eq hidxv.symm⟩
  have hPchar2 : ∀ u ∈ s2.stack, s.index ≤ idxN s2 u → u ∈ ab ++ [v] := by
    intro u hu hge
    rw [hsplit] at hu
    rcases List.mem_append.mp hu with h | h
    · exact List.mem_append.mpr (Or.inl h)
    · rcases List.mem_cons.mp h with h | h
      · exact List.mem_append.mpr (Or.inr (by simp [h]))
      · have := hbl_lt u h
        omega
  have hPnewF : ∀ u ∈ ab ++ [v], u = v ∨ ¬vis (pushV s v) u := by
    intro u hu
    by_cases huv : u = v
    · exact Or.inl huv
    · exact Or.inr (tarjan_new_of_ge hinv hnv hL u
        (hL.inv.stack_vis u (hPchar1 u hu).1) (hPchar1 u hu).2 huv)
  have hPreachv : ∀ u ∈ ab ++ [v], Reach g u v := by
    intro u hu
    exact tarjan_chain hinv hnv hL hroot (idxN s2 u) u (hPchar1 u hu).1 rfl
      (hPchar1 u hu).2
  have hvreachP : ∀ u ∈ ab ++ [v], Reach g v u := by
    intro u hu
    rcases hPnewF u hu with h | h
    · rw [h]; exact Relation.ReflTransGen.refl
    · exact hL.newReach u (hL.inv.stack_vis u (hPchar1 u hu).1) h
  have hPnodup : (ab ++ [v]).Nodup := by
    rw [List.nodup_append]
    refine ⟨hab_nodup, by simp, ?_⟩
    intro a ha hm
    have : a = v := by simpa using hm
    exact hnab (this ▸ ha)
  have hPem_disj : ∀ u ∈ ab ++ [v], u ∉ emitted s2 := fun u hu =>
    hL.inv.stack_em_disj u (hPchar1 u hu).1
  obtain ⟨news, hst, hfr⟩ := hL.stackExt
  have hvnews : v ∉ news := fun hm => hfr v hm (vis_pushV.mpr (Or.inl rfl))
  have heq2 : ab ++ v :: bl = news ++ v :: s.stack := by
    rw [← hsplit, hst]
    rfl
  obtain ⟨habn, hbls⟩ := split_unique ab news bl s.stack v heq2 hnab hvnews
  have hem3 : emitted { s2 with
      stack := bl
      onStack := s2.onStack.removeAll (ab ++ [v])
      sccs := s2.sccs ++ [ab ++ [v]] } = emitted s2 ++ (ab ++ [v]) := by
    show (s2.sccs ++ [ab ++ [v]]).flatten = emitted s2 ++ (ab ++ [v])
    rw [List.flatten_append]
    simp [emitted]
  have hcondP : ∀ a ∈ ab ++ [v], a = v ∨ a ∉ v :: grays := by
    intro a ha
    rcases hPnewF a ha with h | h
    · exact Or.inl h
    · exact Or.inr (fun hm => h (tarjan_grays_vis1 hinv a hm))
  have hidxPres : ∀ w, vis s w → s2.indices.get? w = s.indices.get? w := by
    intro w hw
    have huv : w ≠ v := fun h => hnv (h ▸ hw)
    rw [hL.idxPres w (vis_pushV.mpr (Or.inr hw))]
    show (s.indices.set v s.index).get? w = s.indices.get? w
    exact Jmap.get?_set_ne _ _ _ _ huv
  have hllPres : ∀ w, vis s w → s2.lowLinks.get? w = s.lowLinks.get? w := by
    intro w hw
    have huv : w ≠ v := fun h => hnv (h ▸ hw)
    rw [hL.llPres w (vis_pushV.mpr (Or.inr hw)) huv]
    show (s.lowLinks.set v s.index).get? w = s.lowLinks.get? w
    exact Jmap.get?_set_ne _ _ _ _ huv
  refine ⟨?_, ?_, hvisv2, hidxPres, hllPres, hidxv, ?_, ?_, ?_, ?_, ?_, ?_, ?_⟩
  · -- the invariant after the pop, with v no longer gray
    refine ⟨hbl_nodup, ?_, ?_, hL.inv.vis_keys, hL.inv.idx_lt, hL.inv.idx_inj,
      hL.inv.ll_dom, hL.inv.ll_le_idx, ?_, ?_, ?_, ?_, ?_, ?_, ?_, ?_, ?_, ?_, ?_⟩
    · intro u
      show (s2.onStack.removeAll (ab ++ [v])).contains u = true ↔ u ∈ bl
      rw [Jset.contains_removeAll_iff, hL.inv.onstack_iff u]
      constructor
      · rintro ⟨hstk, hnp⟩
        rw [hsplit] at hstk
        rcases List.mem_append.mp hstk with h | h
        · exact absurd (List.mem_append.mpr (Or.inl h)) hnp
        · rcases List.mem_cons.mp h with h | h
          · exact absurd (List.mem_append.mpr (Or.inr (by simp [h]))) hnp
          · exact h
      · intro hbl2
        have hmm : u ∈ s2.stack := by
          rw [hsplit]
          exact List.mem_append.mpr (Or.inr (List.mem_cons_of_mem v hbl2))
        refine ⟨hmm, ?_⟩
        intro hp
        rcases List.mem_append.mp hp with h | h
        · exact hdisj h (List.mem_cons_of_mem v hbl2)
        · have : u = v := by simpa using h
          exact hvnbl (this ▸ hbl2)
    · intro u hu
      exact hL.inv.stack_vis u
        (by rw [hsplit]; exact List.mem_append.mpr (Or.inr (List.mem_cons_of_mem v hu)))
    · intro u
      show vis s2 u ↔ u ∈ bl ∨ u ∈ emitted _
      rw [hem3, hL.inv.part_iff u, hsplit]
      constructor
      · rintro (hstk | hem)
        · rcases List.mem_append.mp hstk with h | h
          · exact Or.inr (List.mem_append.mpr (Or.inr (List.mem_append.mpr (Or.inl h))))
          · rcases List.mem_cons.mp h with h | h
            · exact Or.inr (List.mem_append.mpr (Or.inr (by simp [h])))
            · exact Or.inl h
        · exact Or.inr (List.mem_append.mpr (Or.inl hem))
      · rintro (hbl2 | hem)
        · exact Or.inl (List.mem_append.mpr (Or.inr (List.mem_cons_of_mem v hbl2)))
        · rcases List.mem_append.mp hem with h | h
          · exact Or.inr h
          · rcases List.mem_append.mp h with h2 | h2
            · exact Or.inl (List.mem_append.mpr (Or.inl h2))
            · have : u = v := by simpa using h2
              exact Or.inl (List.mem_append.mpr (Or.inr (this ▸ List.mem_cons_self v bl)))
    · intro u hu
      show u ∉ emitted _
      rw [hem3]
      intro hm
      rcases List.mem_append.mp hm with h | h
      · exact hL.inv.stack_em_disj u
          (by rw [hsplit]; exact List.mem_append.mpr (Or.inr (List.mem_cons_of_mem v hu))) h
      · have h1 := (hPchar1 u h).2
        have h2 := hbl_lt u hu
        omega
    · show (emitted _).Nodup
      rw [hem3]
      rw [List.nodup_append]
      exact ⟨hL.inv.em_nodup, hPnodup, fun a hem hp => hPem_disj a hp hem⟩
    · intro S hS
      rcases List.mem_append.mp hS with h | h
      · exact hL.inv.sccs_ne S h
      · have : S = ab ++ [v] := by simpa using h
        rw [this]
        simp
    · show bl.Pairwise _
      exact (List.pairwise_cons.mp hvbl_pw).2
    · intro u hu
      have hu2 : u ∈ s2.stack := hL.inv.grays_stack u (List.mem_cons_of_mem v hu)
      have hold : vis s u := hinv.stack_vis u (hinv.grays_stack u hu)
      have hidxu : idxN s2 u = idxN s u := tarjan_old_idx hinv hnv hL u hold
      have hlt2 : idxN s u < s.index := hinv.idx_lt u hold
      rw [hsplit] at hu2
      rcases List.mem_append.mp hu2 with h | h
      · have := hab_gt u h
        omega
      · rcases List.mem_cons.mp h with h | h
        · exact absurd (h ▸ hold) hnv
        · exact h
    · intro u hu hng
      have huv : u ≠ v := fun h => hvnbl (h ▸ hu)
      refine hL.inv.nrs u
        (by rw [hsplit]; exact List.mem_append.mpr (Or.inr (List.mem_cons_of_mem v hu)))
        (fun hm => ?_)
      rcases List.mem_cons.mp hm with h | h
      · exact huv h
      · exact hng h
    · intro a ha hng b hb
      by_cases hav : a = v
      · subst hav
        obtain ⟨h1, h2⟩ := hL.done_facts b hb
        refine ⟨h1, ?_⟩
        rcases h2 with h | h | ⟨h3a, h3b⟩
        · exact Or.inl (by rw [hem3]; exact List.mem_append.mpr (Or.inl h))
        · exact Or.inr (Or.inl h)
        · exact Or.inr (Or.inr ⟨fun hm => h3a (List.mem_cons_of_mem a hm), h3b⟩)
      · obtain ⟨h1, h2⟩ := hL.inv.f4 a ha (fun hm => by
          rcases List.mem_cons.mp hm with h | h
          · exact hav h
          · exact hng h) b hb
        refine ⟨h1, ?_⟩
        rcases h2 with h | h | ⟨h3a, h3b⟩
        · exact Or.inl (by rw [hem3]; exact List.mem_append.mpr (Or.inl h))
        · exact Or.inr (Or.inl h)
        · exact Or.inr (Or.inr ⟨fun hm => h3a (List.mem_cons_of_mem v hm), h3b⟩)
    · intro a ha b hb
      rw [hem3] at ha ⊢
      rcases List.mem_append.mp ha with h | h
      · exact List.mem_append.mpr (Or.inl (hL.inv.em_closed a h b hb))
      · have hva : vis s2 a := hL.inv.stack_vis a (hPchar1 a h).1
        obtain ⟨hvb, hbd⟩ := tarjan_succ_fact hinv hnv hL a hva (hcondP a h) b hb
        rcases hbd with h1 | hbd2
        · exact List.mem_append.mpr (Or.inl h1)
        · have hllva : llN s2 v ≤ llN s2 a :=
            tarjan_llv_le hinv hnv hL a hva (hPnewF a h)
          have hbnd : llN s2 a ≤ idxN s2 b := by
            rcases hbd2 with h2 | ⟨_, h2⟩
            · exact h2
            · exact le_trans h2 (hL.inv.ll_le_idx b hvb)
          have hge : s.index ≤ idxN s2 b := by
            have hx := hroot
            rw [hidxv] at hx
            omega
          rcases (hL.inv.part_iff b).mp hvb with hstk | hem2
          · exact List.mem_append.mpr (Or.inr (hPchar2 b hstk hge))
          · exact List.mem_append.mpr (Or.inl hem2)
    · intro a ha
      have hastk : a ∈ s2.stack := by
        rw [hsplit]
        exact List.mem_append.mpr (Or.inr (List.mem_cons_of_mem v ha))
      obtain ⟨y, hy, hyi, hyr⟩ := hL.inv.llr a hastk
      have hlta : idxN s2 a < s.index := hbl_lt a ha
      have hlla : llN s2 a ≤ idxN s2 a :=
        hL.inv.ll_le_idx a (hL.inv.stack_vis a hastk)
      have hylt : idxN s2 y < s.index := by
        rw [hyi]
        omega
      have hybl : y ∈ bl := by
        rw [hsplit] at hy
        rcases List.mem_append.mp hy with h | h
        · have := hab_gt y h
          omega
        · rcases List.mem_cons.mp h with h | h
          · rw [h, hidxv] at hylt
            omega
          · exact h
      exact ⟨y, hybl, hyi, hyr⟩
    · intro S hS
      rcases List.mem_append.mp hS with h | h
      · exact hL.inv.sccs_correct S h
      · have hSP : S = ab ++ [v] := by simpa using h
        subst hSP
        constructor
        · intro a ha b hb
          exact ⟨Relation.ReflTransGen.trans (hPreachv a ha) (hvreachP b hb),
            Relation.ReflTransGen.trans (hPreachv b hb) (hvreachP a ha)⟩
        · intro a ha b hSame
          have hvb : Reach g v b :=
            Relation.ReflTransGen.trans (hvreachP a ha) hSame.1
          have hbv : Reach g b v :=
            Relation.ReflTransGen.trans hSame.2 (hPreachv a ha)
          by_cases hvisb : vis s2 b
          · rcases (hL.inv.part_iff b).mp hvisb with hstk | hem
            · exact hPchar2 b hstk
                (tarjan_star hinv hnv hL hroot b v hvb (Or.inl rfl) hstk)
            · exfalso
              have : v ∈ emitted s2 :=
                reach_emitted_closed hL.inv.em_closed b v hbv hem
              exact hL.inv.stack_em_disj v hL.vStack this
          · exact absurd
              (tarjan_reach_vis hinv hnv hL hroot b v hvb hvisv2 (Or.inl rfl)
                Relation.ReflTransGen.refl) hvisb
  · intro w hw
    exact hL.visMono w (vis_pushV.mpr (Or.inr hw))
  · show s.index < s2.index
    have h1 : (pushV s v).index ≤ s2.index := hL.indexMono
    have h2 : (pushV s v).index = s.index + 1 := rfl
    omega
  · obtain ⟨tl, htl⟩ := hL.sccsExt
    refine ⟨tl ++ [ab ++ [v]], ?_⟩
    show s2.sccs ++ [ab ++ [v]] = s.sccs ++ (tl ++ [ab ++ [v]])
    rw [htl]
    show s.sccs ++ tl ++ [ab ++ [v]] = s.sccs ++ (tl ++ [ab ++ [v]])
    rw [List.append_assoc]
  · refine ⟨[], ?_, ?_⟩
    · show bl = [] ++ s.stack
      rw [hbls]
      rfl
    · intro u hu
      cases hu
  · intro w hw hnw
    by_cases h1 : vis (pushV s v) w
    · rcases vis_pushV.mp h1 with h | h
      · rw [h]; exact Relation.ReflTransGen.refl
      · exact absurd h hnw
    · exact hL.newReach w hw h1
  · intro w hw hnw
    by_cases h1 : vis (pushV s v) w
    · rcases vis_pushV.mp h1 with h | h
      · rw [h]
        show s.index ≤ idxN s2 v
        rw [hidxv]
      · exact absurd h hnw
    · have h2 := hL.newIdxGe w hw h1
      have h3 : (pushV s v).index = s.index + 1 := rfl
      show s.index ≤ idxN s2 w
      omega
  · intro w hw hnw
    by_cases h1 : vis (pushV s v) w
    · rcases vis_pushV.mp h1 with h | h
      · rw [h]
      · exact absurd h hnw
    · exact hL.newLL w hw h1
  · refine Or.inr ⟨hroot, ?_⟩
    show v ∈ emitted _
    rw [hem3]
    exact List.mem_append.mpr (Or.inr (List.mem_append.mpr (Or.inr (by simp))))

theorem sc_spec (g : DependencyGraph)
    (Hran : ∀ a, ∀ b ∈ succs g a, b ∈ g.nodes.keys) :
    ∀ (fuel : Nat) (v : String) (s : TarjanState) (grays : List String),
      Inv g s grays → ¬vis s v → v ∈ g.nodes.keys →
      tmeasure g s < fuel →
      SCPost g s grays v (strongConnect g fuel v s) := by
  intro fuel
  induction fuel with
  | zero =>
    intro v s grays hinv hnv hk hmeas
    exact absurd hmeas (Nat.not_lt_zero _)
  | succ fuel ihf =>
    intro v s grays hinv hnv hk hmeas
    rw [strongConnect_eq]
    have hvg : v ∉ grays := fun h => hnv (hinv.stack_vis v (hinv.grays_stack v h))
    have hLI0 := push_loopinv hinv hnv hk
    have hm1 : tmeasure g (pushV s v) < fuel := by
      have hlt : tmeasure g (pushV s v) < tmeasure g s :=
        tmeasure_lt (fun w hw => vis_pushV.mpr (Or.inr hw))
          (vis_pushV.mpr (Or.inl rfl)) hnv hk
      omega
    have hL : LoopInv g grays v (pushV s v)
        ((succs g v).foldl (scStep g fuel v) (pushV s v)) (succs g v) :=
      loop_spec g Hran fuel ihf (succs g v) [] v grays (pushV s v) (pushV s v)
        rfl hm1 hLI0
    set s2 := (succs g v).foldl (scStep g fuel v) (pushV s v) with hs2def
    have hvisv2 : vis s2 v := hL.visMono v hL.visV1
    have hidxv : idxN s2 v = s.index := tarjan_idxv hL
    obtain ⟨niv, hniv⟩ := Jmap.get?_of_contains hvisv2
    have hlldom : s2.lowLinks.contains v = true := by
      rw [hL.inv.ll_dom v]; exact hvisv2
    obtain ⟨nlv, hnlv⟩ := Jmap.get?_of_contains hlldom
    have hidxPres : ∀ w, vis s w → s2.indices.get? w = s.indices.get? w := by
      intro w hw
      have huv : w ≠ v := fun h => hnv (h ▸ hw)
      rw [hL.idxPres w (vis_pushV.mpr (Or.inr hw))]
      show (s.indices.set v s.index).get? w = s.indices.get? w
      exact Jmap.get?_set_ne _ _ _ _ huv
    have hllPres : ∀ w, vis s w → s2.lowLinks.get? w = s.lowLinks.get? w := by
      intro w hw
      have huv : w ≠ v := fun h => hnv (h ▸ hw)
      rw [hL.llPres w (vis_pushV.mpr (Or.inr hw)) huv]
      show (s.lowLinks.set v s.index).get? w = s.lowLinks.get? w
      exact Jmap.get?_set_ne _ _ _ _ huv
    have hindexGt : s.index < s2.index := by
      have h1 : (pushV s v).index ≤ s2.index := hL.indexMono
      have h2 : (pushV s v).index = s.index + 1 := rfl
      omega
    have hnewReach : ∀ w, vis s2 w → ¬vis s w → Reach g v w := by
      intro w hw hnw
      by_cases h1 : vis (pushV s v) w
      · rcases vis_pushV.mp h1 with h | h
        · rw [h]; exact Relation.ReflTransGen.refl
        · exact absurd h hnw
      · exact hL.newReach w hw h1
    have hnewIdxGe : ∀ w, vis s2 w → ¬vis s w → s.index ≤ idxN s2 w := by
      intro w hw hnw
      by_cases h1 : vis (pushV s v) w
      · rcases vis_pushV.mp h1 with h | h
        · rw [h, hidxv]
        · exact absurd h hnw
      · have := hL.newIdxGe w hw h1
        have h2 : (pushV s v).index = s.index + 1 := rfl
        omega
    have hnewLL : ∀ w, vis s2 w → ¬vis s w → llN s2 v ≤ llN s2 w := by
      intro w hw hnw
      by_cases h1 : vis (pushV s v) w
      · rcases vis_pushV.mp h1 with h | h
        · rw [h]
        · exact absurd h hnw
      · exact hL.newLL w hw h1
    have hsccsExt : ∃ t, s2.sccs = s.sccs ++ t := by
      obtain ⟨tl, htl⟩ := hL.sccsExt
      exact ⟨tl, htl⟩
    by_cases hroot : (s2.lowLinks.get? v == s2.indices.get? v) = true
    · rw [if_pos hroot]
      have hrootEq : llN s2 v = idxN s2 v := by
        unfold llN idxN
        rw [hniv, hnlv]
        rw [hniv, hnlv] at hroot
        simpa using hroot
      obtain ⟨ab, bl, hsplit, hnabv, hpop⟩ := popScc_spec s2.stack v hL.vStack
      rw [hpop]
      exact tarjan_pop_post hinv hnv hk hL hrootEq hsplit hnabv
    · rw [if_neg hroot]
      have hne : llN s2 v ≠ idxN s2 v := by
        intro he
        apply hroot
        unfold llN idxN at he
        rw [hniv, hnlv] at he
        simp only [Option.getD_some] at he
        rw [hniv, hnlv]
        simp [he]
      have hlt : llN s2 v < idxN s2 v :=
        lt_of_le_of_ne (hL.inv.ll_le_idx v hvisv2) hne
      refine ⟨?_, ?_, hvisv2, hidxPres, hllPres, hidxv, hindexGt, hsccsExt, ?_,
        hnewReach, hnewIdxGe, hnewLL, Or.inl hL.vStack⟩
      · -- the invariant with v no longer gray
        refine ⟨hL.inv.stack_nodup, hL.inv.onstack_iff, hL.inv.stack_vis,
          hL.inv.vis_keys, hL.inv.idx_lt, hL.inv.idx_inj, hL.inv.ll_dom,
          hL.inv.ll_le_idx, hL.inv.part_iff, hL.inv.stack_em_disj,
          hL.inv.em_nodup, hL.inv.sccs_ne, hL.inv.stack_sorted, ?_, ?_, ?_,
          hL.inv.em_closed, hL.inv.llr, hL.inv.sccs_correct⟩
        · intro u hu
          exact hL.inv.grays_stack u (List.mem_cons_of_mem v hu)
        · intro u hu hng
          by_cases huv : u = v
          · rw [huv]
            exact hlt
          · refine hL.inv.nrs u hu (fun hm => ?_)
            rcases List.mem_cons.mp hm with h | h
            · exact huv h
            · exact hng h
        · intro a ha hng b hb
          by_cases hav : a = v
          · subst hav
            obtain ⟨h1, h2⟩ := hL.done_facts b hb
            refine ⟨h1, ?_⟩
            rcases h2 with h | h | ⟨h3a, h3b⟩
            · exact Or.inl h
            · exact Or.inr (Or.inl h)
            · exact Or.inr (Or.inr ⟨fun hm => h3a (List.mem_cons_of_mem a hm), h3b⟩)
          · obtain ⟨h1, h2⟩ := hL.inv.f4 a ha (fun hm => by
              rcases List.mem_cons.mp hm with h | h
              · exact hav h
              · exact hng h) b hb
            refine ⟨h1, ?_⟩
            rcases h2 with h | h | ⟨h3a, h3b⟩
            · exact Or.inl h
            · exact Or.inr (Or.inl h)
            · exact Or.inr (Or.inr ⟨fun hm => h3a (List.mem_cons_of_mem v hm), h3b⟩)
      · intro w hw
        exact hL.visMono w (vis_pushV.mpr (Or.inr hw))
      · obtain ⟨news, hst, hfr⟩ := hL.stackExt
        refine ⟨news ++ [v], ?_, ?_⟩
        · rw [hst]
          show news ++ (v :: s.stack) = (news ++ [v]) ++ s.stack
          rw [List.append_assoc]
          rfl
        · intro u hu
          rcases List.mem_append.mp hu with h | h
          · intro hv1
            exact hfr u h (vis_pushV.mpr (Or.inr hv1))
          · have : u = v := by simpa using h
            rw [this]
            exact hnv

/-! ## Tarjan correctness: the driver loop of `findCycles` -/

theorem inv_init (g : DependencyGraph) : Inv g ⟨0, [], [], [], [], []⟩ [] := by
  refine ⟨?_, ?_, ?_, ?_, ?_, ?_, ?_, ?_, ?_, ?_, ?_, ?_, ?_, ?_, ?_, ?_, ?_, ?_, ?_⟩
  · simp
  · intro w
    simp [Jset.contains]
  · intro w hw
    simp at hw
  · intro w hw
    simp [vis, Jmap.contains] at hw
  · intro w hw
    simp [vis, Jmap.contains] at hw
  · intro a b ha _ _
    simp [vis, Jmap.contains] at ha
  · intro w
    rfl
  · intro w hw
    simp [vis, Jmap.contains] at hw
  · intro w
    simp [vis, Jmap.contains, emitted]
  · intro w hw
    simp at hw
  · simp [emitted]
  · intro S hS
    simp at hS
  · simp
  · intro w hw
    simp at hw
  · intro w hw
    simp at hw
  · intro a ha
    simp [vis, Jmap.contains] at ha
  · intro a ha
    simp [emitted] at ha
  · intro a ha
    simp at ha
  · intro S hS
    simp at hS

theorem stack_empty_of_inv_nil {g : DependencyGraph} {s : TarjanState}
    (hinv : Inv g s []) : s.stack = [] := by
  have desc : ∀ k u, u ∈ s.stack → idxN s u = k → False := by
    intro k
    induction k using Nat.strong_induction_on with
    | _ k ih =>
      intro u hu hk
      have hnrs := hinv.nrs u hu (by simp)
      obtain ⟨y, hy, hyi, _⟩ := hinv.llr u hu
      have hlty : idxN s y < k := by
        rw [hyi, ← hk]
        exact hnrs
      exact ih (idxN s y) hlty y hy rfl
  cases hs : s.stack with
  | nil => rfl
  | cons h t =>
    exact absurd (desc (idxN s h) h
      (by rw [hs]; exact List.mem_cons_self h t) rfl) (fun h => h)

theorem tmeasure_le_size (g : DependencyGraph) (s : TarjanState) :
    tmeasure g s ≤ g.nodes.size := by
  unfold tmeasure
  calc (keysF g \ visF s).card ≤ (keysF g).card :=
        Finset.card_le_card (Finset.sdiff_subset)
    _ ≤ g.nodes.keys.length := List.toFinset_card_le _
    _ = g.nodes.size := by
        unfold Jmap.keys Jmap.size
        rw [List.length_map]

theorem tmeasure_lt_fuel (g : DependencyGraph) (s : TarjanState) :
    tmeasure g s < tarjanFuel g := by
  have h1 := tmeasure_le_size g s
  unfold tarjanFuel
  omega

theorem driver_spec (g : DependencyGraph)
    (Hran : ∀ a, ∀ b ∈ succs g a, b ∈ g.nodes.keys) :
    ∀ (ks : List String), (∀ k ∈ ks, k ∈ g.nodes.keys) →
    ∀ s : TarjanState, Inv g s [] →
      Inv g (ks.foldl (fun s k =>
        if !(s.indices.contains k) then strongConnect g (tarjanFuel g) k s else s) s) [] ∧
      (∀ w, vis s w →
        vis (ks.foldl (fun s k =>
          if !(s.indices.contains k) then strongConnect g (tarjanFuel g) k s else s) s) w) ∧
      (∀ k ∈ ks,
        vis (ks.foldl (fun s k =>
          if !(s.indices.contains k) then strongConnect g (tarjanFuel g) k s else s) s) k) := by
  intro ks
  induction ks with
  | nil =>
    intro _ s hinv
    exact ⟨hinv, fun w hw => hw, fun k hk => absurd hk (List.not_mem_nil k)⟩
  | cons k ks ih =>
    intro hkeys s hinv
    simp only [List.foldl_cons]
    by_cases hc : s.indices.contains k = true
    · rw [if_neg (by simp [hc])]
      obtain ⟨h1, h2, h3⟩ := ih (fun x hx => hkeys x (List.mem_cons_of_mem k hx)) s hinv
      refine ⟨h1, h2, ?_⟩
      intro x hx
      rcases List.mem_cons.mp hx with h | h
      · rw [h]; exact h2 k hc
      · exact h3 x h
    · rw [if_pos (by simpa using hc)]
      have post := sc_spec g Hran (tarjanFuel g) k s [] hinv hc
        (hkeys k (List.mem_cons_self k ks)) (tmeasure_lt_fuel g s)
      obtain ⟨h1, h2, h3⟩ := ih (fun x hx => hkeys x (List.mem_cons_of_mem k hx))
        (strongConnect g (tarjanFuel g) k s) post.inv
      refine ⟨h1, ?_, ?_⟩
      · intro w hw
        exact h2 w (post.visMono w hw)
      · intro x hx
        rcases List.mem_cons.mp hx with h | h
        · rw [h]; exact h2 k post.visV
        · exact h3 x h

theorem flatten_nodup_piece {ll : List (List String)}
    (h : ll.flatten.Nodup) : ∀ l ∈ ll, l.Nodup := by
  induction ll with
  | nil => intro l hl; cases hl
  | cons x xs ih =>
    intro l hl
    rw [List.flatten_cons, List.nodup_append] at h
    rcases List.mem_cons.mp hl with h2 | h2
    · rw [h2]; exact h.1
    · exact ih h.2.1 l h2

theorem findCycles_eq (g : DependencyGraph) :
    findCycles g = (driverState g).sccs.foldl
      (fun acc scc =>
        if scc.length > 1 then acc ++ [buildCycle g scc]
        else
          match scc with
          | [nodeId] =>
            if ((g.adjacencyList.get? nodeId).getD []).contains nodeId then
              acc ++ [buildCycle g scc]
            else acc
          | _ => acc) [] := rfl

theorem cycStep_mem (g : DependencyGraph) (acc : List Cycle) (S : List String) (c : Cycle) :
    (c ∈ (fun (acc : List Cycle) (scc : List String) =>
        if scc.length > 1 then acc ++ [buildCycle g scc]
        else
          match scc with
          | [nodeId] =>
            if ((g.adjacencyList.get? nodeId).getD []).contains nodeId then
              acc ++ [buildCycle g scc]
            else acc
          | _ => acc) acc S) ↔
      c ∈ acc ∨ (cycCond g S ∧ c = buildCycle g S) := by
  match S with
  | [] =>
    simp [cycCond]
  | [x] =>
    simp only [List.length_singleton]
    rw [if_neg (by omega)]
    by_cases hc : ((g.adjacencyList.get? x).getD []).contains x = true
    · rw [if_pos hc]
      rw [List.mem_append]
      constructor
      · rintro (h | h)
        · exact Or.inl h
        · refine Or.inr ⟨Or.inr ⟨x, rfl, ?_⟩, by simpa using h⟩
          exact Jset.contains_iff.mp hc
      · rintro (h | ⟨_, h⟩)
        · exact Or.inl h
        · exact Or.inr (by simp [h])
    · rw [if_neg hc]
      constructor
      · intro h
        exact Or.inl h
      · rintro (h | ⟨hcond, _⟩)
        · exact h
        · exfalso
          rcases hcond with h1 | ⟨y, hy, hloop⟩
          · simp at h1
          · have hyx : y = x := by
              have := hy
              simp at this
              exact this.symm
            apply hc
            apply Jset.contains_iff.mpr
            rw [← hyx]
            exact hloop
  | a :: b :: t =>
    simp only [List.length_cons]
    rw [if_pos (by omega)]
    rw [List.mem_append]
    constructor
    · rintro (h | h)
      · exact Or.inl h
      · exact Or.inr ⟨Or.inl (by simp only [List.length_cons]; omega), by simpa using h⟩
    · rintro (h | ⟨_, h⟩)
      · exact Or.inl h
      · exact Or.inr (by simp [h])

theorem cycFold_mem (g : DependencyGraph) :
    ∀ (ll : List (List String)) (acc : List Cycle) (c : Cycle),
      (c ∈ ll.foldl
        (fun acc scc =>
          if scc.length > 1 then acc ++ [buildCycle g scc]
          else
            match scc with
            | [nodeId] =>
              if ((g.adjacencyList.get? nodeId).getD []).contains nodeId then
                acc ++ [buildCycle g scc]
              else acc
            | _ => acc) acc) ↔
      c ∈ acc ∨ ∃ S ∈ ll, cycCond g S ∧ c = buildCycle g S := by
  intro ll
  induction ll with
  | nil =>
    intro acc c
    simp
  | cons S ll ih =>
    intro acc c
    rw [List.foldl_cons, ih, cycStep_mem]
    constructor
    · rintro ((h | h) | ⟨S2, hS2, h2⟩)
      · exact Or.inl h
      · exact Or.inr ⟨S, List.mem_cons_self S ll, h⟩
      · exact Or.inr ⟨S2, List.mem_cons_of_mem S hS2, h2⟩
    · rintro (h | ⟨S2, hS2, h2⟩)
      · exact Or.inl (Or.inl h)
      · rcases List.mem_cons.mp hS2 with h | h
        · exact Or.inl (Or.inr (h ▸ h2))
        · exact Or.inr ⟨S2, h, h2⟩

theorem detectCycles_mem (g : DependencyGraph) (c : Cycle) :
    c ∈ detectCycles g ↔
      ∃ S ∈ (driverState g).sccs, cycCond g S ∧ c = buildCycle g S := by
  show c ∈ findCycles g ↔ _
  rw [findCycles_eq, cycFold_mem]
  simp

theorem reachIn_of_scc {g : DependencyGraph} {S : List String}
    (hmut : ∀ a ∈ S, ∀ b ∈ S, SameSCC g a b)
    (hmax : ∀ a ∈ S, ∀ b, SameSCC g a b → b ∈ S) :
    ∀ a ∈ S, ∀ b ∈ S, ReachIn g S a b := by
  intro a ha b hb
  have key : ∀ x, Reach g x b → x ∈ S → ReachIn g S x b := by
    intro x hr
    induction hr using Relation.ReflTransGen.head_induction_on with
    | refl =>
      intro _
      exact Relation.ReflTransGen.refl
    | head hstep hrest ih =>
      rename_i a0 c0
      intro ha0
      have hc0 : c0 ∈ S := by
        apply hmax a0 ha0 c0
        refine ⟨reach_single hstep, ?_⟩
        exact Relation.ReflTransGen.trans hrest (hmut b hb a0 ha0).1
      exact Relation.ReflTransGen.head ⟨ha0, hc0, hstep⟩ (ih hc0)
  exact key a (hmut a ha b hb).1 ha

theorem two_mem_length {l : List String} {p q : String}
    (hp : p ∈ l) (hq : q ∈ l) (hne : p ≠ q) : 2 ≤ l.length := by
  match l with
  | [] => cases hp
  | [x] =>
    have h1 : p = x := by simpa using hp
    have h2 : q = x := by simpa using hq
    exact absurd (h1.trans h2.symm) hne
  | a :: b :: t => simp

/-! ## Tarjan correctness: claim-level theorem -/

theorem hran_of_bounded {g : DependencyGraph}
    (h : ∀ p ∈ g.adjacencyList, ∀ b ∈ p.2, b ∈ g.nodes.keys) :
    ∀ a, ∀ b ∈ succs g a, b ∈ g.nodes.keys := by
  intro a b hb
  unfold succs at hb
  cases hf : g.adjacencyList.get? a with
  | none =>
    rw [hf] at hb
    simp at hb
  | some l =>
    rw [hf] at hb
    simp only [Option.getD_some] at hb
    unfold Jmap.get? at hf
    cases hff : List.find? (fun p => p.1 == a) g.adjacencyList with
    | none =>
      rw [hff] at hf
      simp at hf
    | some p =>
      rw [hff] at hf
      have hpl : p.2 = l := by simpa using hf
      exact h p (List.mem_of_find?_eq_some hff) b (by rw [hpl]; exact hb)

theorem step_to_edgestep {g : DependencyGraph}
    (h2 : ∀ p ∈ g.adjacencyList, ∀ b ∈ p.2, ∃ e ∈ g.edges, e.«from» = p.1 ∧ e.«to» = b) :
    ∀ a b, Step g a b → EdgeStepD g a b := by
  intro a b hb
  unfold Step succs at hb
  cases hf : g.adjacencyList.get? a with
  | none =>
    rw [hf] at hb
    simp at hb
  | some l =>
    rw [hf] at hb
    simp only [Option.getD_some] at hb
    unfold Jmap.get? at hf
    cases hff : List.find? (fun p => p.1 == a) g.adjacencyList with
    | none =>
      rw [hff] at hf
      simp at hf
    | some p =>
      rw [hff] at hf
      have hpl : p.2 = l := by simpa using hf
      have hpk : p.1 = a := by simpa using List.find?_some hff
      obtain ⟨e, he, hef, het⟩ :=
        h2 p (List.mem_of_find?_eq_some hff) b (by rw [hpl]; exact hb)
      exact ⟨e, he, by rw [hef, hpk], het⟩

theorem singleton_of_nodup_all_eq {l : List String} {x : String}
    (hx : x ∈ l) (hall : ∀ y ∈ l, y = x) (hnd : l.Nodup) : l = [x] := by
  cases l with
  | nil => cases hx
  | cons p t =>
    have hp : p = x := hall p (List.mem_cons_self p t)
    cases t with
    | nil => rw [hp]
    | cons q t2 =>
      exfalso
      have hq : q = x := hall q (List.mem_cons_of_mem p (List.mem_cons_self q t2))
      rw [List.nodup_cons] at hnd
      exact hnd.1 (by rw [hp, ← hq]; exact List.mem_cons_self q t2)

/-- C5: the cycle detector reports as cycles exactly the strongly
connected components of size at least 2 plus every size-1 component
whose node has a self-loop in the adjacency list; each reported cycle
carries exactly the edges whose endpoints are both in the cycle, and
every pair of nodes in a reported cycle is mutually reachable along
edges whose endpoints stay within the cycle.  The two hypotheses are
the data-model consistency of the graph: every adjacency-list target
is a node key, and every adjacency-list entry is backed by an edge. -/
theorem c5_cycles_are_sccs (g : DependencyGraph)
    (Hran : ∀ p ∈ g.adjacencyList, ∀ b ∈ p.2, b ∈ g.nodes.keys)
    (Hedge2 : ∀ p ∈ g.adjacencyList, ∀ b ∈ p.2,
      ∃ e ∈ g.edges, e.«from» = p.1 ∧ e.«to» = b) :
    (∀ c ∈ detectCycles g,
        IsSCCList g c.nodes ∧
        (2 ≤ c.nodes.length ∨ ∃ x ∈ c.nodes, Step g x x) ∧
        (∀ a ∈ c.nodes, ∀ b ∈ c.nodes, ReachInE g c.nodes a b) ∧
        c.edges = g.edges.filter (fun e =>
          (c.nodes.any (fun x => x == e.«from»)) &&
          (c.nodes.any (fun x => x == e.«to»)))) ∧
    (∀ S : List String, IsSCCList g S → (2 ≤ S.length ∨ ∃ x ∈ S, Step g x x) →
      ∃ c ∈ detectCycles g, ∀ x, x ∈ c.nodes ↔ x ∈ S) := by
  have hranG := hran_of_bounded Hran
  have hstepE := step_to_edgestep Hedge2
  obtain ⟨hinvF0, _, hallvis0⟩ := driver_spec g hranG g.nodes.keys (fun k hk => hk)
    ⟨0, [], [], [], [], []⟩ (inv_init g)
  have hinvF : Inv g (driverState g) [] := hinvF0
  have hallvis : ∀ k ∈ g.nodes.keys, vis (driverState g) k := hallvis0
  have hstackF : (driverState g).stack = [] := stack_empty_of_inv_nil hinvF
  have hvis_em : ∀ u, vis (driverState g) u → u ∈ emitted (driverState g) := by
    intro u hu
    rcases (hinvF.part_iff u).mp hu with h | h
    · rw [hstackF] at h
      cases h
    · exact h
  constructor
  · intro c hc
    rw [detectCycles_mem] at hc
    obtain ⟨S, hS, hcond, hbuild⟩ := hc
    subst hbuild
    obtain ⟨hmut, hmax⟩ := hinvF.sccs_correct S hS
    have hne := hinvF.sccs_ne S hS
    have hnodup := flatten_nodup_piece hinvF.em_nodup S hS
    refine ⟨⟨hne, hnodup, hmut, hmax⟩, ?_, ?_, rfl⟩
    · rcases hcond with h | ⟨x, hx, hl⟩
      · exact Or.inl h
      · exact Or.inr ⟨x,
          (show x ∈ S from by rw [hx]; exact List.mem_singleton.mpr rfl), hl⟩
    · intro a ha b hb
      have h1 : ReachIn g S a b := reachIn_of_scc hmut hmax a ha b hb
      exact Relation.ReflTransGen.mono
        (fun x y hxy => ⟨hxy.1, hxy.2.1, hstepE x y hxy.2.2⟩) h1
  · intro S hS hcond
    obtain ⟨hSne, hSnodup, hSmut, hSmax⟩ := hS
    have hkeymem : ∀ a ∈ S, a ∈ g.nodes.keys := by
      intro a ha
      by_cases hex : ∃ b ∈ S, b ≠ a
      · obtain ⟨b, hb, hne⟩ := hex
        have hr : Reach g b a := (hSmut b hb a ha).1
        rcases Relation.ReflTransGen.cases_tail hr with heq | ⟨c2, _, hstep⟩
        · exact absurd heq.symm hne
        · exact hranG c2 a hstep
      · push_neg at hex
        rcases hcond with hlen | ⟨x, hx, hloop⟩
        · exfalso
          cases S with
          | nil => cases ha
          | cons p rest =>
            cases rest with
            | nil => simp at hlen
            | cons q t =>
              have h1 : p = a := hex p (List.mem_cons_self p _)
              have h2 : q = a :=
                hex q (List.mem_cons_of_mem p (List.mem_cons_self q t))
              have hnd := hSnodup
              rw [List.nodup_cons] at hnd
              exact hnd.1 (by rw [h1, ← h2]; exact List.mem_cons_self q t)
        · have hxa : x = a := hex x hx
          exact hranG a a (hxa ▸ hloop)
    obtain ⟨a0, ha0⟩ := List.exists_mem_of_ne_nil S hSne
    have hema : a0 ∈ emitted (driverState g) :=
      hvis_em a0 (hallvis a0 (hkeymem a0 ha0))
    unfold emitted at hema
    obtain ⟨S2, hS2, ha0S2⟩ := List.mem_flatten.mp hema
    obtain ⟨hmut2, hmax2⟩ := hinvF.sccs_correct S2 hS2
    have hiff : ∀ x, x ∈ S2 ↔ x ∈ S := by
      intro x
      constructor
      · intro hx
        exact hSmax a0 ha0 x (hmut2 a0 ha0S2 x hx)
      · intro hx
        exact hmax2 a0 ha0S2 x (hSmut a0 ha0 x hx)
    refine ⟨buildCycle g S2, ?_, fun x => hiff x⟩
    rw [detectCycles_mem]
    refine ⟨S2, hS2, ?_, rfl⟩
    by_cases hlen2 : 1 < S2.length
    · exact Or.inl hlen2
    · right
      have hS2a0 : S2 = [a0] := by
        cases S2 with
        | nil => cases ha0S2
        | cons y t =>
          cases t with
          | nil =>
            have : a0 = y := by simpa using ha0S2
            rw [this]
          | cons z t2 =>
            exfalso
            apply hlen2
            simp only [List.length_cons]
            omega
      rcases hcond with hlen | ⟨x, hx, hloop⟩
      · exfalso
        cases S with
        | nil => cases ha0
        | cons p rest =>
          cases rest with
          | nil => simp at hlen
          | cons q t =>
            have hp : p = a0 := by
              have := (hiff p).mpr (List.mem_cons_self p _)
              rw [hS2a0] at this
              simpa using this
            have hq : q = a0 := by
              have := (hiff q).mpr (List.mem_cons_of_mem p (List.mem_cons_self q t))
              rw [hS2a0] at this
              simpa using this
            have hnd := hSnodup
            rw [List.nodup_cons] at hnd
            exact hnd.1 (by rw [hp, ← hq]; exact List.mem_cons_self q t)
      · have hxa0 : x = a0 := by
          have := (hiff x).mpr hx
          rw [hS2a0] at this
          simpa using this
        exact ⟨a0, hS2a0, hxa0 ▸ hloop⟩

/-- Witness: `c5_cycles_are_sccs` applied to the concrete two-crate
graph `c5graph`, with both hypotheses discharged by evaluation. -/
theorem c5_cycles_are_sccs_witness :
    (∀ p ∈ c5graph.adjacencyList, ∀ b ∈ p.2, b ∈ c5graph.nodes.keys) ∧
    (∀ p ∈ c5graph.adjacencyList, ∀ b ∈ p.2,
      ∃ e ∈ c5graph.edges, e.«from» = p.1 ∧ e.«to» = b) ∧
    ((∀ c ∈ detectCycles c5graph,
        IsSCCList c5graph c.nodes ∧
        (2 ≤ c.nodes.length ∨ ∃ x ∈ c.nodes, Step c5graph x x) ∧
        (∀ a ∈ c.nodes, ∀ b ∈ c.nodes, ReachInE c5graph c.nodes a b) ∧
        c.edges = c5graph.edges.filter (fun e =>
          (c.nodes.any (fun x => x == e.«from»)) &&
          (c.nodes.any (fun x => x == e.«to»)))) ∧
     (∀ S : List String, IsSCCList c5graph S →
        (2 ≤ S.length ∨ ∃ x ∈ S, Step c5graph x x) →
        ∃ c ∈ detectCycles c5graph, ∀ x, x ∈ c.nodes ↔ x ∈ S)) :=
  ⟨by decide, by decide, c5_cycles_are_sccs c5graph (by decide) (by decide)⟩

end RustDsm

